import Mathlib

/-!
# Artic front end: hash-consed types (`types.cpp`) and checker helpers (`check.cpp`)

Shallow embedding of the type table, the per-variant operations
(`equals`, `hash`, `replace`, member lookup), `join_types`, and the
diagnostic helpers of the type checker.

Pointers to `Type` objects are modelled as handles: the index of the
object in the arena `TypeTable.types_`, in creation order.  Objects are
never deleted or moved while the table lives, so a handle keeps naming
the same object.  References to AST declarations (`decl`, `param`) are
modelled by the address of the declaration, a natural number.
-/

namespace Artic

/-! ## Data model -/

/-- Handle of a `Type` object: its position in the arena of the table. -/
abbrev Handle := Nat

/-- The concrete classes deriving from `Type` in `types.cpp`, with the
fields that `equals`, `hash`, `contains` and `replace` read. -/
inductive TypeNode where
  | PrimType (tag : Nat)
  | TupleType (args : List Handle)
  | SizedArrayType (elem : Handle) (size : Nat)
  | UnsizedArrayType (elem : Handle)
  | PtrType (pointee : Handle)
  | FnType (dom : Handle) (codom : Handle)
  | NoRetType
  | TypeError
  | TypeVar (param : Nat)
  | ForallType (decl : Nat)
  | StructType (decl : Nat)
  | EnumType (decl : Nat)
  | TypeApp (applied : Handle) (type_args : List Handle)
  deriving DecidableEq, Repr

/-- Dynamic class of a node, the argument of `typeid(*this)`. -/
inductive Kind where
  | PrimType | TupleType | SizedArrayType | UnsizedArrayType | PtrType | FnType
  | NoRetType | TypeError | TypeVar | ForallType | StructType | EnumType | TypeApp
  deriving DecidableEq, Repr

/-- The `fnv::Hash` accumulator of `hash.h` and `std::type_info::hash_code`,
neither of which is part of the sources at hand: they are parameters. -/
structure Fnv where
  /-- state of a freshly constructed `fnv::Hash()` -/
  offset : Nat
  /-- the state after `.combine(x)` -/
  combine : Nat → Nat → Nat
  /-- the value of `typeid(*this).hash_code()` for each class -/
  hash_code : Kind → Nat

/-- A small concrete accumulator, used to evaluate examples. -/
def Fnv.sample : Fnv where
  offset := 2166136261
  combine := fun h x => ((h ^^^ x) * 16777619) % 4294967296
  hash_code := fun k =>
    match k with
    | .PrimType => 1 | .TupleType => 2 | .SizedArrayType => 3 | .UnsizedArrayType => 4
    | .PtrType => 5 | .FnType => 6 | .NoRetType => 7 | .TypeError => 8 | .TypeVar => 9
    | .ForallType => 10 | .StructType => 11 | .EnumType => 12 | .TypeApp => 13

namespace TypeNode

/-- The virtual `equals`: `this` is the object at handle `self` with
fields `n`, `other` the object at handle `other` with fields `o`.  The
structural classes compare class and fields; `TypeVar`, `ForallType`,
`StructType` and `EnumType` compare the two pointers. -/
def equals (self : Handle) (n : TypeNode) (other : Handle) (o : TypeNode) : Bool :=
  match n with
  | PrimType tag =>
    match o with
    | PrimType t => t == tag
    | _ => false
  | TupleType args =>
    match o with
    | TupleType a => a == args
    | _ => false
  | SizedArrayType elem size =>
    match o with
    | SizedArrayType e s => e == elem && s == size
    | _ => false
  | UnsizedArrayType elem =>
    match o with
    | UnsizedArrayType e => e == elem
    | _ => false
  | PtrType pointee =>
    match o with
    | PtrType p => p == pointee
    | _ => false
  | FnType dom codom =>
    match o with
    | FnType d c => d == dom && c == codom
    | _ => false
  | NoRetType =>
    match o with
    | NoRetType => true
    | _ => false
  | TypeError =>
    match o with
    | TypeError => true
    | _ => false
  | TypeVar _ => other == self
  | ForallType _ => other == self
  | StructType _ => other == self
  | EnumType _ => other == self
  | TypeApp applied type_args =>
    match o with
    | TypeApp ap ta => ap == applied && ta == type_args
    | _ => false

/-- The virtual `hash`. -/
def hash (H : Fnv) : TypeNode → Nat
  | PrimType tag => H.combine (H.combine H.offset (H.hash_code .PrimType)) tag
  | TupleType args => args.foldl H.combine (H.combine H.offset (H.hash_code .TupleType))
  | SizedArrayType elem size =>
    H.combine (H.combine (H.combine H.offset (H.hash_code .SizedArrayType)) elem) size
  | UnsizedArrayType elem => H.combine (H.combine H.offset (H.hash_code .UnsizedArrayType)) elem
  | PtrType pointee => H.combine (H.combine H.offset (H.hash_code .PtrType)) pointee
  | FnType dom codom =>
    H.combine (H.combine (H.combine H.offset (H.hash_code .FnType)) dom) codom
  | NoRetType => H.combine H.offset (H.hash_code .NoRetType)
  | TypeError => H.combine H.offset (H.hash_code .TypeError)
  | TypeVar param => H.combine H.offset param
  | ForallType decl => H.combine H.offset decl
  | StructType decl => H.combine H.offset decl
  | EnumType decl => H.combine H.offset decl
  | TypeApp applied type_args =>
    type_args.foldl H.combine (H.combine (H.combine H.offset (H.hash_code .TypeApp)) applied)

/-- The classes whose `equals` compares fields rather than addresses. -/
def isStructural : TypeNode → Bool
  | TypeVar _ => false
  | ForallType _ => false
  | StructType _ => false
  | EnumType _ => false
  | _ => true

end TypeNode

/-! ## Type table -/

/-- The state of a `TypeTable`: the set `types_` (kept in creation order,
so that the position of an object is its handle) and the three cached
singletons. -/
structure TypeTable where
  types_ : List TypeNode
  unit_type_ : Option Handle
  no_ret_type_ : Option Handle
  type_error_ : Option Handle
  deriving DecidableEq, Repr

namespace TypeTable

/-- A table right after construction. -/
def empty : TypeTable := ⟨[], none, none, none⟩

/-- The object behind a handle, if the handle names one. -/
def node (tt : TypeTable) (h : Handle) : Option TypeNode := tt.types_[h]?

/-- Scan of `types_.find(&t)`: `t` is the temporary with fields `t` at
address `self`; the stored objects `l` have handles `i`, `i+1`, ...  An
object matches when it has the hash of `t` and `t.equals` accepts it. -/
def findFrom (H : Fnv) (self : Handle) (t : TypeNode) : Nat → List TypeNode → Option Handle
  | _, [] => none
  | i, s :: rest =>
    if t.hash H == s.hash H && t.equals self i s then some i
    else findFrom H self t (i + 1) rest

/-- The lookup `types_.find(&t)`.  The temporary `t` lives on the stack,
at an address that is no stored object: the first unused handle.  The
set's hasher and comparison are declared in `types.h`, outside the
sources at hand; they are taken to call `hash` and `equals`.  On which of
the two objects `equals` is called makes no difference: the structural
versions compare the same fields either way, the others two addresses. -/
def find (H : Fnv) (tt : TypeTable) (t : TypeNode) : Option Handle :=
  findFrom H tt.types_.length t 0 tt.types_

/-- The template `TypeTable::insert<T>(args...)`, for the object `t`
built from `args`: the stored object equal to `t` if there is one,
otherwise a new object, stored at the next handle. -/
def insert (H : Fnv) (tt : TypeTable) (t : TypeNode) : Handle × TypeTable :=
  match tt.find H t with
  | some h => (h, tt)
  | none => (tt.types_.length, { tt with types_ := tt.types_ ++ [t] })

def prim_type (H : Fnv) (tt : TypeTable) (tag : Nat) : Handle × TypeTable :=
  tt.insert H (.PrimType tag)

def tuple_type (H : Fnv) (tt : TypeTable) (elems : List Handle) : Handle × TypeTable :=
  tt.insert H (.TupleType elems)

def unit_type (H : Fnv) (tt : TypeTable) : Handle × TypeTable :=
  match tt.unit_type_ with
  | some h => (h, tt)
  | none =>
    let r := tt.tuple_type H []
    (r.1, { r.2 with unit_type_ := some r.1 })

def sized_array_type (H : Fnv) (tt : TypeTable) (elem : Handle) (size : Nat) :
    Handle × TypeTable :=
  tt.insert H (.SizedArrayType elem size)

def unsized_array_type (H : Fnv) (tt : TypeTable) (elem : Handle) : Handle × TypeTable :=
  tt.insert H (.UnsizedArrayType elem)

def ptr_type (H : Fnv) (tt : TypeTable) (pointee : Handle) : Handle × TypeTable :=
  tt.insert H (.PtrType pointee)

def fn_type (H : Fnv) (tt : TypeTable) (dom codom : Handle) : Handle × TypeTable :=
  tt.insert H (.FnType dom codom)

def no_ret_type (H : Fnv) (tt : TypeTable) : Handle × TypeTable :=
  match tt.no_ret_type_ with
  | some h => (h, tt)
  | none =>
    let r := tt.insert H .NoRetType
    (r.1, { r.2 with no_ret_type_ := some r.1 })

def cn_type (H : Fnv) (tt : TypeTable) (dom : Handle) : Handle × TypeTable :=
  let r := tt.no_ret_type H
  r.2.fn_type H dom r.1

def type_error (H : Fnv) (tt : TypeTable) : Handle × TypeTable :=
  match tt.type_error_ with
  | some h => (h, tt)
  | none =>
    let r := tt.insert H .TypeError
    (r.1, { r.2 with type_error_ := some r.1 })

def type_var (H : Fnv) (tt : TypeTable) (param : Nat) : Handle × TypeTable :=
  tt.insert H (.TypeVar param)

def forall_type (H : Fnv) (tt : TypeTable) (decl : Nat) : Handle × TypeTable :=
  tt.insert H (.ForallType decl)

def struct_type (H : Fnv) (tt : TypeTable) (decl : Nat) : Handle × TypeTable :=
  tt.insert H (.StructType decl)

def enum_type (H : Fnv) (tt : TypeTable) (decl : Nat) : Handle × TypeTable :=
  tt.insert H (.EnumType decl)

def type_app (H : Fnv) (tt : TypeTable) (applied : Handle) (type_args : List Handle) :
    Handle × TypeTable :=
  tt.insert H (.TypeApp applied type_args)

end TypeTable

/-! ## Helpers -/

/-- The test `type->isa<NoRetType>()`. -/
def isNoRet (tt : TypeTable) (h : Handle) : Bool :=
  match tt.node h with
  | some .NoRetType => true
  | _ => false

/-- The cast `type->isa<SizedArrayType>()`: the element of the array when
the object is one. -/
def isaSizedArray (tt : TypeTable) (h : Handle) : Option Handle :=
  match tt.node h with
  | some (.SizedArrayType elem _) => some elem
  | _ => none

/-- The cast `type->isa<UnsizedArrayType>()`. -/
def isaUnsizedArray (tt : TypeTable) (h : Handle) : Option Handle :=
  match tt.node h with
  | some (.UnsizedArrayType elem) => some elem
  | _ => none

/-- The condition `l && r` followed by `l->elem == r->elem`, for the
results `l` and `r` of two `isa` casts to array classes: both casts
succeed and the two arrays have the same element. -/
def sameElem : Option Handle → Option Handle → Bool
  | some l, some r => l == r
  | _, _ => false

/-- The join of two types according to the subtyping relation; `none` is
the null pointer.  Each of the two array tests returns only when both
casts succeed and the elements agree, and falls through otherwise. -/
def join_types (tt : TypeTable) (left right : Handle) : Option Handle :=
  if left = right then some left
  else if isNoRet tt left then some right
  else if isNoRet tt right then some left
  else if sameElem (isaSizedArray tt left) (isaUnsizedArray tt right) then some right
  else if sameElem (isaUnsizedArray tt left) (isaSizedArray tt right) then some left
  else none

/-! ## Substitution -/

/-- The substitution `std::unordered_map<const TypeVar*, const Type*>`, as
the list of its entries. -/
abbrev TypeMap := List (Handle × Handle)

/-- The lookup `map.find(key)`: the mapped type, `none` for `map.end()`. -/
def TypeMap.find (map : TypeMap) (key : Handle) : Option Handle :=
  match map with
  | [] => none
  | (k, v) :: rest => if k = key then some v else TypeMap.find rest key

/-- The insertion `map.emplace(key, value)`, which keeps an entry that is
already there. -/
def TypeMap.emplace (map : TypeMap) (key value : Handle) : TypeMap :=
  match TypeMap.find map key with
  | some _ => map
  | none => map ++ [(key, value)]

/-- The loop `for i: new_args[i] = args[i]->replace(type_table, map)` of
`TupleType::replace` and `TypeApp::replace`, over the recursive call `rep`;
the table is threaded through the iterations. -/
def replaceArgs (rep : TypeTable → Handle → Option (Handle × TypeTable)) :
    TypeTable → List Handle → Option (List Handle × TypeTable)
  | tt, [] => some ([], tt)
  | tt, a :: rest =>
    match rep tt a with
    | none => none
    | some (a1, tt1) =>
      match replaceArgs rep tt1 rest with
      | none => none
      | some (rest1, tt2) => some (a1 :: rest1, tt2)

/-- The virtual `replace(type_table, map)` called on the object at handle
`h`.  The recursion follows pointers, so it carries fuel: `none` stands for
fuel running out or for a pointer that names no object.  C++ leaves the
order of the two recursive calls of `FnType::replace` to the compiler:
`domFirst` chooses it.  `PrimType`, `NoRetType`, `TypeError`, `ForallType`,
`StructType` and `EnumType` do not override `replace` in `types.cpp`; the
inherited version is declared in `types.h`, which is not part of the
sources, and is taken to return `this`. -/
def replace (H : Fnv) (domFirst : Bool) (map : TypeMap) :
    Nat → TypeTable → Handle → Option (Handle × TypeTable)
  | 0, _, _ => none
  | fuel + 1, tt, h =>
    match tt.node h with
    | none => none
    | some (.TupleType args) =>
      match replaceArgs (replace H domFirst map fuel) tt args with
      | none => none
      | some (new_args, tt1) => some (tt1.tuple_type H new_args)
    | some (.SizedArrayType elem size) =>
      match replace H domFirst map fuel tt elem with
      | none => none
      | some (e, tt1) => some (tt1.sized_array_type H e size)
    | some (.UnsizedArrayType elem) =>
      match replace H domFirst map fuel tt elem with
      | none => none
      | some (e, tt1) => some (tt1.unsized_array_type H e)
    | some (.PtrType pointee) =>
      match replace H domFirst map fuel tt pointee with
      | none => none
      | some (p, tt1) => some (tt1.ptr_type H p)
    | some (.FnType dom codom) =>
      if domFirst then
        match replace H domFirst map fuel tt dom with
        | none => none
        | some (d, tt1) =>
          match replace H domFirst map fuel tt1 codom with
          | none => none
          | some (c, tt2) => some (tt2.fn_type H d c)
      else
        match replace H domFirst map fuel tt codom with
        | none => none
        | some (c, tt1) =>
          match replace H domFirst map fuel tt1 dom with
          | none => none
          | some (d, tt2) => some (tt2.fn_type H d c)
    | some (.TypeVar _) =>
      match TypeMap.find map h with
      | some image => some (image, tt)
      | none => some (h, tt)
    | some (.TypeApp applied type_args) =>
      match replaceArgs (replace H domFirst map fuel) tt type_args with
      | none => none
      | some (new_type_args, tt1) => some (tt1.type_app H applied new_type_args)
    | some _ => some (h, tt)

/-! ## Declarations read by the type classes -/

/-- An `ast::TypeParam`, as far as `types.cpp` reads it: the type written
on the node, the `TypeVar` of the parameter, or null. -/
structure TypeParam where
  type : Option Handle
  deriving DecidableEq, Repr

/-- An `ast::FnDecl`: its optional `type_params->params`. -/
structure FnDecl where
  type_params : Option (List TypeParam)
  deriving DecidableEq, Repr

/-- An `ast::FieldDecl`: `id.name` and the type written on the node. -/
structure FieldDecl where
  id_name : String
  type : Option Handle
  deriving DecidableEq, Repr

/-- An `ast::StructDecl`. -/
structure StructDecl where
  type_params : Option (List TypeParam)
  fields : List FieldDecl
  deriving DecidableEq, Repr

/-- An `ast::OptionDecl`, a variant of an enumeration. -/
structure OptionDecl where
  id_name : String
  type : Option Handle
  deriving DecidableEq, Repr

/-- An `ast::EnumDecl`. -/
structure EnumDecl where
  type_params : Option (List TypeParam)
  options : List OptionDecl
  deriving DecidableEq, Repr

/-- The declarations that `StructType::decl` and `EnumType::decl` refer
to, by address. -/
structure Ast where
  struct_decl : Nat → StructDecl
  enum_decl : Nat → EnumDecl

/-- The algorithm `std::find_if(first, last, p) - first`: the position of
the first element satisfying `p`, the length of the range when there is
none. -/
def find_if {α : Type} (p : α → Bool) : List α → Nat
  | [] => 0
  | x :: xs => if p x then 0 else find_if p xs + 1

/-- The loop of `ForallType::instantiate` and `TypeApp::member_type` that
fills the map: the `i`-th parameter must carry a type (the assertion),
which is mapped to the `i`-th argument; `as<TypeVar>()` casts the pointer
and leaves the handle as it is.  The caller has asserted that the two
lists have the same length. -/
def bindParams : List TypeParam → List Handle → TypeMap → Option TypeMap
  | p :: ps, a :: as, map =>
    match p.type with
    | none => none
    | some v => bindParams ps as (TypeMap.emplace map v a)
  | _, _, map => some map

/-- The method `ForallType::instantiate` of a forall type with fields
`decl` and `body`; a failed assertion is `none`. -/
def ForallType.instantiate (H : Fnv) (domFirst : Bool) (fuel : Nat) (tt : TypeTable)
    (decl : FnDecl) (body : Handle) (args : List Handle) : Option (Handle × TypeTable) :=
  match decl.type_params with
  | none => none
  | some params =>
    if params.length ≠ args.length then none
    else
      match bindParams params args [] with
      | none => none
      | some map => replace H domFirst map fuel tt body

namespace StructType

def type_params (decl : StructDecl) : Option (List TypeParam) := decl.type_params

def find_member (decl : StructDecl) (name : String) : Option Nat :=
  let it := find_if (fun f => f.id_name == name) decl.fields
  if it ≠ decl.fields.length then some it else none

/-- The member type `decl.fields[i]->type`; `none` when `i` is out of
range or the field carries no type yet. -/
def member_type (decl : StructDecl) (i : Nat) : Option Handle :=
  match decl.fields.get? i with
  | some f => f.type
  | none => none

def member_count (decl : StructDecl) : Nat := decl.fields.length

end StructType

namespace EnumType

def type_params (decl : EnumDecl) : Option (List TypeParam) := decl.type_params

def find_member (decl : EnumDecl) (name : String) : Option Nat :=
  let it := find_if (fun o => o.id_name == name) decl.options
  if it ≠ decl.options.length then some it else none

/-- The member type `decl.options[i]->type`. -/
def member_type (decl : EnumDecl) (i : Nat) : Option Handle :=
  match decl.options.get? i with
  | some o => o.type
  | none => none

def member_count (decl : EnumDecl) : Nat := decl.options.length

end EnumType

namespace UserType

/-- The virtual `type_params()` of the object at handle `applied`; the
outer `none` when the object is no struct or enum type. -/
def type_params (ast : Ast) (tt : TypeTable) (applied : Handle) :
    Option (Option (List TypeParam)) :=
  match tt.node applied with
  | some (.StructType decl) => some (StructType.type_params (ast.struct_decl decl))
  | some (.EnumType decl) => some (EnumType.type_params (ast.enum_decl decl))
  | _ => none

/-- The virtual `member_type(i)` of the object at handle `applied`. -/
def member_type (ast : Ast) (tt : TypeTable) (applied : Handle) (i : Nat) : Option Handle :=
  match tt.node applied with
  | some (.StructType decl) => StructType.member_type (ast.struct_decl decl) i
  | some (.EnumType decl) => EnumType.member_type (ast.enum_decl decl) i
  | _ => none

/-- The virtual `member_count()` of the object at handle `applied`. -/
def member_count (ast : Ast) (tt : TypeTable) (applied : Handle) : Option Nat :=
  match tt.node applied with
  | some (.StructType decl) => some (StructType.member_count (ast.struct_decl decl))
  | some (.EnumType decl) => some (EnumType.member_count (ast.enum_decl decl))
  | _ => none

end UserType

/-- The method `TypeApp::member_type` of a type application with fields
`applied` and `type_args`; a failed assertion is `none`. -/
def TypeApp.member_type (H : Fnv) (domFirst : Bool) (fuel : Nat) (ast : Ast) (tt : TypeTable)
    (applied : Handle) (type_args : List Handle) (i : Nat) : Option (Handle × TypeTable) :=
  match UserType.type_params ast tt applied with
  | some (some params) =>
    if params.length ≠ type_args.length then none
    else
      match bindParams params type_args [] with
      | none => none
      | some map =>
        match UserType.member_type ast tt applied i with
        | none => none
        | some member => replace H domFirst map fuel tt member
  | _ => none

/-! ## Sequences of requests and the interning invariant -/

/-- A run of factory requests, one per description, in order; the table
after the last one. -/
def TypeTable.insertAll (H : Fnv) : TypeTable → List TypeNode → TypeTable
  | tt, [] => tt
  | tt, t :: ts => TypeTable.insertAll H (tt.insert H t).2 ts

/-- The interning invariant of a table: a stored object of a structural
class is the first stored object with its fields, so no two stored
objects of a structural class are equal. -/
def TypeTable.Interned (tt : TypeTable) : Prop :=
  ∀ h n, tt.node h = some n → n.isStructural = true → tt.types_.indexOf n = h

/-- The handles an object points to. -/
def TypeNode.children : TypeNode → List Handle
  | .TupleType args => args
  | .SizedArrayType elem _ => [elem]
  | .UnsizedArrayType elem => [elem]
  | .PtrType pointee => [pointee]
  | .FnType dom codom => [dom, codom]
  | .TypeApp applied type_args => applied :: type_args
  | _ => []

/-- A table in which every object points only to objects created before
it, as is the case when every factory argument is a handle the table has
already returned. -/
def TypeTable.Closed (tt : TypeTable) : Prop :=
  ∀ (h : Nat) (n : TypeNode), tt.node h = some n → ∀ c ∈ n.children, c < h

/-- What it means, in a table `tt`, for the type `r` to be the type `h`
with every variable `v` replaced by `σ v` (variables outside the domain
of `σ` stay): the reading of "the body with the variable of each
parameter replaced by its argument", written after the words of the
specification and independently of `replace`.  Objects without
components are their own substitution; a composite object is substituted
componentwise.  The first argument bounds the depth to which `h` is
descended. -/
def IsSubst (tt : TypeTable) (σ : Handle → Option Handle) : Nat → Handle → Handle → Prop
  | 0, _, _ => False
  | depth + 1, h, r =>
    match tt.node h with
    | none => False
    | some (.TypeVar _) =>
      match σ h with
      | some image => r = image
      | none => r = h
    | some (.TupleType args) =>
      ∃ args1, tt.node r = some (.TupleType args1) ∧ List.Forall₂ (IsSubst tt σ depth) args args1
    | some (.SizedArrayType elem size) =>
      ∃ elem1, tt.node r = some (.SizedArrayType elem1 size) ∧ IsSubst tt σ depth elem elem1
    | some (.UnsizedArrayType elem) =>
      ∃ elem1, tt.node r = some (.UnsizedArrayType elem1) ∧ IsSubst tt σ depth elem elem1
    | some (.PtrType pointee) =>
      ∃ pointee1, tt.node r = some (.PtrType pointee1) ∧ IsSubst tt σ depth pointee pointee1
    | some (.FnType dom codom) =>
      ∃ dom1 codom1, tt.node r = some (.FnType dom1 codom1) ∧
        IsSubst tt σ depth dom dom1 ∧ IsSubst tt σ depth codom codom1
    | some (.TypeApp applied type_args) =>
      ∃ type_args1, tt.node r = some (.TypeApp applied type_args1) ∧
        List.Forall₂ (IsSubst tt σ depth) type_args type_args1
    | some _ => r = h

/-- The classes that do not override `replace`. -/
def TypeNode.inheritsReplace : TypeNode → Bool
  | .PrimType _ => true
  | .NoRetType => true
  | .TypeError => true
  | .ForallType _ => true
  | .StructType _ => true
  | .EnumType _ => true
  | _ => false

/-- One level of `replace` on the object at `h`, over the recursive call
`rep`: the paths through the body of the method that return a result. -/
inductive ReplaceStep (H : Fnv) (domFirst : Bool) (map : TypeMap)
    (rep : TypeTable → Handle → Option (Handle × TypeTable)) (tt : TypeTable) (h : Handle) :
    Handle × TypeTable → Prop where
  | tuple (args new_args : List Handle) (tt1 : TypeTable) :
    tt.node h = some (.TupleType args) → replaceArgs rep tt args = some (new_args, tt1) →
    ReplaceStep H domFirst map rep tt h (tt1.insert H (.TupleType new_args))
  | sized (elem size e : Nat) (tt1 : TypeTable) :
    tt.node h = some (.SizedArrayType elem size) → rep tt elem = some (e, tt1) →
    ReplaceStep H domFirst map rep tt h (tt1.insert H (.SizedArrayType e size))
  | unsized (elem e : Nat) (tt1 : TypeTable) :
    tt.node h = some (.UnsizedArrayType elem) → rep tt elem = some (e, tt1) →
    ReplaceStep H domFirst map rep tt h (tt1.insert H (.UnsizedArrayType e))
  | ptr (pointee p : Nat) (tt1 : TypeTable) :
    tt.node h = some (.PtrType pointee) → rep tt pointee = some (p, tt1) →
    ReplaceStep H domFirst map rep tt h (tt1.insert H (.PtrType p))
  | fn_dom_first (dom codom d c : Nat) (tt1 tt2 : TypeTable) :
    tt.node h = some (.FnType dom codom) → domFirst = true →
    rep tt dom = some (d, tt1) → rep tt1 codom = some (c, tt2) →
    ReplaceStep H domFirst map rep tt h (tt2.insert H (.FnType d c))
  | fn_codom_first (dom codom d c : Nat) (tt1 tt2 : TypeTable) :
    tt.node h = some (.FnType dom codom) → domFirst = false →
    rep tt codom = some (c, tt1) → rep tt1 dom = some (d, tt2) →
    ReplaceStep H domFirst map rep tt h (tt2.insert H (.FnType d c))
  | var_mapped (param image : Nat) :
    tt.node h = some (.TypeVar param) → TypeMap.find map h = some image →
    ReplaceStep H domFirst map rep tt h (image, tt)
  | var_free (param : Nat) :
    tt.node h = some (.TypeVar param) → TypeMap.find map h = none →
    ReplaceStep H domFirst map rep tt h (h, tt)
  | app (applied : Nat) (type_args new_type_args : List Handle) (tt1 : TypeTable) :
    tt.node h = some (.TypeApp applied type_args) →
    replaceArgs rep tt type_args = some (new_type_args, tt1) →
    ReplaceStep H domFirst map rep tt h (tt1.insert H (.TypeApp applied new_type_args))
  | inherited (n : TypeNode) :
    tt.node h = some n → n.inheritsReplace = true →
    ReplaceStep H domFirst map rep tt h (h, tt)

/-- The table `later` is a later state of the table `tt`: the objects of
`tt` are still there, at the same handles. -/
def TypeTable.GrowsTo (tt later : TypeTable) : Prop :=
  ∃ l, later.types_ = tt.types_ ++ l

/-- The substitution that "replaces the variable of the `j`-th parameter
by the `j`-th argument", written after the words of the specification:
the image of `v` is the argument at the position of the first parameter
whose variable is `v`; other handles have no image. -/
def paramSubst : List TypeParam → List Handle → Handle → Option Handle
  | p :: ps, a :: as, v => if p.type = some v then some a else paramSubst ps as v
  | _, _, _ => none

/-! ## Diagnostics of the type checker -/

/-- A source location, a range of positions. -/
structure Loc where
  first : Nat
  last : Nat
  deriving DecidableEq, Repr

/-- The format strings of `check.cpp` with their arguments. -/
inductive Message (T : Type) where
  /-- expected type E, but got M with type T -/
  | expected_got_with_type (expected : T) (msg : String) (type : T)
  /-- expected type E, but got M -/
  | expected_got (expected : T) (msg : String)
  /-- expected type E, but got type T -/
  | expected_got_type (expected : T) (type : T)
  /-- cannot infer type for M -/
  | cannot_infer (msg : String)
  /-- unreachable code -/
  | unreachable_code
  /-- after this statement -/
  | after_this_statement
  /-- expected N argument(s) in M, but got K -/
  | expected_arguments (expected : Nat) (msg : String) (got : Nat)
  /-- expected function or array type in call expression, but got T -/
  | expected_function_or_array (type : T)
  deriving DecidableEq, Repr

/-- What the sink receives. -/
inductive Diagnostic (T : Type) where
  | error (loc : Loc) (text : Message T)
  | note (loc : Loc) (text : Message T)
  deriving DecidableEq, Repr

/-- The operations on the checker's `Type` values that `check.cpp` calls
and that are declared outside the sources at hand: `Type::meet` (`none`
for the null type), `Type::contains` and the checker's `error_type()`. -/
structure TypeOps (T : Type) where
  meet : T → T → Option T
  contains : T → T → Bool
  error_type : T

/-- The state of the checker that its helpers change: the running error
counter and what was sent to the sink. -/
structure TypeChecker (T : Type) where
  error_count : Nat
  diagnostics : List (Diagnostic T)
  deriving DecidableEq, Repr

namespace TypeChecker

/-- Modelled from the spec: the sink's `error(location, message, ...)`,
defined in `log.h`, which is not part of the sources; it records the
message and advances the running error counter. -/
def error {T : Type} (c : TypeChecker T) (loc : Loc) (text : Message T) : TypeChecker T :=
  { error_count := c.error_count + 1, diagnostics := c.diagnostics ++ [.error loc text] }

/-- Modelled from the spec: the sink's `note(location, message, ...)`,
which records the message and leaves the error counter alone. -/
def note {T : Type} (c : TypeChecker T) (loc : Loc) (text : Message T) : TypeChecker T :=
  { c with diagnostics := c.diagnostics ++ [.note loc text] }

def should_emit_error {T : Type} (ops : TypeOps T) (type : T) : Bool :=
  !ops.contains type ops.error_type

/-- The overload `expect(loc, msg, type, expected)`. -/
def expect_with_msg {T : Type} (ops : TypeOps T) (c : TypeChecker T) (loc : Loc) (msg : String)
    (type expected : T) : T × TypeChecker T :=
  match ops.meet type expected with
  | some meet => (meet, c)
  | none =>
    if should_emit_error ops type then
      (ops.error_type, c.error loc (.expected_got_with_type expected msg type))
    else (ops.error_type, c)

/-- The overload `expect(loc, msg, expected)`. -/
def expect_no_type {T : Type} (ops : TypeOps T) (c : TypeChecker T) (loc : Loc) (msg : String)
    (expected : T) : T × TypeChecker T :=
  (ops.error_type, c.error loc (.expected_got expected msg))

/-- The overload `expect(loc, type, expected)`. -/
def expect {T : Type} (ops : TypeOps T) (c : TypeChecker T) (loc : Loc)
    (type expected : T) : T × TypeChecker T :=
  match ops.meet type expected with
  | some meet => (meet, c)
  | none =>
    if should_emit_error ops type then
      (ops.error_type, c.error loc (.expected_got_type expected type))
    else (ops.error_type, c)

def cannot_infer {T : Type} (ops : TypeOps T) (c : TypeChecker T) (loc : Loc) (msg : String) :
    T × TypeChecker T :=
  (ops.error_type, c.error loc (.cannot_infer msg))

def unreachable_code {T : Type} (ops : TypeOps T) (c : TypeChecker T)
    (before first last : Loc) : T × TypeChecker T :=
  (ops.error_type,
    (c.error ⟨first.first, last.last⟩ .unreachable_code).note before .after_this_statement)

end TypeChecker

/-- A small type language on which to run the checker's helpers. -/
inductive SampleType where
  | error
  | int
  | bool
  | pair (a b : SampleType)
  deriving DecidableEq, Repr

/-- Whether `t` occurs in `s`. -/
def SampleType.contains : SampleType → SampleType → Bool
  | .pair a b, t => decide (SampleType.pair a b = t) || a.contains t || b.contains t
  | .error, t => decide (SampleType.error = t)
  | .int, t => decide (SampleType.int = t)
  | .bool, t => decide (SampleType.bool = t)

/-- Sample operations: two types meet only when they are the same. -/
def TypeOps.sample : TypeOps SampleType where
  meet := fun a b => if a = b then some a else none
  contains := SampleType.contains
  error_type := .error

/-! ## Sample programs -/

/-- The types of the identity declaration `forall T. T -> T` next to two
primitive types: the variable `T` of the parameter at address 100 (handle
0), the primitive types with tags 6 and 10 (handles 1 and 2) and the body
`T -> T` (handle 3). -/
def TypeTable.sampleIdentity : TypeTable :=
  TypeTable.insertAll Fnv.sample TypeTable.empty
    [.TypeVar 100, .PrimType 6, .PrimType 10, .FnType 0 0]

/-- The identity declaration: one type parameter, whose variable has
handle 0. -/
def FnDecl.sampleIdentity : FnDecl := ⟨some [⟨some 0⟩]⟩

/-- The types of `struct Pair<A, B>` with the fields `first: A` and
`second: (B, A)`: the variables `A` and `B` (handles 0 and 1), the tuple
`(B, A)` (handle 2), the struct type of the declaration at address 200
(handle 3) and two primitive types (handles 4 and 5). -/
def TypeTable.samplePair : TypeTable :=
  TypeTable.insertAll Fnv.sample TypeTable.empty
    [.TypeVar 100, .TypeVar 101, .TupleType [1, 0], .StructType 200, .PrimType 6, .PrimType 10]

/-- The declaration of `struct Pair<A, B>` at address 200. -/
def Ast.samplePair : Ast where
  struct_decl := fun addr =>
    if addr = 200 then
      ⟨some [⟨some 0⟩, ⟨some 1⟩], [⟨"first", some 0⟩, ⟨"second", some 2⟩]⟩
    else ⟨none, []⟩
  enum_decl := fun _ => ⟨none, []⟩

/-! ## The checker's types and the syntax tree -/

/-- The operations on the checker's `Type` values that the rules of
`check.cpp` call beyond those of `TypeOps`.  The class is declared
outside the sources at hand, so they are parameters: the factories of the
checker, and for each `isa<C>()` what the rules read from the cast. -/
structure CheckOps (T : Type) extends TypeOps T where
  prim_type : Nat → T
  tuple_type : List T → T
  array_type : T → T
  fn_type : T → T → T
  unit_type : T
  no_ret_type : T
  /-- the cast `isa<TupleType>()`: `arg(0)`, ..., `arg(num_args() - 1)` -/
  isa_tuple : T → Option (List T)
  /-- the cast `isa<ArrayType>()`: `elem()` -/
  isa_array : T → Option T
  /-- the cast `isa<FnType>()`: `from()` and `to()` -/
  isa_fn : T → Option (T × T)
  /-- the test `isa<NoRetType>()` -/
  isa_no_ret : T → Bool
  /-- the test `isa<ErrorType>()` -/
  isa_error : T → Bool
  /-- the tag `PrimType::Bool` -/
  tag_bool : Nat
  /-- whether the compiler evaluates `checker.infer(*from)` before
  `checker.infer(*to)` in the argument list of `ast::FnType::infer` -/
  from_first : Bool

/-- A node of the syntax tree, named by its position in the tree. -/
abbrev NodeId := Nat

/-- The classes of nodes for which `check.cpp` defines `infer` or `check`,
with the children and references that the rules read; `Other` stands for
every class that inherits both rules from `Node`.  The program itself,
the root, is not a child of any node and is kept apart. -/
inductive NodeKind where
  | Other
  /-- a path; `decl` is `symbol->decls.front()`, `none` when there is no
  symbol or it has no declaration -/
  | Path (decl : Option NodeId)
  | PrimType (tag : Nat)
  | TupleType (args : List NodeId)
  | ArrayType (elem : NodeId)
  /-- a function type; `dom` is the child `from`, `codom` the child `to` -/
  | FnType (dom : NodeId) (codom : NodeId)
  | DeclStmt (decl : NodeId)
  | ExprStmt (expr : NodeId)
  | PathExpr (path : NodeId)
  | TupleExpr (args : List NodeId)
  | ArrayExpr (elems : List NodeId)
  | FnExpr (param : NodeId) (ret_type : Option NodeId) (body : Option NodeId)
  | BlockExpr (stmts : List NodeId)
  | CallExpr (callee : NodeId) (arg : NodeId)
  | IfExpr (cond : NodeId) (if_true : NodeId) (if_false : Option NodeId)
  | WhileExpr (cond : NodeId) (body : NodeId)
  | BreakExpr
  | ContinueExpr
  /-- a return expression; `fn` is the enclosing function expression -/
  | ReturnExpr (fn : Option NodeId)
  | PtrnDecl
  | LetDecl (ptrn : NodeId) (init : NodeId)
  | FnDecl (fn : NodeId)
  | TypedPtrn (ptrn : NodeId) (type : NodeId)
  | IdPtrn (decl : NodeId)
  | TuplePtrn (args : List NodeId)
  deriving DecidableEq, Repr

/-- What the rules read of a node besides its annotation. -/
structure AstNode where
  loc : Loc
  kind : NodeKind
  deriving DecidableEq, Repr

/-- The nodes of a program; a node id is a position in this list. -/
abbrev SyntaxTree := List AstNode

/-- The location `node->loc`. -/
def SyntaxTree.loc (ast : SyntaxTree) (id : NodeId) : Loc :=
  match ast[id]? with
  | some node => node.loc
  | none => ⟨0, 0⟩

/-- What a walk changes: the checker and the annotation `node.type` of
every node (`none` is the null type).  The field `writes` is not part of
the program: it records, in order, every assignment to an annotation, so
that properties of the whole walk can be stated on the final state. -/
structure Walk (T : Type) where
  checker : TypeChecker T
  type : NodeId → Option T
  writes : List (NodeId × T)

namespace Walk

/-- The state before the walk: no diagnostics, no node annotated. -/
def start (T : Type) : Walk T := ⟨⟨0, []⟩, fun _ => none, []⟩

/-- The assignment `node.type = t`. -/
def annotate {T : Type} (w : Walk T) (id : NodeId) (t : T) : Walk T :=
  { w with type := fun n => if n = id then some t else w.type n, writes := w.writes ++ [(id, t)] }

/-- The result of a helper of the checker, in a walk. -/
def helper {T : Type} (w : Walk T) (r : T × TypeChecker T) : T × Walk T :=
  (r.1, { w with checker := r.2 })

def error {T : Type} (w : Walk T) (loc : Loc) (text : Message T) : Walk T :=
  { w with checker := w.checker.error loc text }

end Walk

/-- Why a walk stops without a result. -/
inductive Failure where
  /-- the model ran out of fuel -/
  | out_of_fuel
  /-- the assertion of `TypeChecker::check` failed -/
  | assertion
  /-- a null or dangling pointer was dereferenced -/
  | null_deref
  deriving DecidableEq, Repr

/-- The two entry points of the checker on a node. -/
inductive Visit (T : Type) where
  /-- the call `checker.infer(node)` -/
  | infer (node : NodeId)
  /-- the call `checker.check(node, expected)` -/
  | check (node : NodeId) (expected : T)
  deriving DecidableEq, Repr

/-- The outcome of a call: the type returned and the state after it. -/
abbrev Result (T : Type) := Except Failure (T × Walk T)

/-- The checker as the rules see it: its two entry points. -/
abbrev Rec (T : Type) := Visit T → Walk T → Except Failure (T × Walk T)

/-! ## The rules of the checker -/

namespace TypeChecker

/-- The loop `for i: check(*args[i], expected.arg(i))` of `check_tuple`. -/
def check_args {T : Type} (rec : Rec T) : List NodeId → List T → Walk T → Except Failure (Walk T)
  | a :: args, e :: expected, w => do
    let (_, w1) ← rec (.check a e) w
    check_args rec args expected w1
  | _, _, w => pure w

/-- The template `check_tuple(loc, msg, args, expected)`. -/
def check_tuple {T : Type} (ops : CheckOps T) (rec : Rec T) (w : Walk T) (loc : Loc)
    (msg : String) (args : List NodeId) (expected : T) : Except Failure (T × Walk T) :=
  match ops.isa_tuple expected with
  | none => pure (w.helper (expect_no_type ops.toTypeOps w.checker loc msg expected))
  | some expected_args =>
    if args.length ≠ expected_args.length then
      pure (ops.error_type,
        w.error loc (.expected_arguments expected_args.length msg args.length))
    else do
      let w1 ← check_args rec args expected_args w
      pure (expected, w1)

/-- The loop `for i: arg_types[i] = infer(*args[i])` of `infer_tuple`. -/
def infer_args {T : Type} (rec : Rec T) : List NodeId → Walk T → Except Failure (List T × Walk T)
  | [], w => pure ([], w)
  | a :: args, w => do
    let (t, w1) ← rec (.infer a) w
    let (ts, w2) ← infer_args rec args w1
    pure (t :: ts, w2)

/-- The template `infer_tuple(args)`. -/
def infer_tuple {T : Type} (ops : CheckOps T) (rec : Rec T) (w : Walk T)
    (args : List NodeId) : Except Failure (T × Walk T) := do
  let (arg_types, w1) ← infer_args rec args w
  pure (ops.tuple_type arg_types, w1)

/-- A loop `for elem: check(*elem, type)` over the nodes `elems`. -/
def check_all {T : Type} (rec : Rec T) (type : T) : List NodeId → Walk T → Except Failure (Walk T)
  | [], w => pure w
  | e :: elems, w => do
    let (_, w1) ← rec (.check e type) w
    check_all rec type elems w1

end TypeChecker

open TypeChecker

/-- The default `Node::check`: infer, then check that the types match. -/
def Node.check_default {T : Type} (ops : CheckOps T) (rec : Rec T) (w : Walk T) (loc : Loc)
    (id : NodeId) (expected : T) : Except Failure (T × Walk T) := do
  let (type, w1) ← rec (.infer id) w
  pure (w1.helper (expect ops.toTypeOps w1.checker loc type expected))

/-- The default `Node::infer`. -/
def Node.infer_default {T : Type} (ops : CheckOps T) (w : Walk T) (loc : Loc) : Except Failure (T × Walk T) :=
  pure (w.helper (cannot_infer ops.toTypeOps w.checker loc "expression"))

def Path.infer {T : Type} (ops : CheckOps T) (rec : Rec T) (w : Walk T)
    (decl : Option NodeId) : Except Failure (T × Walk T) :=
  match decl with
  | none => pure (ops.error_type, w)
  | some d => rec (.infer d) w

def ArrayType.infer {T : Type} (ops : CheckOps T) (rec : Rec T) (w : Walk T)
    (elem : NodeId) : Except Failure (T × Walk T) := do
  let (t, w1) ← rec (.infer elem) w
  pure (ops.array_type t, w1)

def FnType.infer {T : Type} (ops : CheckOps T) (rec : Rec T) (w : Walk T)
    (dom codom : NodeId) : Except Failure (T × Walk T) :=
  if ops.from_first then do
    let (a, w1) ← rec (.infer dom) w
    let (b, w2) ← rec (.infer codom) w1
    pure (ops.fn_type a b, w2)
  else do
    let (b, w1) ← rec (.infer codom) w
    let (a, w2) ← rec (.infer dom) w1
    pure (ops.fn_type a b, w2)

def ArrayExpr.infer {T : Type} (ops : CheckOps T) (rec : Rec T) (w : Walk T) (loc : Loc)
    (elems : List NodeId) : Except Failure (T × Walk T) :=
  match elems with
  | [] => pure (w.helper (cannot_infer ops.toTypeOps w.checker loc "array expression"))
  | front :: rest => do
    let (elem_type, w1) ← rec (.infer front) w
    let w2 ← check_all rec elem_type rest w1
    pure (ops.array_type elem_type, w2)

def ArrayExpr.check {T : Type} (ops : CheckOps T) (rec : Rec T) (w : Walk T) (loc : Loc)
    (elems : List NodeId) (expected : T) : Except Failure (T × Walk T) :=
  match ops.isa_array expected with
  | none =>
    pure (w.helper (expect_no_type ops.toTypeOps w.checker loc "array expression" expected))
  | some elem_type => do
    let w1 ← check_all rec elem_type elems w
    pure (ops.array_type elem_type, w1)

/-- The expression `ret_type ? checker.infer(*ret_type) : artic::Type()`
of `FnExpr::infer`; `none` is the null type. -/
def FnExpr.ret_type_or_null {T : Type} (rec : Rec T) (w : Walk T) (ret_type : Option NodeId) :
    Except Failure (Option T × Walk T) :=
  match ret_type with
  | some r => do
    let (t, w1) ← rec (.infer r) w
    pure (some t, w1)
  | none => pure (none, w)

/-- The expression
`body_type ? checker.check(*body, body_type) : checker.infer(*body)` of
`FnExpr::infer`.  Dereferencing a null `body` is a failure. -/
def FnExpr.check_or_infer_body {T : Type} (rec : Rec T) (w : Walk T) (body_type : Option T)
    (body : Option NodeId) : Except Failure (T × Walk T) :=
  match body_type, body with
  | some bt, some b => rec (.check b bt) w
  | none, some b => rec (.infer b) w
  | _, none => throw Failure.null_deref

/-- The rule `FnExpr::infer`. -/
def FnExpr.infer {T : Type} (ops : CheckOps T) (rec : Rec T) (w : Walk T) (loc : Loc)
    (param : NodeId) (ret_type body : Option NodeId) : Except Failure (T × Walk T) := do
  let (body_type, w1) ← FnExpr.ret_type_or_null rec w ret_type
  if body.isSome || body_type.isSome then
    let (param_type, w2) ← rec (.infer param) w1
    let (result_type, w3) ← FnExpr.check_or_infer_body rec w2 body_type body
    pure (ops.fn_type param_type result_type, w3)
  else
    pure (w1.helper (cannot_infer ops.toTypeOps w1.checker loc "function"))

def FnExpr.check {T : Type} (ops : CheckOps T) (rec : Rec T) (w : Walk T) (loc : Loc)
    (param : NodeId) (body : Option NodeId) (expected : T) : Except Failure (T × Walk T) :=
  match ops.isa_fn expected with
  | none =>
    pure (w.helper (expect_no_type ops.toTypeOps w.checker loc "anonymous function" expected))
  | some (dom, codom) => do
    let (_, w1) ← rec (.check param dom) w
    match body with
    | some b => rec (.check b codom) w1
    | none => throw Failure.null_deref

/-- The loop of `BlockExpr::infer` and `BlockExpr::check` over the
statements but the last, on the statements that are left: `none` when it
runs to its end, the result of `unreachable_code` when it returns early.
`is_no_ret` is the test made on the type of a statement and `back` is
`stmts.back()`. -/
def BlockExpr.loop {T : Type} (ops : CheckOps T) (rec : Rec T) (ast : SyntaxTree)
    (is_no_ret : T → Bool) (back : NodeId) :
    List NodeId → Walk T → Except Failure (Option T × Walk T)
  | stmt :: next :: rest, w => do
    let (stmt_type, w1) ← rec (.check stmt ops.unit_type) w
    if is_no_ret stmt_type then
      let r := w1.helper (unreachable_code ops.toTypeOps w1.checker (ast.loc stmt)
        (ast.loc next) (ast.loc back))
      pure (some r.1, r.2)
    else BlockExpr.loop ops rec ast is_no_ret back (next :: rest) w1
  | _, w => pure (none, w)

/-- The test of `BlockExpr::infer` on the type of a statement: the type is
first cast with `isa<NoRetType>()`, and the result of the cast, null when
the cast fails, is tested with `isa<artic::NoRetType>()`; on the null type
the test is taken to fail. -/
def BlockExpr.infer_is_no_ret {T : Type} (ops : CheckOps T) (t : T) : Bool :=
  match (if ops.isa_no_ret t then some t else none) with
  | some stmt_type => ops.isa_no_ret stmt_type
  | none => false

def BlockExpr.infer {T : Type} (ops : CheckOps T) (rec : Rec T) (ast : SyntaxTree) (w : Walk T)
    (stmts : List NodeId) : Except Failure (T × Walk T) :=
  match stmts.getLast? with
  | none => pure (ops.unit_type, w)
  | some back => do
    let (early, w1) ← BlockExpr.loop ops rec ast (BlockExpr.infer_is_no_ret ops) back stmts w
    match early with
    | some t => pure (t, w1)
    | none => rec (.infer back) w1

def BlockExpr.check {T : Type} (ops : CheckOps T) (rec : Rec T) (ast : SyntaxTree) (w : Walk T)
    (loc : Loc) (stmts : List NodeId) (expected : T) : Except Failure (T × Walk T) :=
  match stmts.getLast? with
  | none =>
    pure (w.helper (expect_with_msg ops.toTypeOps w.checker loc "block expression"
      ops.unit_type expected))
  | some back => do
    let (early, w1) ← BlockExpr.loop ops rec ast ops.isa_no_ret back stmts w
    match early with
    | some t => pure (t, w1)
    | none => rec (.check back expected) w1

def CallExpr.infer {T : Type} (ops : CheckOps T) (rec : Rec T) (w : Walk T) (loc : Loc)
    (callee arg : NodeId) : Except Failure (T × Walk T) := do
  let (callee_type, w1) ← rec (.infer callee) w
  match ops.isa_fn callee_type with
  | some (dom, codom) => do
    let (_, w2) ← rec (.check arg dom) w1
    pure (codom, w2)
  | none =>
    if (ops.isa_array callee_type).isSome then pure (ops.error_type, w1)
    else if !ops.isa_error callee_type then
      pure (ops.error_type, w1.error loc (.expected_function_or_array callee_type))
    else pure (ops.error_type, w1)

def IfExpr.infer {T : Type} (ops : CheckOps T) (rec : Rec T) (w : Walk T)
    (cond if_true : NodeId) (if_false : Option NodeId) : Except Failure (T × Walk T) := do
  let (_, w1) ← rec (.check cond (ops.prim_type ops.tag_bool)) w
  match if_false with
  | some f => do
    let (true_type, w2) ← rec (.infer if_true) w1
    rec (.check f true_type) w2
  | none => rec (.check if_true ops.unit_type) w1

def IfExpr.check {T : Type} (ops : CheckOps T) (rec : Rec T) (w : Walk T)
    (cond if_true : NodeId) (if_false : Option NodeId) (expected : T) : Except Failure (T × Walk T) := do
  let (_, w1) ← rec (.check cond (ops.prim_type ops.tag_bool)) w
  let (true_type, w2) ← rec (.check if_true expected) w1
  match if_false with
  | some f => rec (.check f true_type) w2
  | none => pure (true_type, w2)

def WhileExpr.infer {T : Type} (ops : CheckOps T) (rec : Rec T) (w : Walk T)
    (cond body : NodeId) : Except Failure (T × Walk T) := do
  let (_, w1) ← rec (.check cond (ops.prim_type ops.tag_bool)) w
  let (_, w2) ← rec (.check body ops.unit_type) w1
  pure (ops.unit_type, w2)

/-- The rule `ReturnExpr::infer`; `fn->type` is the annotation of the
enclosing function expression at the time of the call, and the cast of a
null type fails. -/
def ReturnExpr.infer {T : Type} (ops : CheckOps T) (w : Walk T) (fn : Option NodeId) : Except Failure (T × Walk T) :=
  match fn with
  | none => pure (ops.error_type, w)
  | some f =>
    match (w.type f).bind ops.isa_fn with
    | none => pure (ops.error_type, w)
    | some (dom, _) => pure (ops.fn_type dom ops.no_ret_type, w)

def LetDecl.infer {T : Type} (ops : CheckOps T) (rec : Rec T) (w : Walk T)
    (ptrn init : NodeId) : Except Failure (T × Walk T) := do
  let (init_type, w1) ← rec (.infer init) w
  let (_, w2) ← rec (.check ptrn init_type) w1
  pure (ops.unit_type, w2)

def TypedPtrn.infer {T : Type} (rec : Rec T) (w : Walk T) (ptrn type : NodeId) : Except Failure (T × Walk T) := do
  let (t, w1) ← rec (.infer type) w
  rec (.check ptrn t) w1

/-- The virtual call `node.infer(checker)`. -/
def Node.infer {T : Type} (ops : CheckOps T) (rec : Rec T) (ast : SyntaxTree)
    (node : AstNode) (w : Walk T) : Except Failure (T × Walk T) :=
  match node.kind with
  | .Path decl => Path.infer ops rec w decl
  | .PrimType tag => pure (ops.prim_type tag, w)
  | .TupleType args => infer_tuple ops rec w args
  | .ArrayType elem => ArrayType.infer ops rec w elem
  | .FnType dom codom => FnType.infer ops rec w dom codom
  | .DeclStmt decl => rec (.infer decl) w
  | .ExprStmt expr => rec (.infer expr) w
  | .PathExpr path => rec (.infer path) w
  | .TupleExpr args => infer_tuple ops rec w args
  | .ArrayExpr elems => ArrayExpr.infer ops rec w node.loc elems
  | .FnExpr param ret_type body => FnExpr.infer ops rec w node.loc param ret_type body
  | .BlockExpr stmts => BlockExpr.infer ops rec ast w stmts
  | .CallExpr callee arg => CallExpr.infer ops rec w node.loc callee arg
  | .IfExpr cond if_true if_false => IfExpr.infer ops rec w cond if_true if_false
  | .WhileExpr cond body => WhileExpr.infer ops rec w cond body
  | .BreakExpr => pure (ops.fn_type ops.unit_type ops.no_ret_type, w)
  | .ContinueExpr => pure (ops.fn_type ops.unit_type ops.no_ret_type, w)
  | .ReturnExpr fn => ReturnExpr.infer ops w fn
  | .LetDecl ptrn init => LetDecl.infer ops rec w ptrn init
  | .FnDecl fn => rec (.infer fn) w
  | .TypedPtrn ptrn type => TypedPtrn.infer rec w ptrn type
  | .TuplePtrn args => infer_tuple ops rec w args
  | .Other => Node.infer_default ops w node.loc
  | .PtrnDecl => Node.infer_default ops w node.loc
  | .IdPtrn _ => Node.infer_default ops w node.loc

/-- Whether the class of the node overrides `check`. -/
def NodeKind.hasCheck : NodeKind → Bool
  | .DeclStmt _ => true
  | .ExprStmt _ => true
  | .TupleExpr _ => true
  | .ArrayExpr _ => true
  | .FnExpr _ _ _ => true
  | .BlockExpr _ => true
  | .IfExpr _ _ _ => true
  | .PtrnDecl => true
  | .IdPtrn _ => true
  | .TuplePtrn _ => true
  | _ => false

/-- The virtual call `node.check(checker, expected)` on the node `id`. -/
def Node.check {T : Type} (ops : CheckOps T) (rec : Rec T) (ast : SyntaxTree) (id : NodeId)
    (node : AstNode) (expected : T) (w : Walk T) : Except Failure (T × Walk T) :=
  match node.kind with
  | .DeclStmt decl => rec (.check decl expected) w
  | .ExprStmt expr => rec (.check expr expected) w
  | .TupleExpr args => check_tuple ops rec w node.loc "tuple expression" args expected
  | .ArrayExpr elems => ArrayExpr.check ops rec w node.loc elems expected
  | .FnExpr param _ body => FnExpr.check ops rec w node.loc param body expected
  | .BlockExpr stmts => BlockExpr.check ops rec ast w node.loc stmts expected
  | .IfExpr cond if_true if_false => IfExpr.check ops rec w cond if_true if_false expected
  | .PtrnDecl => pure (expected, w)
  | .IdPtrn decl => rec (.check decl expected) w
  | .TuplePtrn args => check_tuple ops rec w node.loc "tuple pattern" args expected
  | _ => Node.check_default ops rec w node.loc id expected

/-- The entry points `TypeChecker::infer(node)` and
`TypeChecker::check(node, type)`.  The walk follows pointers, some of
them back to declarations, so the model carries fuel. -/
def TypeChecker.visit {T : Type} (ops : CheckOps T) (ast : SyntaxTree) :
    Nat → Visit T → Walk T → Except Failure (T × Walk T)
  | 0, _, _ => throw Failure.out_of_fuel
  | fuel + 1, .infer id, w =>
    match ast[id]? with
    | none => throw Failure.null_deref
    | some node =>
      match w.type id with
      | some t => pure (t, w)
      | none => do
        let (t, w1) ← Node.infer ops (TypeChecker.visit ops ast fuel) ast node w
        pure (t, w1.annotate id t)
  | fuel + 1, .check id expected, w =>
    match ast[id]? with
    | none => throw Failure.null_deref
    | some node =>
      match w.type id with
      | some _ => throw Failure.assertion
      | none => do
        let (t, w1) ← Node.check ops (TypeChecker.visit ops ast fuel) ast id node expected w
        pure (t, w1.annotate id t)

/-- The rule `Program::infer` on the declarations of the program; the
null type it returns is left out. -/
def Program.infer {T : Type} (rec : Rec T) (decls : List NodeId) (w : Walk T) :
    Except Failure (Walk T) := do
  let (_, w1) ← infer_args rec decls w
  pure w1

/-- The entry point `TypeChecker::run(program)`. -/
def TypeChecker.run {T : Type} (ops : CheckOps T) (ast : SyntaxTree) (fuel : Nat)
    (decls : List NodeId) (w : Walk T) : Except Failure (Bool × Walk T) := do
  let w1 ← Program.infer (TypeChecker.visit ops ast fuel) decls w
  pure (w1.checker.error_count == 0, w1)

/-! ## Relations between the states of a walk -/

/-- A relation between the state before and the state after a call that
the helpers of the checker respect. -/
structure Respected {T : Type} (R : Walk T → Walk T → Prop) : Prop where
  refl : ∀ w, R w w
  trans : ∀ a b c, R a b → R b c → R a c
  checker : ∀ w c, R w { w with checker := c }

/-- The frame of a call: a node that carried a type before still carries
that type after, and every assignment to an annotation made in between
went to a node that carried no type before. -/
def Walk.Frame {T : Type} (w later : Walk T) : Prop :=
  (∀ n s, w.type n = some s → later.type n = some s) ∧
  ∃ l, later.writes = w.writes ++ l ∧ ∀ p ∈ l, w.type p.1 = none

/-- The statements `stmts` are checked against the unit type one after
the other, from the state `w` to the state `later`, and none of them has
the no-return type. -/
def CheckedPast {T : Type} (ops : CheckOps T) (rec : Rec T) :
    List NodeId → Walk T → Walk T → Prop
  | [], w, later => later = w
  | stmt :: stmts, w, later =>
    ∃ t w1, rec (.check stmt ops.unit_type) w = .ok (t, w1) ∧ ops.isa_no_ret t = false ∧
      CheckedPast ops rec stmts w1 later

/-! ## A sample type language for the checker -/

/-- Sample types for the checker: tuples are lists built with `cons` on
`unit`, the empty tuple. -/
inductive SampleTerm where
  | error
  | no_ret
  | prim (tag : Nat)
  | unit
  | cons (head : SampleTerm) (tail : SampleTerm)
  | array (elem : SampleTerm)
  | fn (dom : SampleTerm) (codom : SampleTerm)
  deriving DecidableEq, Repr

namespace SampleTerm

def tuple : List SampleTerm → SampleTerm
  | [] => unit
  | t :: ts => cons t (tuple ts)

def args : SampleTerm → Option (List SampleTerm)
  | unit => some []
  | cons head tail =>
    match args tail with
    | some ts => some (head :: ts)
    | none => none
  | _ => none

/-- Whether `t` is `s` or occurs in it. -/
def contains : SampleTerm → SampleTerm → Bool
  | cons head tail, t => decide (cons head tail = t) || head.contains t || tail.contains t
  | array elem, t => decide (array elem = t) || elem.contains t
  | fn dom codom, t => decide (fn dom codom = t) || dom.contains t || codom.contains t
  | error, t => decide (error = t)
  | no_ret, t => decide (no_ret = t)
  | prim tag, t => decide (prim tag = t)
  | unit, t => decide (unit = t)

end SampleTerm

/-- Sample operations: two types meet when they are the same, and the
no-return type meets every type in itself. -/
def CheckOps.sample : CheckOps SampleTerm where
  meet := fun a b =>
    if a = b then some a
    else if a = .no_ret ∨ b = .no_ret then some .no_ret
    else none
  contains := SampleTerm.contains
  error_type := .error
  prim_type := .prim
  tuple_type := SampleTerm.tuple
  array_type := .array
  fn_type := .fn
  unit_type := .unit
  no_ret_type := .no_ret
  isa_tuple := SampleTerm.args
  isa_array := fun t =>
    match t with
    | .array elem => some elem
    | _ => none
  isa_fn := fun t =>
    match t with
    | .fn dom codom => some (dom, codom)
    | _ => none
  isa_no_ret := fun t => decide (t = .no_ret)
  isa_error := fun t => decide (t = .error)
  tag_bool := 0
  from_first := true

/-! ## Sample syntax trees -/

/-- The tree of `fn f(x: i32) { if x { } }`: the declaration (node 0), the
function (1), its parameter `x: i32` (2) with the identifier pattern (3),
the declaration of `x` (4) and the type `i32` (5), the `if` (6) with the
condition `x` (7), its path (8), which refers to node 4, and the empty
block (9). -/
def SyntaxTree.sampleIf : SyntaxTree :=
  [⟨⟨0, 30⟩, .FnDecl 1⟩, ⟨⟨0, 30⟩, .FnExpr 2 none (some 6)⟩, ⟨⟨5, 11⟩, .TypedPtrn 3 5⟩,
    ⟨⟨5, 6⟩, .IdPtrn 4⟩, ⟨⟨5, 6⟩, .PtrnDecl⟩, ⟨⟨8, 11⟩, .PrimType 1⟩,
    ⟨⟨15, 28⟩, .IfExpr 7 9 none⟩, ⟨⟨18, 19⟩, .PathExpr 8⟩, ⟨⟨18, 19⟩, .Path (some 4)⟩,
    ⟨⟨20, 23⟩, .BlockExpr []⟩]

/-- The tree of the block `{ break(); 1 }`: the block (node 0), the
statement `break();` (1) with the call (2), its callee `break` (3) and
its argument `()` (4), and the statement `1` (5) with the literal (6). -/
def SyntaxTree.sampleBreak : SyntaxTree :=
  [⟨⟨0, 14⟩, .BlockExpr [1, 5]⟩, ⟨⟨2, 10⟩, .ExprStmt 2⟩, ⟨⟨2, 9⟩, .CallExpr 3 4⟩,
    ⟨⟨2, 7⟩, .BreakExpr⟩, ⟨⟨7, 9⟩, .TupleExpr []⟩, ⟨⟨11, 12⟩, .ExprStmt 6⟩,
    ⟨⟨11, 12⟩, .Other⟩]

/-- The tree of the tuple `(x, y)`: the tuple (node 0), the components `x`
(1, with its path 2) and `y` (3, with its path 4), and the declarations of
`x` (5) and `y` (6) that the paths refer to. -/
def SyntaxTree.samplePairExpr : SyntaxTree :=
  [⟨⟨0, 6⟩, .TupleExpr [1, 3]⟩, ⟨⟨1, 2⟩, .PathExpr 2⟩, ⟨⟨1, 2⟩, .Path (some 5)⟩,
    ⟨⟨4, 5⟩, .PathExpr 4⟩, ⟨⟨4, 5⟩, .Path (some 6)⟩, ⟨⟨0, 0⟩, .PtrnDecl⟩, ⟨⟨0, 0⟩, .PtrnDecl⟩]

/-- A state in which the declarations of `x` and `y` of `samplePairExpr`
carry the types with tags 1 and 0. -/
def Walk.samplePairExpr : Walk SampleTerm :=
  ((Walk.start SampleTerm).annotate 5 (.prim 1)).annotate 6 (.prim 0)

/-- The tree of `fn f() -> i32 { return; 1 }`: the declaration (node 0),
the function (1) with the parameter `()` (2), the return type `i32` (8)
and the body (3), whose statements are `return;` (4), with the return
expression (5), which refers to the function (1), and `1` (6), with the
literal (7). -/
def SyntaxTree.sampleReturn : SyntaxTree :=
  [⟨⟨0, 30⟩, .FnDecl 1⟩, ⟨⟨0, 30⟩, .FnExpr 2 (some 8) (some 3)⟩, ⟨⟨4, 6⟩, .TuplePtrn []⟩,
    ⟨⟨14, 30⟩, .BlockExpr [4, 6]⟩, ⟨⟨16, 23⟩, .ExprStmt 5⟩, ⟨⟨16, 22⟩, .ReturnExpr (some 1)⟩,
    ⟨⟨24, 25⟩, .ExprStmt 7⟩, ⟨⟨24, 25⟩, .Other⟩, ⟨⟨10, 13⟩, .PrimType 1⟩]

/-- The tree of `fn f() -> i32 { return(); 1 }`, as `sampleReturn` but for
the first statement, whose expression is the call (5) of the return
expression (9) on the argument `()` (10). -/
def SyntaxTree.sampleReturnCall : SyntaxTree :=
  [⟨⟨0, 32⟩, .FnDecl 1⟩, ⟨⟨0, 32⟩, .FnExpr 2 (some 8) (some 3)⟩, ⟨⟨4, 6⟩, .TuplePtrn []⟩,
    ⟨⟨14, 32⟩, .BlockExpr [4, 6]⟩, ⟨⟨16, 25⟩, .ExprStmt 5⟩, ⟨⟨16, 24⟩, .CallExpr 9 10⟩,
    ⟨⟨26, 27⟩, .ExprStmt 7⟩, ⟨⟨26, 27⟩, .Other⟩, ⟨⟨10, 13⟩, .PrimType 1⟩,
    ⟨⟨16, 22⟩, .ReturnExpr (some 1)⟩, ⟨⟨22, 24⟩, .TupleExpr []⟩]

/-- The tree of `let (a, b) = y;` in which the name `y` is not bound: the
declaration (node 0), the tuple pattern (1) with the identifier patterns
`a` (2) and `b` (3) and their declarations (5 and 6), and the expression
`y` (4) with its path (7), which has no symbol. -/
def SyntaxTree.sampleLet : SyntaxTree :=
  [⟨⟨0, 15⟩, .LetDecl 1 4⟩, ⟨⟨4, 10⟩, .TuplePtrn [2, 3]⟩, ⟨⟨5, 6⟩, .IdPtrn 5⟩,
    ⟨⟨8, 9⟩, .IdPtrn 6⟩, ⟨⟨13, 14⟩, .PathExpr 7⟩, ⟨⟨5, 6⟩, .PtrnDecl⟩, ⟨⟨8, 9⟩, .PtrnDecl⟩,
    ⟨⟨13, 14⟩, .Path none⟩]

/-- The tree of the call `(y, ())()` in which the name `y` is not bound:
the call (node 0), the callee (1) with the components `y` (2, with its
path 3, which has no symbol) and `()` (4), and the argument `()` (5). -/
def SyntaxTree.sampleCall : SyntaxTree :=
  [⟨⟨0, 9⟩, .CallExpr 1 5⟩, ⟨⟨0, 7⟩, .TupleExpr [2, 4]⟩, ⟨⟨1, 2⟩, .PathExpr 3⟩,
    ⟨⟨1, 2⟩, .Path none⟩, ⟨⟨4, 6⟩, .TupleExpr []⟩, ⟨⟨7, 9⟩, .TupleExpr []⟩]

/-- The tree of `fn f() { 1; f() }`: the declaration (node 0), the
function (1) with the parameter `()` (2) and the body (3), whose
statements are `1;` (4), with the literal (5), and `f()` (6), with the
call (7) of the callee `f` (8, with its path 9, which refers to the
declaration 0) on the argument `()` (10). -/
def SyntaxTree.sampleRecursion : SyntaxTree :=
  [⟨⟨0, 20⟩, .FnDecl 1⟩, ⟨⟨0, 20⟩, .FnExpr 2 none (some 3)⟩, ⟨⟨4, 6⟩, .TuplePtrn []⟩,
    ⟨⟨7, 20⟩, .BlockExpr [4, 6]⟩, ⟨⟨9, 11⟩, .ExprStmt 5⟩, ⟨⟨9, 10⟩, .Other⟩,
    ⟨⟨12, 15⟩, .ExprStmt 7⟩, ⟨⟨12, 15⟩, .CallExpr 8 10⟩, ⟨⟨12, 13⟩, .PathExpr 9⟩,
    ⟨⟨12, 13⟩, .Path (some 0)⟩, ⟨⟨13, 15⟩, .TupleExpr []⟩]

deriving instance DecidableEq for Except

/-- What a witness reads of the outcome of a call: the type returned, the
error counter, the diagnostics and the assignments to annotations. -/
def summary {T : Type} (r : Except Failure (T × Walk T)) :
    Except Failure (T × Nat × List (Diagnostic T) × List (NodeId × T)) :=
  match r with
  | .ok (t, w) => .ok (t, w.checker.error_count, w.checker.diagnostics, w.writes)
  | .error e => .error e

/-! ## More sample trees and the arity invariant -/

/-- The tree of `fn f() { f() }`: the declaration (node 0), the function
(1) with the parameter `()` (2) and the body (3), whose only statement
(4) is the call (5) of the callee `f` (6, with its path 7, which refers
to the declaration 0) on the argument `()` (8). -/
def SyntaxTree.sampleLoop : SyntaxTree :=
  [⟨⟨0, 15⟩, .FnDecl 1⟩, ⟨⟨0, 15⟩, .FnExpr 2 none (some 3)⟩, ⟨⟨4, 6⟩, .TuplePtrn []⟩,
    ⟨⟨7, 15⟩, .BlockExpr [4]⟩, ⟨⟨9, 12⟩, .ExprStmt 5⟩, ⟨⟨9, 12⟩, .CallExpr 6 8⟩,
    ⟨⟨9, 10⟩, .PathExpr 7⟩, ⟨⟨9, 10⟩, .Path (some 0)⟩, ⟨⟨10, 12⟩, .TupleExpr []⟩]

/-- The nodes on the way from the declaration of `sampleLoop` back to
itself carry no type. -/
def Walk.OnLoop {T : Type} (w : Walk T) : Prop :=
  w.type 0 = none ∧ w.type 1 = none ∧ w.type 3 = none ∧ w.type 4 = none ∧ w.type 5 = none ∧
    w.type 6 = none ∧ w.type 7 = none

/-- The arity invariant of the specification for the object at `h`: when
it is a type application, its applied type is a struct or enum type with
type parameters, as many as the application has type arguments. -/
def TypeTable.ArityOk (ast : Ast) (tt : TypeTable) (h : Handle) : Prop :=
  ∀ applied type_args, tt.node h = some (.TypeApp applied type_args) →
    ∃ params, UserType.type_params ast tt applied = some (some params) ∧
      params.length = type_args.length

/-! ## Operators of binary expressions (`ast.cpp`) -/

/-- The tags of `Token` that `BinaryExpr::tag_from_token` names; the
enumeration is declared in `token.h`, outside the sources at hand, and
`Other` stands for every tag that the switch leaves to `default`. -/
inductive Token.Tag where
  | EQ | ADD_EQ | SUB_EQ | MUL_EQ | DIV_EQ | MOD_EQ | AND_EQ | OR_EQ | XOR_EQ
  | L_SHFT_EQ | R_SHFT_EQ
  | ADD | SUB | MUL | DIV | MOD | AND | OR | XOR | L_SHFT | R_SHFT
  | CMP_LT | CMP_GT | CMP_LE | CMP_GE | CMP_EQ
  | Other
  deriving DecidableEq, Repr

/-- The enumeration `BinaryExpr::Tag`, declared in `ast.h`: the tags that
`ast.cpp` names. -/
inductive BinaryExpr.Tag where
  | EQ | ADD_EQ | SUB_EQ | MUL_EQ | DIV_EQ | MOD_EQ | AND_EQ | OR_EQ | XOR_EQ
  | L_SHFT_EQ | R_SHFT_EQ
  | ADD | SUB | MUL | DIV | MOD | AND | OR | XOR | L_SHFT | R_SHFT
  | CMP_LT | CMP_GT | CMP_LE | CMP_GE | CMP_EQ
  | ERR
  deriving DecidableEq, Repr

namespace BinaryExpr

def has_eq : Tag → Bool
  | .EQ => true
  | .ADD_EQ => true
  | .SUB_EQ => true
  | .MUL_EQ => true
  | .DIV_EQ => true
  | .MOD_EQ => true
  | .AND_EQ => true
  | .OR_EQ => true
  | .XOR_EQ => true
  | .L_SHFT_EQ => true
  | .R_SHFT_EQ => true
  | _ => false

/-- The function `BinaryExpr::tag_to_string`; `none` is the failed
assertion of the `default` case. -/
def tag_to_string : Tag → Option String
  | .EQ => some "="
  | .ADD_EQ => some "+="
  | .SUB_EQ => some "-="
  | .MUL_EQ => some "*="
  | .DIV_EQ => some "/="
  | .MOD_EQ => some "%="
  | .AND_EQ => some "&="
  | .OR_EQ => some "|="
  | .XOR_EQ => some "^="
  | .L_SHFT_EQ => some "<<="
  | .R_SHFT_EQ => some ">>="
  | .ADD => some "+"
  | .SUB => some "-"
  | .MUL => some "*"
  | .DIV => some "/"
  | .MOD => some "%"
  | .AND => some "&"
  | .OR => some "|"
  | .XOR => some "^"
  | .L_SHFT => some "<<"
  | .R_SHFT => some ">>"
  | .CMP_LT => some "<"
  | .CMP_GT => some ">"
  | .CMP_LE => some "<="
  | .CMP_GE => some ">="
  | .CMP_EQ => some "=="
  | .ERR => none

/-- The function `BinaryExpr::tag_from_token`, on the tag of the token. -/
def tag_from_token : Token.Tag → Tag
  | .EQ => .EQ
  | .ADD_EQ => .ADD_EQ
  | .SUB_EQ => .SUB_EQ
  | .MUL_EQ => .MUL_EQ
  | .DIV_EQ => .DIV_EQ
  | .MOD_EQ => .MOD_EQ
  | .AND_EQ => .AND_EQ
  | .OR_EQ => .OR_EQ
  | .XOR_EQ => .XOR_EQ
  | .L_SHFT_EQ => .L_SHFT_EQ
  | .R_SHFT_EQ => .L_SHFT_EQ
  | .ADD => .ADD
  | .SUB => .SUB
  | .MUL => .MUL
  | .DIV => .DIV
  | .MOD => .MOD
  | .AND => .AND
  | .OR => .OR
  | .XOR => .XOR
  | .L_SHFT => .L_SHFT
  | .R_SHFT => .R_SHFT
  | .CMP_LT => .CMP_LT
  | .CMP_GT => .CMP_GT
  | .CMP_LE => .CMP_LE
  | .CMP_GE => .CMP_GE
  | .CMP_EQ => .CMP_EQ
  | .Other => .ERR

end BinaryExpr

/-! ## The command line (`main.cpp`) -/

/-- The search `path.find_last_of(chars)` of `std::string_view`: the
position of the last character of `path` that is one of `chars`; `none`
is `npos`. -/
def find_last_of (path : List Char) (chars : List Char) : Option Nat :=
  match path with
  | [] => none
  | c :: rest =>
    match find_last_of rest chars with
    | some i => some (i + 1)
    | none => if c ∈ chars then some 0 else none

/-- The search `path.rfind(c)`: the position of the last `c` in `path`. -/
def rfind (path : List Char) (c : Char) : Option Nat :=
  find_last_of path [c]

/-- The function `file_without_ext` of `main.cpp`, on the characters of
the path; the two characters of `"/\\"` are the slash and the backslash
(code 92). -/
def file_without_ext_chars (path : List Char) : List Char :=
  let path1 :=
    match find_last_of path ['/', Char.ofNat 92] with
    | some dir => path.drop (dir + 1)
    | none => path
  match rfind path1 '.' with
  | some ext => if ext ≠ 0 then path1.take ext else path1
  | none => path1

def file_without_ext (path : String) : String :=
  String.mk (file_without_ext_chars path.data)

/-- The levels of `thorin::Log` that `main.cpp` names. -/
inductive LogLevel where
  | Debug | Verbose | Info | Warn | Error
  deriving DecidableEq, Repr

/-- What `ProgramOptions::parse` and `main` write: the two screens and
the messages of `log::error`, with their argument. -/
inductive Output where
  | usage
  | version
  | missing_argument (opt : String)
  | specified_more_than_once (opt : String)
  | max_errors_zero
  | unknown_log_level (arg : String)
  | without_llvm
  | unknown_option (arg : String)
  | no_input_files
  deriving DecidableEq, Repr

/-- The fields of `ProgramOptions`, with their initial values. -/
structure ProgramOptions where
  files : List String := []
  module_name : String := ""
  exit : Bool := false
  no_color : Bool := false
  warns_as_errors : Bool := false
  enable_all_warns : Bool := false
  debug : Bool := false
  print_ast : Bool := false
  emit_thorin : Bool := false
  emit_llvm : Bool := false
  opt_level : Nat := 0
  max_errors : Nat := 0
  log_level : LogLevel := .Error
  deriving DecidableEq, Repr

/-- What is outside `main.cpp`: whether `ENABLE_LLVM` is defined, and the
library function `std::strtoull(s, NULL, 10)`. -/
structure Platform where
  enable_llvm : Bool
  strtoull : String → Nat

namespace ProgramOptions

/-- The result of `parse`: the value returned, the options and what was
written. -/
abbrev Parsed := Bool × ProgramOptions × List Output

/-- The test `argv[i][0] == '-'`. -/
def is_option (arg : String) : Bool :=
  match arg.data with
  | c :: _ => c == '-'
  | [] => false

/-- The branch `--log-level` on the argument of the option. -/
def log_level_of (arg : String) : Option LogLevel :=
  if arg = "debug" then some .Debug
  else if arg = "verbose" then some .Verbose
  else if arg = "info" then some .Info
  else if arg = "warn" then some .Warn
  else if arg = "error" then some .Error
  else none

/-- The loop `for (int i = 1; i < argc; i++)` of `parse`, on the arguments
from `argv[i]` on. -/
def parse_loop (P : Platform) : List String → ProgramOptions → List Output → Parsed
  | [], opts, out => (true, opts, out)
  | arg :: rest, opts, out =>
    if is_option arg then
      if arg = "-h" ∨ arg = "--help" then
        (true, { opts with exit := true }, out ++ [.usage])
      else if arg = "--version" then
        (true, { opts with exit := true }, out ++ [.version])
      else if arg = "--no-color" then
        if opts.no_color then (false, opts, out ++ [.specified_more_than_once arg])
        else parse_loop P rest { opts with no_color := true } out
      else if arg = "-Wall" ∨ arg = "--enable-all-warnings" then
        if opts.enable_all_warns then (false, opts, out ++ [.specified_more_than_once arg])
        else parse_loop P rest { opts with enable_all_warns := true } out
      else if arg = "-Werror" ∨ arg = "--warnings-as-errors" then
        if opts.warns_as_errors then (false, opts, out ++ [.specified_more_than_once arg])
        else parse_loop P rest { opts with warns_as_errors := true } out
      else if arg = "--max-errors" then
        if opts.max_errors ≠ 0 then (false, opts, out ++ [.specified_more_than_once arg])
        else
          match rest with
          | [] => (false, opts, out ++ [.missing_argument arg])
          | value :: rest1 =>
            if P.strtoull value = 0 then
              (false, { opts with max_errors := 0 }, out ++ [.max_errors_zero])
            else parse_loop P rest1 { opts with max_errors := P.strtoull value } out
      else if arg = "-g" ∨ arg = "--debug" then
        if opts.debug then (false, opts, out ++ [.specified_more_than_once arg])
        else parse_loop P rest { opts with debug := true } out
      else if arg = "--print-ast" then
        if opts.print_ast then (false, opts, out ++ [.specified_more_than_once arg])
        else parse_loop P rest { opts with print_ast := true } out
      else if arg = "--emit-thorin" then
        if opts.emit_thorin then (false, opts, out ++ [.specified_more_than_once arg])
        else parse_loop P rest { opts with emit_thorin := true } out
      else if arg = "--log-level" then
        match rest with
        | [] => (false, opts, out ++ [.missing_argument arg])
        | value :: rest1 =>
          match log_level_of value with
          | some level => parse_loop P rest1 { opts with log_level := level } out
          | none => (false, opts, out ++ [.unknown_log_level value])
      else if arg = "--emit-llvm" then
        if opts.emit_llvm then (false, opts, out ++ [.specified_more_than_once arg])
        else if P.enable_llvm then parse_loop P rest { opts with emit_llvm := true } out
        else (false, opts, out ++ [.without_llvm])
      else if arg = "-O0" then parse_loop P rest { opts with opt_level := 0 } out
      else if arg = "-O1" then parse_loop P rest { opts with opt_level := 1 } out
      else if arg = "-O2" then parse_loop P rest { opts with opt_level := 2 } out
      else if arg = "-O3" then parse_loop P rest { opts with opt_level := 3 } out
      else if arg = "-o" then
        match rest with
        | [] => (false, opts, out ++ [.missing_argument arg])
        | value :: rest1 => parse_loop P rest1 { opts with module_name := value } out
      else (false, opts, out ++ [.unknown_option arg])
    else parse_loop P rest { opts with files := opts.files ++ [arg] } out

/-- The method `ProgramOptions::parse(argc, argv)` on freshly constructed
options; `argv` holds the name of the program and the arguments. -/
def parse (P : Platform) (argv : List String) : Parsed :=
  if argv.length < 2 then (false, {}, [.usage])
  else parse_loop P (argv.drop 1) {} []

end ProgramOptions

/-- How far `main` gets: it returns with an exit status before compiling,
or it calls `compile` with the options `opts`. -/
inductive Started where
  | returned (status : Nat) (out : List Output)
  | compiles (opts : ProgramOptions) (out : List Output)
  deriving DecidableEq, Repr

/-- The function `main` up to the call of `compile`; `EXIT_SUCCESS` is 0
and `EXIT_FAILURE` is 1. -/
def main_start (P : Platform) (argv : List String) : Started :=
  match ProgramOptions.parse P argv with
  | (false, _, out) => .returned 1 out
  | (true, opts, out) =>
    if opts.exit then .returned 0 out
    else
      match opts.files with
      | [] => .returned 1 (out ++ [.no_input_files])
      | front :: _ =>
        if opts.module_name = "" then
          .compiles { opts with module_name := file_without_ext front } out
        else .compiles opts out

/-- The module name that the compilation uses, the argument of
`thorin::World world(opts.module_name)`, when `main` gets there. -/
def module_name_used (P : Platform) (argv : List String) : Option String :=
  match main_start P argv with
  | .compiles opts _ => some opts.module_name
  | .returned _ _ => none

/-- A platform built with LLVM whose `strtoull` reads a string of decimal
digits. -/
def Platform.sample : Platform where
  enable_llvm := true
  strtoull := fun s => s.data.foldl (fun n c => 10 * n + (c.toNat - 48)) 0

/-! ## The predicate `contains` (`types.cpp`) -/

/-- The call `std::any_of(args.begin(), args.end(), ...)` over the
recursive call `con`: it stops at the first argument that contains the
type; `none` when a call has no result. -/
def containsAny (con : Handle → Option Bool) : List Handle → Option Bool
  | [] => some false
  | a :: rest =>
    match con a with
    | none => none
    | some true => some true
    | some false => containsAny con rest

/-- The virtual `contains(type)` called on the object at handle `self`.
The recursion follows pointers, so it carries fuel: `none` stands for fuel
running out or for a pointer that names no object.  The classes without
components do not override `contains` in `types.cpp`; the inherited
version is declared in `types.h`, which is not part of the sources, and
is taken to return `type == this`. -/
def contains (tt : TypeTable) : Nat → Handle → Handle → Option Bool
  | 0, _, _ => none
  | fuel + 1, self, type =>
    match tt.node self with
    | none => none
    | some (.TupleType args) =>
      if type = self then some true else containsAny (fun a => contains tt fuel a type) args
    | some (.SizedArrayType elem _) =>
      if type = self then some true else contains tt fuel elem type
    | some (.UnsizedArrayType elem) =>
      if type = self then some true else contains tt fuel elem type
    | some (.PtrType pointee) =>
      if type = self then some true else contains tt fuel pointee type
    | some (.FnType dom codom) =>
      if type = self then some true
      else
        match contains tt fuel dom type with
        | none => none
        | some true => some true
        | some false => contains tt fuel codom type
    | some (.TypeApp applied type_args) =>
      if type = self then some true
      else
        match contains tt fuel applied type with
        | none => none
        | some true => some true
        | some false => containsAny (fun a => contains tt fuel a type) type_args
    | some _ => some (decide (type = self))

/-! ## The unifier and the generalizer

`type_check.h` declares `unify`, `find`, `generalize` and `subsume`; their
bodies are not part of the sources.  They are modelled from sections 4.2,
4.3 and 4.5 of the specification, over the type table of `types.cpp`. -/

/-- What the unifier reports. -/
inductive UnifyError where
  /-- infinite type: the variable `v` occurs in `t` -/
  | infinite_type (v t : Handle)
  /-- the two types have a different number of components -/
  | arity (a b : Handle)
  /-- type mismatch -/
  | mismatch (a b : Handle)
  deriving DecidableEq, Repr

/-- Modelled from the spec: the state of the inference engine, which
`type_check.h` only declares (`eqs_`, `type_table_`, `rank_`): the type
table, the variable store, with the rank and the binding slot of each
type variable, the current rank of the checker, and the diagnostics
reported so far. -/
structure Engine where
  table : TypeTable
  rank : Handle → Nat
  binding : Handle → Option Handle
  rank_ : Nat
  errors : List (Loc × UnifyError)

/-- Modelled from the spec: a generalized type, which `type_check.h`
names `PolyType`: the quantified variables, in order, and the body. -/
structure PolyType where
  vars : List Handle
  body : Handle
  deriving DecidableEq, Repr

namespace Engine

/-- An engine on the table `tt`, at rank 0, with no variable. -/
def start (tt : TypeTable) : Engine := ⟨tt, fun _ => 0, fun _ => none, 0, []⟩

/-- The method `inc_rank` of `type_check.h`. -/
def inc_rank (e : Engine) : Engine := { e with rank_ := e.rank_ + 1 }

/-- The object at `h` is a type variable. -/
def isVar (e : Engine) (h : Handle) : Bool :=
  match e.table.node h with
  | some (.TypeVar _) => true
  | _ => false

/-- The object at `h` is a type variable without a binding. -/
def isUnbound (e : Engine) (h : Handle) : Bool :=
  e.isVar h && (e.binding h).isNone

/-- The object at `h` is the error type. -/
def isError (e : Engine) (h : Handle) : Bool :=
  match e.table.node h with
  | some .TypeError => true
  | _ => false

/-- Modelled from the spec: the assignment to the binding slot of the
variable `v`. -/
def bind (e : Engine) (v t : Handle) : Engine :=
  { e with binding := fun h => if h = v then some t else e.binding h }

/-- Modelled from the spec: `find` of section 4.2.  A bound variable is
followed along its binding chain to the final unbound variable or the
type that is no variable, and is bound to it on the way back; any other
type resolves to itself.  `none` stands for fuel running out or for a
handle that names no object. -/
def find : Nat → Engine → Handle → Option (Handle × Engine)
  | 0, _, _ => none
  | fuel + 1, e, t =>
    match e.table.node t with
    | none => none
    | some (.TypeVar _) =>
      match e.binding t with
      | none => some (t, e)
      | some b =>
        match find fuel e b with
        | none => none
        | some (r, e1) => some (r, e1.bind t r)
    | some _ => some (t, e)

/-- The pairwise unification of the components of two types, over the
recursive call `uni`; the two lists have the same length. -/
def unifyArgs (uni : Engine → Handle → Handle → Option (Handle × Engine)) :
    Engine → List Handle → List Handle → Option (List Handle × Engine)
  | e, a :: as, b :: bs =>
    match uni e a b with
    | none => none
    | some (c, e1) =>
      match unifyArgs uni e1 as bs with
      | none => none
      | some (cs, e2) => some (c :: cs, e2)
  | e, _, _ => some ([], e)

/-- The error type of the table, in the engine. -/
def type_error (H : Fnv) (e : Engine) : Handle × Engine :=
  ((e.table.type_error H).1, { e with table := (e.table.type_error H).2 })

/-- Modelled from the spec: step 7 of `unify`, on the resolved types `a`
and `b`: the mismatch is reported unless one of the two contains the
error type, and the error type is returned. -/
def mismatch (H : Fnv) (loc : Loc) (fuel : Nat) (e : Engine) (a b : Handle) :
    Option (Handle × Engine) :=
  let r := e.type_error H
  match contains r.2.table fuel a r.1, contains r.2.table fuel b r.1 with
  | some false, some false =>
    some (r.1, { r.2 with errors := r.2.errors ++ [(loc, .mismatch a b)] })
  | some _, some _ => some r
  | _, _ => none

/-- Modelled from the spec: steps 6 and 7 of `unify`: the join of the two
types when they have one, a mismatch otherwise. -/
def join_or_mismatch (H : Fnv) (loc : Loc) (fuel : Nat) (e : Engine) (a b : Handle) :
    Option (Handle × Engine) :=
  match join_types e.table a b with
  | some j => some (j, e)
  | none => mismatch H loc fuel e a b

/-- Modelled from the spec: step 3 of `unify`, for the unbound variable
`v` and the type `t`.  When `v` occurs in `t`, an infinite type is
reported, `v` is bound to the error type and the error type is returned;
otherwise `v` is bound to `t`, and when `t` is an unbound variable it
takes the lower of the two ranks. -/
def bind_var (H : Fnv) (loc : Loc) (fuel : Nat) (e : Engine) (v t : Handle) :
    Option (Handle × Engine) :=
  match contains e.table fuel t v with
  | none => none
  | some true =>
    let r := e.type_error H
    some (r.1, { r.2.bind v r.1 with errors := r.2.errors ++ [(loc, .infinite_type v t)] })
  | some false =>
    if e.isUnbound t then
      some (t, { e.bind v t with
        rank := fun h => if h = t then min (e.rank v) (e.rank t) else e.rank h })
    else some (t, e.bind v t)

/-- Modelled from the spec: `unify(loc, t1, t2)` of section 4.3, with its
steps in the order of the specification.  The type returned for two types
of the same kind is built from the unified components by the factories
of the table; two sized arrays of different sizes, and two different
types without components, are a mismatch.  `none` stands for fuel running
out or for a handle that names no object. -/
def unify (H : Fnv) (loc : Loc) : Nat → Engine → Handle → Handle → Option (Handle × Engine)
  | 0, _, _, _ => none
  | fuel + 1, e, t1, t2 =>
    match find fuel e t1 with
    | none => none
    | some (a, e1) =>
      match find fuel e1 t2 with
      | none => none
      | some (b, e2) =>
        if e2.isError a || e2.isError b then some (e2.type_error H)
        else if e2.isUnbound a then bind_var H loc fuel e2 a b
        else if e2.isUnbound b then bind_var H loc fuel e2 b a
        else if a = b then some (a, e2)
        else
          match e2.table.node a, e2.table.node b with
          | some (.TupleType as), some (.TupleType bs) =>
            if as.length ≠ bs.length then
              let r := e2.type_error H
              some (r.1, { r.2 with errors := r.2.errors ++ [(loc, .arity a b)] })
            else
              match unifyArgs (unify H loc fuel) e2 as bs with
              | none => none
              | some (cs, e3) =>
                some ((e3.table.tuple_type H cs).1,
                  { e3 with table := (e3.table.tuple_type H cs).2 })
          | some (.SizedArrayType ea na), some (.SizedArrayType eb nb) =>
            if na ≠ nb then mismatch H loc fuel e2 a b
            else
              match unify H loc fuel e2 ea eb with
              | none => none
              | some (c, e3) =>
                some ((e3.table.sized_array_type H c na).1,
                  { e3 with table := (e3.table.sized_array_type H c na).2 })
          | some (.UnsizedArrayType ea), some (.UnsizedArrayType eb) =>
            match unify H loc fuel e2 ea eb with
            | none => none
            | some (c, e3) =>
              some ((e3.table.unsized_array_type H c).1,
                { e3 with table := (e3.table.unsized_array_type H c).2 })
          | some (.PtrType pa), some (.PtrType pb) =>
            match unify H loc fuel e2 pa pb with
            | none => none
            | some (c, e3) =>
              some ((e3.table.ptr_type H c).1, { e3 with table := (e3.table.ptr_type H c).2 })
          | some (.FnType da ca), some (.FnType db cb) =>
            match unify H loc fuel e2 da db with
            | none => none
            | some (d, e3) =>
              match unify H loc fuel e3 ca cb with
              | none => none
              | some (c, e4) =>
                some ((e4.table.fn_type H d c).1, { e4 with table := (e4.table.fn_type H d c).2 })
          | some (.TypeApp pa as), some (.TypeApp pb bs) =>
            if pa ≠ pb ∨ as.length ≠ bs.length then mismatch H loc fuel e2 a b
            else
              match unifyArgs (unify H loc fuel) e2 as bs with
              | none => none
              | some (cs, e3) =>
                some ((e3.table.type_app H pa cs).1,
                  { e3 with table := (e3.table.type_app H pa cs).2 })
          | some _, some _ => join_or_mismatch H loc fuel e2 a b
          | _, _ => none

/-- The traversal of the components of a type by `collect`, from left to
right, over the recursive call `col`. -/
def collectArgs (col : List Handle → Handle → Option (List Handle)) :
    List Handle → List Handle → Option (List Handle)
  | acc, [] => some acc
  | acc, a :: rest =>
    match col acc a with
    | none => none
    | some acc1 => collectArgs col acc1 rest

/-- Modelled from the spec: the variables that `generalize` quantifies
over, added to `acc`: the unbound variables reachable from `t`, through
components and bindings, whose rank is strictly greater than the current
rank, in pre-order from left to right, each of them once. -/
def collect (e : Engine) : Nat → List Handle → Handle → Option (List Handle)
  | 0, _, _ => none
  | fuel + 1, acc, t =>
    match e.table.node t with
    | none => none
    | some (.TypeVar _) =>
      match e.binding t with
      | some b => collect e fuel acc b
      | none => if e.rank_ < e.rank t ∧ t ∉ acc then some (acc ++ [t]) else some acc
    | some n => collectArgs (collect e fuel) acc n.children

/-- Modelled from the spec: `generalize(t)` of section 4.5. -/
def generalize (e : Engine) (fuel : Nat) (t : Handle) : Option PolyType :=
  match collect e fuel [] t with
  | none => none
  | some vars => some ⟨vars, t⟩

/-- What `collect` adds to the variables collected so far: unbound
variables whose rank is above the current rank, none of them twice. -/
def Collected (e : Engine) (acc vars : List Handle) : Prop :=
  (∀ v ∈ vars, v ∈ acc ∨ (e.isUnbound v = true ∧ e.rank_ < e.rank v)) ∧
  (acc.Nodup → vars.Nodup)

end Engine

/-- The types of `(v, i32)` around an unbound variable: the variable `v`
of the parameter at address 100 (handle 0), a primitive type (1), the
tuple `(v, i32)` (2) and a second variable (3). -/
def TypeTable.sampleOccurs : TypeTable :=
  TypeTable.insertAll Fnv.sample TypeTable.empty
    [.TypeVar 100, .PrimType 6, .TupleType [0, 1], .TypeVar 101]

/-- An engine on `sampleOccurs` at rank 1, in which the variable at
handle 0 was created at rank 2 and the one at handle 3 at rank 1. -/
def Engine.sampleOccurs : Engine :=
  ⟨TypeTable.sampleOccurs, fun h => if h = 0 then 2 else 1, fun _ => none, 1, []⟩

/-! ## Further sample tables and trees -/

/-- The types of `fn (&T) -> i32` next to a second variable: the variable
`T` of the parameter at address 100 (handle 0), a primitive type (1), the
pointer `&T` (2), the variable of the parameter at address 101 (3) and
the function type (4). -/
def TypeTable.sampleNested : TypeTable :=
  TypeTable.insertAll Fnv.sample TypeTable.empty
    [.TypeVar 100, .PrimType 6, .PtrType 0, .TypeVar 101, .FnType 2 1]

/-- The tree of `if b { x }`: the `if` (node 0) with the condition `b`
(1, with its path 2, which refers to the declaration 8) and the block
(3), whose only statement (4) is the expression `x` (5, with its path 6,
which refers to the declaration 7). -/
def SyntaxTree.sampleIfValue : SyntaxTree :=
  [⟨⟨0, 10⟩, .IfExpr 1 3 none⟩, ⟨⟨3, 4⟩, .PathExpr 2⟩, ⟨⟨3, 4⟩, .Path (some 8)⟩,
    ⟨⟨5, 10⟩, .BlockExpr [4]⟩, ⟨⟨7, 8⟩, .ExprStmt 5⟩, ⟨⟨7, 8⟩, .PathExpr 6⟩,
    ⟨⟨7, 8⟩, .Path (some 7)⟩, ⟨⟨0, 0⟩, .PtrnDecl⟩, ⟨⟨0, 0⟩, .PtrnDecl⟩]

/-- A state in which the declaration of `x` of `sampleIfValue` carries the
type with tag 1 and that of `b` the type `bool`, with tag 0. -/
def Walk.sampleIfValue : Walk SampleTerm :=
  ((Walk.start SampleTerm).annotate 7 (.prim 1)).annotate 8 (.prim 0)

/-- The bindings of the engine are acyclic: the measure `m` goes down from
an object to each of its components and from a bound variable to its
binding, which is a stored object.  The occurs check of `unify` is there
to keep the bindings so. -/
def Engine.Acyclic (e : Engine) (m : Handle → Nat) : Prop :=
  (∀ (h : Nat) (n : TypeNode), e.table.node h = some n → ∀ c ∈ n.children, m c < m h) ∧
  (∀ (v b : Nat), e.isVar v = true → e.binding v = some b →
    b < e.table.types_.length ∧ m b < m v)

theorem equals_structural {t : TypeNode} (ht : t.isStructural = true) (self i : Handle)
    (s : TypeNode) : t.equals self i s = true ↔ s = t := by
  cases t <;> cases s <;> simp_all [TypeNode.equals, TypeNode.isStructural]

theorem equals_identity {t : TypeNode} (ht : t.isStructural = false) (self i : Handle)
    (s : TypeNode) : t.equals self i s = (i == self) := by
  cases t <;> simp_all [TypeNode.equals, TypeNode.isStructural]

theorem findFrom_structural (H : Fnv) {t : TypeNode} (ht : t.isStructural = true)
    (self : Handle) (l : List TypeNode) (i : Nat) :
    TypeTable.findFrom H self t i l
      = if t ∈ l then some (i + l.indexOf t) else none := by
  induction l generalizing i with
  | nil => simp [TypeTable.findFrom]
  | cons s rest ih =>
    by_cases hs : s = t
    · subst hs
      have : s.equals self i s = true := (equals_structural ht self i s).2 rfl
      simp [TypeTable.findFrom, this]
    · have h1 : t.equals self i s = false := by
        cases h : t.equals self i s
        · rfl
        · exact absurd ((equals_structural ht self i s).1 h) hs
      have h2 : ¬ t = s := fun h => hs h.symm
      simp only [TypeTable.findFrom, h1, Bool.and_false, ih, List.mem_cons, h2, false_or,
        List.indexOf_cons_ne _ hs]
      by_cases hm : t ∈ rest
      · simp [hm]; omega
      · simp [hm]

theorem findFrom_identity (H : Fnv) {t : TypeNode} (ht : t.isStructural = false)
    (self : Handle) (l : List TypeNode) (i : Nat) (hi : i + l.length ≤ self) :
    TypeTable.findFrom H self t i l = none := by
  induction l generalizing i with
  | nil => simp [TypeTable.findFrom]
  | cons s rest ih =>
    have hi2 : i + (rest.length + 1) ≤ self := by simpa using hi
    have h1 : t.equals self i s = false := by
      rw [equals_identity ht]
      simp only [beq_eq_false_iff_ne, ne_eq]
      intro h
      rw [h] at hi2
      omega
    simp only [TypeTable.findFrom, h1, Bool.and_false]
    apply ih
    omega

theorem insert_structural (H : Fnv) (tt : TypeTable) {t : TypeNode}
    (ht : t.isStructural = true) :
    tt.insert H t = if t ∈ tt.types_ then (tt.types_.indexOf t, tt)
      else (tt.types_.length, { tt with types_ := tt.types_ ++ [t] }) := by
  unfold TypeTable.insert TypeTable.find
  rw [findFrom_structural H ht]
  by_cases hm : t ∈ tt.types_
  · simp [hm]
  · simp [hm]

theorem insert_identity (H : Fnv) (tt : TypeTable) {t : TypeNode}
    (ht : t.isStructural = false) :
    tt.insert H t = (tt.types_.length, { tt with types_ := tt.types_ ++ [t] }) := by
  unfold TypeTable.insert TypeTable.find
  rw [findFrom_identity H ht _ _ _ (by simp)]

theorem insert_cases (H : Fnv) (tt : TypeTable) (t : TypeNode) :
    (tt.insert H t = (tt.types_.indexOf t, tt) ∧ t ∈ tt.types_ ∧ t.isStructural = true) ∨
    (tt.insert H t = (tt.types_.length, { tt with types_ := tt.types_ ++ [t] }) ∧
      (t.isStructural = true → t ∉ tt.types_)) := by
  cases ht : t.isStructural
  · right
    exact ⟨insert_identity H tt ht, by simp⟩
  · rw [insert_structural H tt ht]
    by_cases hm : t ∈ tt.types_
    · left; simp [hm]
    · right; simp [hm]

/-- The table after an insertion keeps every earlier object in place. -/
theorem insert_types (H : Fnv) (tt : TypeTable) (t : TypeNode) :
    ∃ l, (tt.insert H t).2.types_ = tt.types_ ++ l := by
  rcases insert_cases H tt t with ⟨h, _, _⟩ | ⟨h, _⟩
  · exact ⟨[], by simp [h]⟩
  · exact ⟨[t], by simp [h]⟩

theorem insert_node (H : Fnv) (tt : TypeTable) (t : TypeNode) :
    (tt.insert H t).2.node (tt.insert H t).1 = some t := by
  rcases insert_cases H tt t with ⟨h, hm, _⟩ | ⟨h, _⟩
  · rw [h]
    simp only [TypeTable.node]
    rw [List.getElem?_eq_getElem (List.indexOf_lt_length.2 hm)]
    simp
  · rw [h]
    simp [TypeTable.node]

theorem insertAll_types (H : Fnv) (tt : TypeTable) (ts : List TypeNode) :
    ∃ l, (tt.insertAll H ts).types_ = tt.types_ ++ l := by
  induction ts generalizing tt with
  | nil => exact ⟨[], by simp [TypeTable.insertAll]⟩
  | cons t ts ih =>
    obtain ⟨l1, h1⟩ := insert_types H tt t
    obtain ⟨l2, h2⟩ := ih (tt.insert H t).2
    exact ⟨l1 ++ l2, by simp [TypeTable.insertAll, h2, h1]⟩

theorem node_append {tt tt2 : TypeTable} {l : List TypeNode} (he : tt2.types_ = tt.types_ ++ l)
    {h : Handle} {n : TypeNode} (hn : tt.node h = some n) : tt2.node h = some n := by
  simp only [TypeTable.node] at hn ⊢
  have hlt : h < tt.types_.length := by
    by_contra hc
    rw [List.getElem?_eq_none (Nat.le_of_not_lt hc)] at hn
    cases hn
  rw [he, List.getElem?_append_left hlt]
  exact hn

/-- A structural request that has been answered is answered the same way
by every later state of the table, and leaves that state unchanged. -/
theorem insert_stable (H : Fnv) (tt tt2 : TypeTable) {t : TypeNode} (ht : t.isStructural = true)
    {l : List TypeNode} (he : tt2.types_ = (tt.insert H t).2.types_ ++ l) :
    tt2.insert H t = ((tt.insert H t).1, tt2) := by
  rw [insert_structural H tt2 ht]
  rcases insert_cases H tt t with ⟨h, hm, _⟩ | ⟨h, hm⟩
  · rw [h] at he ⊢
    simp only at he
    have : t ∈ tt2.types_ := by rw [he]; exact List.mem_append_left _ hm
    rw [if_pos this, he, List.indexOf_append_of_mem hm]
  · rw [h] at he ⊢
    simp only at he
    have : t ∈ tt2.types_ := by rw [he]; simp
    rw [if_pos this, he, List.append_assoc, List.indexOf_append_of_not_mem (hm ht)]
    simp


theorem interned_empty : TypeTable.empty.Interned := by
  intro h n hn
  simp [TypeTable.node, TypeTable.empty] at hn

theorem interned_insert (H : Fnv) {tt : TypeTable} (hI : tt.Interned) (t : TypeNode) :
    (tt.insert H t).2.Interned := by
  rcases insert_cases H tt t with ⟨h, _, _⟩ | ⟨h, hm⟩
  · rw [h]; exact hI
  · rw [h]
    intro (i : Nat) n hn hs
    simp only [TypeTable.node] at hn
    simp only
    by_cases hi : i < tt.types_.length
    · rw [List.getElem?_append_left hi] at hn
      have hmem : n ∈ tt.types_ := List.getElem?_mem hn
      rw [List.indexOf_append_of_mem hmem]
      exact hI i n hn hs
    · rw [List.getElem?_append_right (Nat.le_of_not_lt hi)] at hn
      have hi0 : i - tt.types_.length = 0 := by
        by_contra hc
        have hlen : [t].length ≤ i - tt.types_.length := by
          simp only [List.length_singleton]
          omega
        rw [List.getElem?_eq_none hlen] at hn
        cases hn
      rw [hi0] at hn
      simp at hn
      subst hn
      rw [List.indexOf_append_of_not_mem (hm hs)]
      simp
      omega

theorem interned_insertAll (H : Fnv) {tt : TypeTable} (hI : tt.Interned) (ts : List TypeNode) :
    (tt.insertAll H ts).Interned := by
  induction ts generalizing tt with
  | nil => exact hI
  | cons t ts ih => exact ih (interned_insert H hI t)

/-- In an interned table two handles of structural objects with the same
fields are the same handle. -/
theorem interned_unique {tt : TypeTable} (hI : tt.Interned) {i j : Handle} {n : TypeNode}
    (hi : tt.node i = some n) (hj : tt.node j = some n) (hs : n.isStructural = true) : i = j :=
  (hI i n hi hs).symm.trans (hI j n hj hs)

/-- C1: requesting a structural description twice through its factory,
with any run of other requests in between, returns the same handle. -/
theorem interning_same_handle (H : Fnv) (tt : TypeTable) (between : List TypeNode) :
    (∀ tag, (((tt.prim_type H tag).2.insertAll H between).prim_type H tag).1
        = (tt.prim_type H tag).1) ∧
    (∀ elems, (((tt.tuple_type H elems).2.insertAll H between).tuple_type H elems).1
        = (tt.tuple_type H elems).1) ∧
    (∀ elem size,
      (((tt.sized_array_type H elem size).2.insertAll H between).sized_array_type H elem size).1
        = (tt.sized_array_type H elem size).1) ∧
    (∀ elem, (((tt.unsized_array_type H elem).2.insertAll H between).unsized_array_type H elem).1
        = (tt.unsized_array_type H elem).1) ∧
    (∀ pointee, (((tt.ptr_type H pointee).2.insertAll H between).ptr_type H pointee).1
        = (tt.ptr_type H pointee).1) ∧
    (∀ dom codom, (((tt.fn_type H dom codom).2.insertAll H between).fn_type H dom codom).1
        = (tt.fn_type H dom codom).1) ∧
    (∀ applied type_args,
      (((tt.type_app H applied type_args).2.insertAll H between).type_app H applied type_args).1
        = (tt.type_app H applied type_args).1) := by
  have key : ∀ t : TypeNode, t.isStructural = true →
      (((tt.insert H t).2.insertAll H between).insert H t).1 = (tt.insert H t).1 := by
    intro t ht
    obtain ⟨l, hl⟩ := insertAll_types H (tt.insert H t).2 between
    rw [insert_stable H tt _ ht hl]
  exact ⟨fun _ => key _ rfl, fun _ => key _ rfl, fun _ _ => key _ rfl, fun _ => key _ rfl,
    fun _ => key _ rfl, fun _ _ => key _ rfl, fun _ _ => key _ rfl⟩

theorem interning_same_handle_witness :
    (TypeTable.empty.tuple_type Fnv.sample [0, 1]).1 = 0 ∧
    (((TypeTable.empty.tuple_type Fnv.sample [0, 1]).2.insertAll Fnv.sample
        [.PrimType 0, .TupleType [], .TypeVar 3]).tuple_type Fnv.sample [0, 1]).1
      = (TypeTable.empty.tuple_type Fnv.sample [0, 1]).1 ∧
    (((TypeTable.empty.type_app Fnv.sample 2 [0]).2.insertAll Fnv.sample
        [.PrimType 0, .TupleType [], .TypeVar 3]).type_app Fnv.sample 2 [0]).1
      = (TypeTable.empty.type_app Fnv.sample 2 [0]).1 :=
  ⟨by decide,
    (interning_same_handle Fnv.sample TypeTable.empty
      [.PrimType 0, .TupleType [], .TypeVar 3]).2.1 [0, 1],
    (interning_same_handle Fnv.sample TypeTable.empty
      [.PrimType 0, .TupleType [], .TypeVar 3]).2.2.2.2.2.2 2 [0]⟩

/-- C2: two handles returned by the factories, the second after any run of
other requests, are equal only if the two descriptions are the same: same
class, same tag, same child handles in the same order, same length. -/
theorem interning_injective (H : Fnv) (tt : TypeTable) (between : List TypeNode) :
    (∀ d1 d2 : TypeNode,
      (tt.insert H d1).1 = (((tt.insert H d1).2.insertAll H between).insert H d2).1 → d1 = d2) ∧
    (∀ e n m, n ≠ m →
      (tt.sized_array_type H e n).1
        ≠ (((tt.sized_array_type H e n).2.insertAll H between).sized_array_type H e m).1) ∧
    (∀ e n,
      (tt.sized_array_type H e n).1
        ≠ (((tt.sized_array_type H e n).2.insertAll H between).unsized_array_type H e).1) ∧
    (∀ e n,
      (tt.unsized_array_type H e).1
        ≠ (((tt.unsized_array_type H e).2.insertAll H between).sized_array_type H e n).1) ∧
    (∀ xs ys : List Handle, xs ≠ ys →
      (tt.tuple_type H xs).1
        ≠ (((tt.tuple_type H xs).2.insertAll H between).tuple_type H ys).1) := by
  have key : ∀ d1 d2 : TypeNode,
      (tt.insert H d1).1 = (((tt.insert H d1).2.insertAll H between).insert H d2).1 →
      d1 = d2 := by
    intro d1 d2 heq
    obtain ⟨l1, hl1⟩ := insertAll_types H (tt.insert H d1).2 between
    obtain ⟨l2, hl2⟩ := insert_types H ((tt.insert H d1).2.insertAll H between) d2
    have h1 := node_append hl2 (node_append hl1 (insert_node H tt d1))
    have h2 := insert_node H ((tt.insert H d1).2.insertAll H between) d2
    rw [heq, h2] at h1
    exact (Option.some.inj h1).symm
  refine ⟨key, ?_, ?_, ?_, ?_⟩
  · intro e n m hnm heq
    have := key _ _ heq
    simp at this
    exact hnm this
  · intro e n heq
    have := key _ _ heq
    simp at this
  · intro e n heq
    have := key _ _ heq
    simp at this
  · intro xs ys hne heq
    have := key _ _ heq
    simp at this
    exact hne this

theorem interning_injective_witness :
    (TypeTable.empty.insert Fnv.sample (.PrimType 3)).1
      = (((TypeTable.empty.insert Fnv.sample (.PrimType 3)).2.insertAll Fnv.sample
          [.NoRetType, .TupleType [0]]).insert Fnv.sample (.PrimType 3)).1 ∧
    TypeNode.PrimType 3 = TypeNode.PrimType 3 :=
  ⟨by decide, (interning_injective Fnv.sample TypeTable.empty [.NoRetType, .TupleType [0]]).1
    _ _ (by decide)⟩

/-- C3: in an interned table, joining the no-return type with any type,
on either side, gives that type. -/
theorem join_types_no_ret (tt : TypeTable) (hI : tt.Interned) (nr T : Handle)
    (hnr : tt.node nr = some .NoRetType) :
    join_types tt nr T = some T ∧ join_types tt T nr = some T := by
  have h1 : isNoRet tt nr = true := by simp [isNoRet, hnr]
  constructor
  · unfold join_types
    by_cases h : nr = T
    · simp [h]
    · simp [h, h1]
  · unfold join_types
    by_cases h : T = nr
    · simp [h]
    · have h2 : isNoRet tt T = false := by
        cases hT : tt.node T with
        | none => simp [isNoRet, hT]
        | some n =>
          cases n <;> simp [isNoRet, hT]
          exact h (interned_unique hI hT hnr rfl)
      simp [h, h1, h2]

theorem join_types_no_ret_witness :
    (TypeTable.insertAll Fnv.sample TypeTable.empty
        [.NoRetType, .TypeError, .PrimType 0]).Interned ∧
    (TypeTable.insertAll Fnv.sample TypeTable.empty [.NoRetType, .TypeError, .PrimType 0]).node 0
      = some .NoRetType ∧
    join_types (TypeTable.insertAll Fnv.sample TypeTable.empty
      [.NoRetType, .TypeError, .PrimType 0]) 0 1 = some 1 ∧
    join_types (TypeTable.insertAll Fnv.sample TypeTable.empty
      [.NoRetType, .TypeError, .PrimType 0]) 1 0 = some 1 :=
  ⟨interned_insertAll _ interned_empty _, by decide,
    join_types_no_ret _ (interned_insertAll _ interned_empty _) 0 1 (by decide)⟩


/-- C4: joining a sized array with the unsized array of the same element,
in either order, gives the handle of the unsized array. -/
theorem join_types_array_widening (tt : TypeTable) (s u e : Handle) (n : Nat)
    (hs : tt.node s = some (.SizedArrayType e n))
    (hu : tt.node u = some (.UnsizedArrayType e)) :
    join_types tt s u = some u ∧ join_types tt u s = some u := by
  have hne : s ≠ u := by
    intro h
    rw [h, hu] at hs
    cases hs
  have hne2 : u ≠ s := fun h => hne h.symm
  constructor
  · simp [join_types, hne, isNoRet, isaSizedArray, isaUnsizedArray, sameElem, hs, hu]
  · simp [join_types, hne2, isNoRet, isaSizedArray, isaUnsizedArray, sameElem, hs, hu]

theorem join_types_array_widening_witness :
    (TypeTable.insertAll Fnv.sample TypeTable.empty
      [.PrimType 0, .SizedArrayType 0 4, .UnsizedArrayType 0]).node 1
        = some (.SizedArrayType 0 4) ∧
    (TypeTable.insertAll Fnv.sample TypeTable.empty
      [.PrimType 0, .SizedArrayType 0 4, .UnsizedArrayType 0]).node 2
        = some (.UnsizedArrayType 0) ∧
    join_types (TypeTable.insertAll Fnv.sample TypeTable.empty
      [.PrimType 0, .SizedArrayType 0 4, .UnsizedArrayType 0]) 1 2 = some 2 ∧
    join_types (TypeTable.insertAll Fnv.sample TypeTable.empty
      [.PrimType 0, .SizedArrayType 0 4, .UnsizedArrayType 0]) 2 1 = some 2 :=
  ⟨by decide, by decide, join_types_array_widening _ 1 2 0 4 (by decide) (by decide)⟩

/-- C5: `join_types` has no result exactly when the operands are different
handles, neither is the no-return type, and they are not a sized and an
unsized array of one element; a result is always one of the operands, so
it is the error type only if an operand is. -/
theorem join_types_none_iff (tt : TypeTable) (a b : Handle) :
    (join_types tt a b = none ↔
      ¬ (a = b ∨ tt.node a = some .NoRetType ∨ tt.node b = some .NoRetType ∨
        (∃ e n, tt.node a = some (.SizedArrayType e n) ∧
          tt.node b = some (.UnsizedArrayType e)) ∨
        (∃ e n, tt.node a = some (.UnsizedArrayType e) ∧
          tt.node b = some (.SizedArrayType e n)))) ∧
    (∀ r, join_types tt a b = some r → r = a ∨ r = b) ∧
    (∀ r, join_types tt a b = some r → tt.node r = some .TypeError →
      tt.node a = some .TypeError ∨ tt.node b = some .TypeError) := by
  have hres : ∀ r, join_types tt a b = some r → r = a ∨ r = b := by
    intro r hr
    unfold join_types at hr
    by_cases h1 : a = b
    · left; simpa [h1] using hr.symm
    · cases ha : tt.node a with
      | none =>
        cases hb : tt.node b with
        | none => simp [h1, isNoRet, isaSizedArray, isaUnsizedArray, sameElem, ha, hb] at hr
        | some m =>
          cases m <;> simp [h1, isNoRet, isaSizedArray, isaUnsizedArray, sameElem, ha, hb] at hr
          all_goals simp [hr]
      | some n =>
        cases hb : tt.node b with
        | none =>
          cases n <;> simp [h1, isNoRet, isaSizedArray, isaUnsizedArray, sameElem, ha, hb] at hr
          all_goals simp [hr]
        | some m =>
          cases n <;> cases m <;>
            simp [h1, isNoRet, isaSizedArray, isaUnsizedArray, sameElem, ha, hb] at hr <;>
            first
              | (left; exact hr.symm)
              | (right; exact hr.symm)
              | (left; exact hr.2.symm)
              | (right; exact hr.2.symm)
  refine ⟨?_, hres, ?_⟩
  · unfold join_types
    by_cases h1 : a = b
    · simp [h1]
    · cases ha : tt.node a with
      | none =>
        cases hb : tt.node b with
        | none => simp [h1, isNoRet, isaSizedArray, isaUnsizedArray, sameElem, ha, hb]
        | some m => cases m <;> simp [h1, isNoRet, isaSizedArray, isaUnsizedArray, sameElem, ha, hb]
      | some n =>
        cases hb : tt.node b with
        | none => cases n <;> simp [h1, isNoRet, isaSizedArray, isaUnsizedArray, sameElem, ha, hb]
        | some m =>
          cases n <;> cases m <;>
            simp [h1, isNoRet, isaSizedArray, isaUnsizedArray, sameElem, ha, hb] <;>
            exact ne_comm
  · intro r hr he
    rcases hres r hr with h | h
    · left; rw [← h]; exact he
    · right; rw [← h]; exact he

theorem join_types_none_iff_witness :
    join_types (TypeTable.insertAll Fnv.sample TypeTable.empty
      [.PrimType 0, .PrimType 1, .SizedArrayType 0 4, .UnsizedArrayType 1]) 0 1 = none ∧
    (join_types (TypeTable.insertAll Fnv.sample TypeTable.empty
      [.PrimType 0, .PrimType 1, .SizedArrayType 0 4, .UnsizedArrayType 1]) 2 3 = none ↔
      ¬ ((2 : Handle) = 3 ∨
        (TypeTable.insertAll Fnv.sample TypeTable.empty
          [.PrimType 0, .PrimType 1, .SizedArrayType 0 4, .UnsizedArrayType 1]).node 2
            = some .NoRetType ∨
        (TypeTable.insertAll Fnv.sample TypeTable.empty
          [.PrimType 0, .PrimType 1, .SizedArrayType 0 4, .UnsizedArrayType 1]).node 3
            = some .NoRetType ∨
        (∃ e n, (TypeTable.insertAll Fnv.sample TypeTable.empty
            [.PrimType 0, .PrimType 1, .SizedArrayType 0 4, .UnsizedArrayType 1]).node 2
              = some (.SizedArrayType e n) ∧
          (TypeTable.insertAll Fnv.sample TypeTable.empty
            [.PrimType 0, .PrimType 1, .SizedArrayType 0 4, .UnsizedArrayType 1]).node 3
              = some (.UnsizedArrayType e)) ∨
        (∃ e n, (TypeTable.insertAll Fnv.sample TypeTable.empty
            [.PrimType 0, .PrimType 1, .SizedArrayType 0 4, .UnsizedArrayType 1]).node 2
              = some (.UnsizedArrayType e) ∧
          (TypeTable.insertAll Fnv.sample TypeTable.empty
            [.PrimType 0, .PrimType 1, .SizedArrayType 0 4, .UnsizedArrayType 1]).node 3
              = some (.SizedArrayType e n)))) ∧
    join_types (TypeTable.insertAll Fnv.sample TypeTable.empty
      [.PrimType 0, .PrimType 1, .SizedArrayType 0 4, .UnsizedArrayType 1]) 2 3 = none :=
  ⟨by decide, (join_types_none_iff _ 2 3).1, by decide⟩

/-! ## Member lookup and diagnostics -/

theorem find_if_le {α : Type} (p : α → Bool) (l : List α) : find_if p l ≤ l.length := by
  induction l with
  | nil => simp [find_if]
  | cons x xs ih =>
    simp only [find_if]
    split
    · omega
    · simp only [List.length_cons]; omega

theorem find_if_eq_length {α : Type} (p : α → Bool) (l : List α) :
    find_if p l = l.length ↔ ∀ x ∈ l, p x = false := by
  induction l with
  | nil => simp [find_if]
  | cons x xs ih =>
    simp only [find_if]
    cases hp : p x
    · simp [hp, ih]
    · simp [hp]

theorem find_if_lt {α : Type} (p : α → Bool) (l : List α) (i : Nat) :
    (find_if p l = i ∧ i < l.length) ↔
      ((∃ x, l[i]? = some x ∧ p x = true) ∧
        ∀ j, j < i → ∀ y, l[j]? = some y → p y = false) := by
  induction l generalizing i with
  | nil => simp [find_if]
  | cons x xs ih =>
    simp only [find_if]
    cases hp : p x
    · cases i with
      | zero => simp [hp]
      | succ k =>
        have := ih k
        simp only [Bool.false_eq_true, ↓reduceIte, Nat.add_right_cancel_iff,
          List.length_cons, Nat.add_lt_add_iff_right, List.getElem?_cons_succ]
        rw [this]
        constructor
        · rintro ⟨h1, h2⟩
          refine ⟨h1, ?_⟩
          intro j hj y hy
          cases j with
          | zero => simp at hy; rw [← hy]; exact hp
          | succ j => exact h2 j (by omega) y (by simpa using hy)
        · rintro ⟨h1, h2⟩
          refine ⟨h1, ?_⟩
          intro j hj y hy
          exact h2 (j + 1) (by omega) y (by simpa using hy)
    · cases i with
      | zero => simp [hp]
      | succ k =>
        simp only [↓reduceIte, List.length_cons, List.getElem?_cons_succ]
        constructor
        · rintro ⟨h, _⟩; omega
        · rintro ⟨_, h2⟩
          have := h2 0 (by omega) x (by simp)
          rw [hp] at this
          cases this

/-- C9: `find_member` of a struct type (of an enum type) returns the
smallest position of a field (variant) with the given name, and nothing
exactly when no member has the name; a returned index is below
`member_count`. -/
theorem find_member_first (name : String) :
    (∀ (decl : StructDecl),
      (∀ i, StructType.find_member decl name = some i ↔
        ((∃ f, decl.fields[i]? = some f ∧ f.id_name = name) ∧
          ∀ j, j < i → ∀ g, decl.fields[j]? = some g → g.id_name ≠ name)) ∧
      (StructType.find_member decl name = none ↔ ∀ f ∈ decl.fields, f.id_name ≠ name) ∧
      (∀ i, StructType.find_member decl name = some i → i < StructType.member_count decl)) ∧
    (∀ (decl : EnumDecl),
      (∀ i, EnumType.find_member decl name = some i ↔
        ((∃ o, decl.options[i]? = some o ∧ o.id_name = name) ∧
          ∀ j, j < i → ∀ g, decl.options[j]? = some g → g.id_name ≠ name)) ∧
      (EnumType.find_member decl name = none ↔ ∀ o ∈ decl.options, o.id_name ≠ name) ∧
      (∀ i, EnumType.find_member decl name = some i → i < EnumType.member_count decl)) := by
  have key : ∀ {α : Type} (nm : α → String) (l : List α),
      (∀ i, (if find_if (fun f => nm f == name) l ≠ l.length
            then some (find_if (fun f => nm f == name) l) else none) = some i ↔
        ((∃ f, l[i]? = some f ∧ nm f = name) ∧
          ∀ j, j < i → ∀ g, l[j]? = some g → nm g ≠ name)) ∧
      ((if find_if (fun f => nm f == name) l ≠ l.length
            then some (find_if (fun f => nm f == name) l) else none) = none ↔
        ∀ f ∈ l, nm f ≠ name) ∧
      (∀ i, (if find_if (fun f => nm f == name) l ≠ l.length
            then some (find_if (fun f => nm f == name) l) else none) = some i →
        i < l.length) := by
    intro α nm l
    have hle := find_if_le (fun f => nm f == name) l
    have hlen := find_if_eq_length (fun f => nm f == name) l
    have hlt := find_if_lt (fun f => nm f == name) l
    simp only [beq_iff_eq, beq_eq_false_iff_ne, ne_eq] at hlen hlt
    refine ⟨?_, ?_, ?_⟩
    · intro i
      rw [← hlt i]
      by_cases h : find_if (fun f => nm f == name) l = l.length
      · simp only [h, ne_eq, not_true_eq_false, ↓reduceIte]
        constructor
        · intro hc; cases hc
        · rintro ⟨h1, h2⟩; omega
      · simp only [ne_eq, h, not_false_eq_true, ↓reduceIte, Option.some.injEq]
        constructor
        · intro h1; exact ⟨h1, by omega⟩
        · intro h1; exact h1.1
    · rw [← hlen]
      by_cases h : find_if (fun f => nm f == name) l = l.length <;> simp [h]
    · intro i
      by_cases h : find_if (fun f => nm f == name) l = l.length
      · simp [h]
      · simp only [ne_eq, h, not_false_eq_true, ↓reduceIte, Option.some.injEq]
        intro h1; omega
  exact ⟨fun decl => key (fun f : FieldDecl => f.id_name) decl.fields,
    fun decl => key (fun o : OptionDecl => o.id_name) decl.options⟩

theorem find_member_first_witness :
    StructType.find_member ⟨none, [⟨"x", none⟩, ⟨"y", some 0⟩, ⟨"y", some 1⟩]⟩ "y" = some 1 ∧
    1 < StructType.member_count ⟨none, [⟨"x", none⟩, ⟨"y", some 0⟩, ⟨"y", some 1⟩]⟩ ∧
    (EnumType.find_member ⟨none, [⟨"A", none⟩, ⟨"B", none⟩]⟩ "C" = none ↔
      ∀ o ∈ [(⟨"A", none⟩ : OptionDecl), ⟨"B", none⟩], o.id_name ≠ "C") :=
  ⟨by decide,
    ((find_member_first "y").1 ⟨none, [⟨"x", none⟩, ⟨"y", some 0⟩, ⟨"y", some 1⟩]⟩).2.2 1
      (by decide),
    ((find_member_first "C").2 ⟨none, [⟨"A", none⟩, ⟨"B", none⟩]⟩).2.1⟩

/-- C10: when the actual type contains the error type, neither overload of
`expect` that takes an actual type sends a diagnostic: the error counter
and the list of diagnostics are as before, with or without a meet. -/
theorem expect_silent_on_error {T : Type} (ops : TypeOps T) (c : TypeChecker T) (loc : Loc)
    (msg : String) (type expected : T) (h : ops.contains type ops.error_type = true) :
    (TypeChecker.expect ops c loc type expected).2 = c ∧
    (TypeChecker.expect_with_msg ops c loc msg type expected).2 = c ∧
    (TypeChecker.expect ops c loc type expected).2.error_count = c.error_count ∧
    (TypeChecker.expect_with_msg ops c loc msg type expected).2.error_count = c.error_count := by
  have h1 : (TypeChecker.expect ops c loc type expected).2 = c := by
    unfold TypeChecker.expect TypeChecker.should_emit_error
    cases ops.meet type expected <;> simp [h]
  have h2 : (TypeChecker.expect_with_msg ops c loc msg type expected).2 = c := by
    unfold TypeChecker.expect_with_msg TypeChecker.should_emit_error
    cases ops.meet type expected <;> simp [h]
  exact ⟨h1, h2, by rw [h1], by rw [h2]⟩

theorem expect_silent_on_error_witness :
    TypeOps.sample.contains (.pair .int .error) TypeOps.sample.error_type = true ∧
    (TypeChecker.expect TypeOps.sample ⟨0, []⟩ ⟨1, 2⟩ (.pair .int .error) .bool).2 = ⟨0, []⟩ ∧
    (TypeChecker.expect_with_msg TypeOps.sample ⟨0, []⟩ ⟨1, 2⟩ "tuple expression"
      (.pair .int .error) .bool).2 = ⟨0, []⟩ ∧
    (TypeChecker.expect TypeOps.sample ⟨0, []⟩ ⟨1, 2⟩ (.pair .int .error) .bool).2.error_count
      = 0 ∧
    (TypeChecker.expect_with_msg TypeOps.sample ⟨0, []⟩ ⟨1, 2⟩ "tuple expression"
      (.pair .int .error) .bool).2.error_count = 0 :=
  ⟨by decide, expect_silent_on_error TypeOps.sample ⟨0, []⟩ ⟨1, 2⟩ "tuple expression"
    (.pair .int .error) .bool (by decide)⟩

/-! ## Properties of substitution -/

/-- One level of `replace` returns exactly along the paths of `ReplaceStep`. -/
theorem replace_succ_iff (H : Fnv) (df : Bool) (map : TypeMap) (fuel : Nat) (tt : TypeTable)
    (h : Handle) (r : Handle × TypeTable) :
    replace H df map (fuel + 1) tt h = some r ↔
      ReplaceStep H df map (replace H df map fuel) tt h r := by
  constructor
  · intro hr
    rw [replace] at hr
    cases hn : tt.node h with
    | none => simp [hn] at hr
    | some n =>
      cases n with
      | TupleType args =>
        simp only [hn] at hr
        cases ha : replaceArgs (replace H df map fuel) tt args with
        | none => simp [ha] at hr
        | some p =>
          obtain ⟨new_args, tt1⟩ := p
          simp only [ha, Option.some.injEq] at hr
          rw [← hr]
          exact .tuple args new_args tt1 hn ha
      | SizedArrayType elem size =>
        simp only [hn] at hr
        cases ha : replace H df map fuel tt elem with
        | none => simp [ha] at hr
        | some p =>
          obtain ⟨e, tt1⟩ := p
          simp only [ha, Option.some.injEq] at hr
          rw [← hr]
          exact .sized elem size e tt1 hn ha
      | UnsizedArrayType elem =>
        simp only [hn] at hr
        cases ha : replace H df map fuel tt elem with
        | none => simp [ha] at hr
        | some p =>
          obtain ⟨e, tt1⟩ := p
          simp only [ha, Option.some.injEq] at hr
          rw [← hr]
          exact .unsized elem e tt1 hn ha
      | PtrType pointee =>
        simp only [hn] at hr
        cases ha : replace H df map fuel tt pointee with
        | none => simp [ha] at hr
        | some p =>
          obtain ⟨e, tt1⟩ := p
          simp only [ha, Option.some.injEq] at hr
          rw [← hr]
          exact .ptr pointee e tt1 hn ha
      | FnType dom codom =>
        simp only [hn] at hr
        cases hdf : df with
        | true =>
          simp only [hdf, ↓reduceIte] at hr
          cases ha : replace H true map fuel tt dom with
          | none => simp [ha] at hr
          | some p =>
            obtain ⟨d, tt1⟩ := p
            simp only [ha] at hr
            cases hb : replace H true map fuel tt1 codom with
            | none => simp [hb] at hr
            | some q =>
              obtain ⟨c, tt2⟩ := q
              simp only [hb, Option.some.injEq] at hr
              rw [← hr]
              exact .fn_dom_first dom codom d c tt1 tt2 hn rfl ha hb
        | false =>
          simp only [hdf, Bool.false_eq_true, ↓reduceIte] at hr
          cases ha : replace H false map fuel tt codom with
          | none => simp [ha] at hr
          | some p =>
            obtain ⟨c, tt1⟩ := p
            simp only [ha] at hr
            cases hb : replace H false map fuel tt1 dom with
            | none => simp [hb] at hr
            | some q =>
              obtain ⟨d, tt2⟩ := q
              simp only [hb, Option.some.injEq] at hr
              rw [← hr]
              exact .fn_codom_first dom codom d c tt1 tt2 hn rfl ha hb
      | TypeVar param =>
        simp only [hn] at hr
        cases hm : TypeMap.find map h with
        | none =>
          simp only [hm, Option.some.injEq] at hr
          rw [← hr]
          exact .var_free param hn hm
        | some image =>
          simp only [hm, Option.some.injEq] at hr
          rw [← hr]
          exact .var_mapped param image hn hm
      | TypeApp applied type_args =>
        simp only [hn] at hr
        cases ha : replaceArgs (replace H df map fuel) tt type_args with
        | none => simp [ha] at hr
        | some p =>
          obtain ⟨new_args, tt1⟩ := p
          simp only [ha, Option.some.injEq] at hr
          rw [← hr]
          exact .app applied type_args new_args tt1 hn ha
      | PrimType tag =>
        simp only [hn, Option.some.injEq] at hr
        rw [← hr]
        exact .inherited _ hn rfl
      | NoRetType =>
        simp only [hn, Option.some.injEq] at hr
        rw [← hr]
        exact .inherited _ hn rfl
      | TypeError =>
        simp only [hn, Option.some.injEq] at hr
        rw [← hr]
        exact .inherited _ hn rfl
      | ForallType decl =>
        simp only [hn, Option.some.injEq] at hr
        rw [← hr]
        exact .inherited _ hn rfl
      | StructType decl =>
        simp only [hn, Option.some.injEq] at hr
        rw [← hr]
        exact .inherited _ hn rfl
      | EnumType decl =>
        simp only [hn, Option.some.injEq] at hr
        rw [← hr]
        exact .inherited _ hn rfl
  · intro hs
    rw [replace]
    cases hs with
    | tuple args new_args tt1 hn ha => simp only [hn, ha]; rfl
    | sized elem size e tt1 hn ha => simp only [hn, ha]; rfl
    | unsized elem e tt1 hn ha => simp only [hn, ha]; rfl
    | ptr pointee p tt1 hn ha => simp only [hn, ha]; rfl
    | fn_dom_first dom codom d c tt1 tt2 hn hdf ha hb =>
      subst hdf
      simp only [hn, ha, hb, ↓reduceIte]; rfl
    | fn_codom_first dom codom d c tt1 tt2 hn hdf ha hb =>
      subst hdf
      simp only [hn, ha, hb, Bool.false_eq_true, ↓reduceIte]; rfl
    | var_mapped param image hn hm => simp only [hn, hm]
    | var_free param hn hm => simp only [hn, hm]
    | app applied type_args new_args tt1 hn ha => simp only [hn, ha]; rfl
    | inherited n hn hc =>
      cases n <;> simp_all [TypeNode.inheritsReplace]

theorem growsTo_refl (tt : TypeTable) : tt.GrowsTo tt := ⟨[], by simp⟩

theorem growsTo_trans {a b c : TypeTable} (h1 : a.GrowsTo b) (h2 : b.GrowsTo c) :
    a.GrowsTo c := by
  obtain ⟨l1, h1⟩ := h1
  obtain ⟨l2, h2⟩ := h2
  exact ⟨l1 ++ l2, by rw [h2, h1, List.append_assoc]⟩

theorem growsTo_insert (H : Fnv) (tt : TypeTable) (t : TypeNode) :
    tt.GrowsTo (tt.insert H t).2 := insert_types H tt t

theorem growsTo_node {tt later : TypeTable} (hg : tt.GrowsTo later) {h : Handle} {n : TypeNode}
    (hn : tt.node h = some n) : later.node h = some n := by
  obtain ⟨l, hl⟩ := hg
  exact node_append hl hn

theorem node_lt {tt : TypeTable} {h : Nat} {n : TypeNode} (hn : tt.node h = some n) :
    h < tt.types_.length := by
  by_contra hc
  simp only [TypeTable.node] at hn
  rw [List.getElem?_eq_none (Nat.le_of_not_lt hc)] at hn
  cases hn

theorem insert_stable_grows (H : Fnv) (tt later : TypeTable) {t : TypeNode}
    (ht : t.isStructural = true) (hg : (tt.insert H t).2.GrowsTo later) :
    later.insert H t = ((tt.insert H t).1, later) := by
  obtain ⟨l, hl⟩ := hg
  exact insert_stable H tt later ht hl

/-- A property of tables that every recursive call maintains is
maintained by the loop over the arguments. -/
theorem replaceArgs_preserves {Q : TypeTable → Prop}
    {rep : TypeTable → Handle → Option (Handle × TypeTable)}
    (hrep : ∀ tt a r, rep tt a = some r → Q tt → Q r.2) :
    ∀ (args : List Handle) (tt : TypeTable) (r : List Handle × TypeTable),
      replaceArgs rep tt args = some r → Q tt → Q r.2 := by
  intro args
  induction args with
  | nil =>
    intro tt r hr hq
    simp only [replaceArgs, Option.some.injEq] at hr
    rw [← hr]; exact hq
  | cons a rest ih =>
    intro tt r hr hq
    simp only [replaceArgs] at hr
    cases ha : rep tt a with
    | none => simp [ha] at hr
    | some p =>
      obtain ⟨a1, tt1⟩ := p
      simp only [ha] at hr
      cases hb : replaceArgs rep tt1 rest with
      | none => simp [hb] at hr
      | some q =>
        obtain ⟨rest1, tt2⟩ := q
        simp only [hb, Option.some.injEq] at hr
        rw [← hr]
        exact ih tt1 (rest1, tt2) hb (hrep tt a _ ha hq)

/-- A property of tables that every insertion maintains is maintained by
`replace`. -/
theorem replace_preserves (H : Fnv) (df : Bool) (map : TypeMap) {Q : TypeTable → Prop}
    (hQ : ∀ tt t, Q tt → Q (tt.insert H t).2) :
    ∀ (fuel : Nat) (tt : TypeTable) (h : Handle) (r : Handle × TypeTable),
      replace H df map fuel tt h = some r → Q tt → Q r.2 := by
  intro fuel
  induction fuel with
  | zero => intro tt h r hr; simp [replace] at hr
  | succ fuel ih =>
    intro tt h r hr hq
    rw [replace_succ_iff] at hr
    cases hr with
    | tuple args new_args tt1 hn ha => exact hQ _ _ (replaceArgs_preserves ih args tt _ ha hq)
    | sized elem size e tt1 hn ha => exact hQ _ _ (ih tt elem _ ha hq)
    | unsized elem e tt1 hn ha => exact hQ _ _ (ih tt elem _ ha hq)
    | ptr pointee p tt1 hn ha => exact hQ _ _ (ih tt pointee _ ha hq)
    | fn_dom_first dom codom d c tt1 tt2 hn hdf ha hb =>
      exact hQ _ _ (ih tt1 codom _ hb (ih tt dom _ ha hq))
    | fn_codom_first dom codom d c tt1 tt2 hn hdf ha hb =>
      exact hQ _ _ (ih tt1 dom _ hb (ih tt codom _ ha hq))
    | var_mapped param image hn hm => exact hq
    | var_free param hn hm => exact hq
    | app applied type_args new_args tt1 hn ha =>
      exact hQ _ _ (replaceArgs_preserves ih type_args tt _ ha hq)
    | inherited n hn hc => exact hq

/-- The table after `replace` is a later state of the table before. -/
theorem replace_grows (H : Fnv) (df : Bool) (map : TypeMap) (fuel : Nat) (tt : TypeTable)
    (h : Handle) (r : Handle × TypeTable) (hr : replace H df map fuel tt h = some r) :
    tt.GrowsTo r.2 :=
  replace_preserves H df map (Q := fun T => tt.GrowsTo T)
    (fun T t hT => growsTo_trans hT (growsTo_insert H T t)) fuel tt h r hr (growsTo_refl tt)

theorem replaceArgs_grows {rep : TypeTable → Handle → Option (Handle × TypeTable)}
    (hrep : ∀ tt a r, rep tt a = some r → tt.GrowsTo r.2)
    (args : List Handle) (tt : TypeTable) (r : List Handle × TypeTable)
    (hr : replaceArgs rep tt args = some r) : tt.GrowsTo r.2 :=
  replaceArgs_preserves (Q := fun T => tt.GrowsTo T)
    (fun T a r hr hT => growsTo_trans hT (hrep T a r hr)) args tt r hr (growsTo_refl tt)

/-- The interning invariant survives `replace`. -/
theorem replace_interned (H : Fnv) (df : Bool) (map : TypeMap) (fuel : Nat) (tt : TypeTable)
    (h : Handle) (r : Handle × TypeTable) (hr : replace H df map fuel tt h = some r)
    (hI : tt.Interned) : r.2.Interned :=
  replace_preserves H df map (Q := TypeTable.Interned)
    (fun _ t hT => interned_insert H hT t) fuel tt h r hr hI

/-- The handle returned by `replace` names an object of the resulting
table, when the images of the map are objects of the table. -/
theorem replace_valid (H : Fnv) (df : Bool) (map : TypeMap) (fuel : Nat) (tt : TypeTable)
    (h : Handle) (r : Handle × TypeTable) (hr : replace H df map fuel tt h = some r)
    (hmap : ∀ k v, TypeMap.find map k = some v → v < tt.types_.length) :
    r.1 < r.2.types_.length := by
  cases fuel with
  | zero => simp [replace] at hr
  | succ fuel =>
    rw [replace_succ_iff] at hr
    cases hr with
    | tuple args new_args tt1 hn ha => exact node_lt (insert_node H _ _)
    | sized elem size e tt1 hn ha => exact node_lt (insert_node H _ _)
    | unsized elem e tt1 hn ha => exact node_lt (insert_node H _ _)
    | ptr pointee p tt1 hn ha => exact node_lt (insert_node H _ _)
    | fn_dom_first dom codom d c tt1 tt2 hn hdf ha hb => exact node_lt (insert_node H _ _)
    | fn_codom_first dom codom d c tt1 tt2 hn hdf ha hb => exact node_lt (insert_node H _ _)
    | var_mapped param image hn hm => exact hmap _ _ hm
    | var_free param hn hm => exact node_lt hn
    | app applied type_args new_args tt1 hn ha => exact node_lt (insert_node H _ _)
    | inherited n hn hc => exact node_lt hn


theorem replaceArgs_stable {rep : TypeTable → Handle → Option (Handle × TypeTable)}
    (hgrow : ∀ tt a r, rep tt a = some r → tt.GrowsTo r.2)
    (hrep : ∀ tt a r, rep tt a = some r → ∀ later, r.2.GrowsTo later →
      rep later a = some (r.1, later)) :
    ∀ (args : List Handle) (tt : TypeTable) (r : List Handle × TypeTable),
      replaceArgs rep tt args = some r → ∀ later, r.2.GrowsTo later →
      replaceArgs rep later args = some (r.1, later) := by
  intro args
  induction args with
  | nil =>
    intro tt r hr later _
    simp only [replaceArgs, Option.some.injEq] at hr
    rw [← hr]; rfl
  | cons a rest ih =>
    intro tt r hr later hl
    simp only [replaceArgs] at hr
    cases ha : rep tt a with
    | none => simp [ha] at hr
    | some p =>
      obtain ⟨a1, tt1⟩ := p
      simp only [ha] at hr
      cases hb : replaceArgs rep tt1 rest with
      | none => simp [hb] at hr
      | some q =>
        obtain ⟨rest1, tt2⟩ := q
        simp only [hb, Option.some.injEq] at hr
        rw [← hr] at hl ⊢
        have h12 : tt1.GrowsTo tt2 := replaceArgs_grows hgrow rest tt1 _ hb
        have e1 := hrep tt a _ ha later (growsTo_trans h12 hl)
        have e2 := ih tt1 _ hb later hl
        simp only [replaceArgs, e1, e2]

/-- A substitution that has been computed is computed again with the same
result in every later state of the table, and leaves that state unchanged. -/
theorem replace_stable (H : Fnv) (df : Bool) (map : TypeMap) :
    ∀ (fuel : Nat) (tt : TypeTable) (h : Handle) (r : Handle × TypeTable),
      replace H df map fuel tt h = some r → ∀ later, r.2.GrowsTo later →
      replace H df map fuel later h = some (r.1, later) := by
  intro fuel
  induction fuel with
  | zero => intro tt h r hr; simp [replace] at hr
  | succ fuel ih =>
    intro tt h r hr later hl
    have hgrow := replace_grows H df map fuel
    rw [replace_succ_iff] at hr ⊢
    cases hr with
    | tuple args new_args tt1 hn ha =>
      have g1 : tt.GrowsTo tt1 := replaceArgs_grows hgrow args tt _ ha
      have g2 := growsTo_insert H tt1 (.TupleType new_args)
      have e := replaceArgs_stable hgrow ih args tt _ ha later (growsTo_trans g2 hl)
      have : ReplaceStep H df map (replace H df map fuel) later h _ := ReplaceStep.tuple args new_args later
        (growsTo_node (growsTo_trans g1 (growsTo_trans g2 hl)) hn) e
      rwa [insert_stable_grows H tt1 later (t := .TupleType new_args) rfl hl] at this
    | sized elem size e tt1 hn ha =>
      have g1 : tt.GrowsTo tt1 := hgrow _ _ _ ha
      have g2 := growsTo_insert H tt1 (.SizedArrayType e size)
      have e1 := ih tt elem _ ha later (growsTo_trans g2 hl)
      have : ReplaceStep H df map (replace H df map fuel) later h _ := ReplaceStep.sized elem size e later
        (growsTo_node (growsTo_trans g1 (growsTo_trans g2 hl)) hn) e1
      rwa [insert_stable_grows H tt1 later (t := .SizedArrayType e size) rfl hl] at this
    | unsized elem e tt1 hn ha =>
      have g1 : tt.GrowsTo tt1 := hgrow _ _ _ ha
      have g2 := growsTo_insert H tt1 (.UnsizedArrayType e)
      have e1 := ih tt elem _ ha later (growsTo_trans g2 hl)
      have : ReplaceStep H df map (replace H df map fuel) later h _ := ReplaceStep.unsized elem e later
        (growsTo_node (growsTo_trans g1 (growsTo_trans g2 hl)) hn) e1
      rwa [insert_stable_grows H tt1 later (t := .UnsizedArrayType e) rfl hl] at this
    | ptr pointee p tt1 hn ha =>
      have g1 : tt.GrowsTo tt1 := hgrow _ _ _ ha
      have g2 := growsTo_insert H tt1 (.PtrType p)
      have e1 := ih tt pointee _ ha later (growsTo_trans g2 hl)
      have : ReplaceStep H df map (replace H df map fuel) later h _ := ReplaceStep.ptr pointee p later
        (growsTo_node (growsTo_trans g1 (growsTo_trans g2 hl)) hn) e1
      rwa [insert_stable_grows H tt1 later (t := .PtrType p) rfl hl] at this
    | fn_dom_first dom codom d c tt1 tt2 hn hdf ha hb =>
      have g1 : tt.GrowsTo tt1 := hgrow _ _ _ ha
      have g12 : tt1.GrowsTo tt2 := hgrow _ _ _ hb
      have g2 := growsTo_insert H tt2 (.FnType d c)
      have e1 := ih tt dom _ ha later (growsTo_trans g12 (growsTo_trans g2 hl))
      have e2 := ih tt1 codom _ hb later (growsTo_trans g2 hl)
      have : ReplaceStep H df map (replace H df map fuel) later h _ := ReplaceStep.fn_dom_first dom codom d c
        later later
        (growsTo_node (growsTo_trans g1 (growsTo_trans g12 (growsTo_trans g2 hl))) hn) hdf e1 e2
      rwa [insert_stable_grows H tt2 later (t := .FnType d c) rfl hl] at this
    | fn_codom_first dom codom d c tt1 tt2 hn hdf ha hb =>
      have g1 : tt.GrowsTo tt1 := hgrow _ _ _ ha
      have g12 : tt1.GrowsTo tt2 := hgrow _ _ _ hb
      have g2 := growsTo_insert H tt2 (.FnType d c)
      have e1 := ih tt codom _ ha later (growsTo_trans g12 (growsTo_trans g2 hl))
      have e2 := ih tt1 dom _ hb later (growsTo_trans g2 hl)
      have : ReplaceStep H df map (replace H df map fuel) later h _ := ReplaceStep.fn_codom_first dom codom d c
        later later
        (growsTo_node (growsTo_trans g1 (growsTo_trans g12 (growsTo_trans g2 hl))) hn) hdf e1 e2
      rwa [insert_stable_grows H tt2 later (t := .FnType d c) rfl hl] at this
    | var_mapped param image hn hm =>
      exact ReplaceStep.var_mapped param image (growsTo_node hl hn) hm
    | var_free param hn hm =>
      exact ReplaceStep.var_free param (growsTo_node hl hn) hm
    | app applied type_args new_args tt1 hn ha =>
      have g1 : tt.GrowsTo tt1 := replaceArgs_grows hgrow type_args tt _ ha
      have g2 := growsTo_insert H tt1 (.TypeApp applied new_args)
      have e := replaceArgs_stable hgrow ih type_args tt _ ha later (growsTo_trans g2 hl)
      have : ReplaceStep H df map (replace H df map fuel) later h _ := ReplaceStep.app applied type_args new_args
        later (growsTo_node (growsTo_trans g1 (growsTo_trans g2 hl)) hn) e
      rwa [insert_stable_grows H tt1 later (t := .TypeApp applied new_args) rfl hl] at this
    | inherited n hn hc =>
      exact ReplaceStep.inherited n (growsTo_node hl hn) hc


theorem isSubst_grows {tt later : TypeTable} (σ : Handle → Option Handle)
    (hg : tt.GrowsTo later) :
    ∀ (depth : Nat) (h r : Handle), IsSubst tt σ depth h r → IsSubst later σ depth h r := by
  intro depth
  induction depth with
  | zero => intro h r hs; simp [IsSubst] at hs
  | succ depth ih =>
    intro h r hs
    rw [IsSubst] at hs ⊢
    cases hn : tt.node h with
    | none => simp [hn] at hs
    | some n =>
      rw [growsTo_node hg hn]
      rw [hn] at hs
      cases n with
      | TupleType args =>
        obtain ⟨args1, h1, h2⟩ := hs
        exact ⟨args1, growsTo_node hg h1, h2.imp (fun a b hab => ih a b hab)⟩
      | SizedArrayType elem size =>
        obtain ⟨e1, h1, h2⟩ := hs
        exact ⟨e1, growsTo_node hg h1, ih _ _ h2⟩
      | UnsizedArrayType elem =>
        obtain ⟨e1, h1, h2⟩ := hs
        exact ⟨e1, growsTo_node hg h1, ih _ _ h2⟩
      | PtrType pointee =>
        obtain ⟨e1, h1, h2⟩ := hs
        exact ⟨e1, growsTo_node hg h1, ih _ _ h2⟩
      | FnType dom codom =>
        obtain ⟨d1, c1, h1, h2, h3⟩ := hs
        exact ⟨d1, c1, growsTo_node hg h1, ih _ _ h2, ih _ _ h3⟩
      | TypeApp applied type_args =>
        obtain ⟨args1, h1, h2⟩ := hs
        exact ⟨args1, growsTo_node hg h1, h2.imp (fun a b hab => ih a b hab)⟩
      | TypeVar param => exact hs
      | PrimType tag => exact hs
      | NoRetType => exact hs
      | TypeError => exact hs
      | ForallType decl => exact hs
      | StructType decl => exact hs
      | EnumType decl => exact hs

theorem replaceArgs_forall2 {R : TypeTable → Handle → Handle → Prop}
    {rep : TypeTable → Handle → Option (Handle × TypeTable)}
    (hmono : ∀ tt later a b, R tt a b → tt.GrowsTo later → R later a b)
    (hgrow : ∀ tt a r, rep tt a = some r → tt.GrowsTo r.2)
    (hrep : ∀ tt a r, rep tt a = some r → R r.2 a r.1) :
    ∀ (args : List Handle) (tt : TypeTable) (r : List Handle × TypeTable),
      replaceArgs rep tt args = some r → List.Forall₂ (R r.2) args r.1 := by
  intro args
  induction args with
  | nil =>
    intro tt r hr
    simp only [replaceArgs, Option.some.injEq] at hr
    rw [← hr]; exact List.Forall₂.nil
  | cons a rest ih =>
    intro tt r hr
    simp only [replaceArgs] at hr
    cases ha : rep tt a with
    | none => simp [ha] at hr
    | some p =>
      obtain ⟨a1, tt1⟩ := p
      simp only [ha] at hr
      cases hb : replaceArgs rep tt1 rest with
      | none => simp [hb] at hr
      | some q =>
        obtain ⟨rest1, tt2⟩ := q
        simp only [hb, Option.some.injEq] at hr
        rw [← hr]
        have h12 : tt1.GrowsTo tt2 := replaceArgs_grows hgrow rest tt1 _ hb
        exact List.Forall₂.cons (hmono _ _ _ _ (hrep tt a _ ha) h12) (ih tt1 _ hb)

/-- The handle returned by `replace` is, in the resulting table, the type
`h` with every variable replaced by its image under the map. -/
theorem replace_isSubst (H : Fnv) (df : Bool) (map : TypeMap) :
    ∀ (fuel : Nat) (tt : TypeTable) (h : Handle) (r : Handle × TypeTable),
      replace H df map fuel tt h = some r → IsSubst r.2 (TypeMap.find map) fuel h r.1 := by
  intro fuel
  induction fuel with
  | zero => intro tt h r hr; simp [replace] at hr
  | succ fuel ih =>
    intro tt h r hr
    have hgrow := replace_grows H df map fuel
    have hmono : ∀ (tt later : TypeTable) (a b : Handle),
        IsSubst tt (TypeMap.find map) fuel a b → tt.GrowsTo later →
        IsSubst later (TypeMap.find map) fuel a b :=
      fun tt later a b hab hg => isSubst_grows _ hg fuel a b hab
    rw [replace_succ_iff] at hr
    rw [IsSubst]
    cases hr with
    | tuple args new_args tt1 hn ha =>
      have g1 : tt.GrowsTo tt1 := replaceArgs_grows hgrow args tt _ ha
      have g2 := growsTo_insert H tt1 (.TupleType new_args)
      rw [growsTo_node (growsTo_trans g1 g2) hn]
      refine ⟨new_args, insert_node H _ _, ?_⟩
      exact (replaceArgs_forall2 hmono hgrow ih args tt _ ha).imp
        (fun a b hab => hmono _ _ a b hab g2)
    | sized elem size e tt1 hn ha =>
      have g1 : tt.GrowsTo tt1 := hgrow _ _ _ ha
      have g2 := growsTo_insert H tt1 (.SizedArrayType e size)
      rw [growsTo_node (growsTo_trans g1 g2) hn]
      exact ⟨e, insert_node H _ _, hmono _ _ _ _ (ih _ _ _ ha) g2⟩
    | unsized elem e tt1 hn ha =>
      have g1 : tt.GrowsTo tt1 := hgrow _ _ _ ha
      have g2 := growsTo_insert H tt1 (.UnsizedArrayType e)
      rw [growsTo_node (growsTo_trans g1 g2) hn]
      exact ⟨e, insert_node H _ _, hmono _ _ _ _ (ih _ _ _ ha) g2⟩
    | ptr pointee p tt1 hn ha =>
      have g1 : tt.GrowsTo tt1 := hgrow _ _ _ ha
      have g2 := growsTo_insert H tt1 (.PtrType p)
      rw [growsTo_node (growsTo_trans g1 g2) hn]
      exact ⟨p, insert_node H _ _, hmono _ _ _ _ (ih _ _ _ ha) g2⟩
    | fn_dom_first dom codom d c tt1 tt2 hn hdf ha hb =>
      have g1 : tt.GrowsTo tt1 := hgrow _ _ _ ha
      have g12 : tt1.GrowsTo tt2 := hgrow _ _ _ hb
      have g2 := growsTo_insert H tt2 (.FnType d c)
      rw [growsTo_node (growsTo_trans g1 (growsTo_trans g12 g2)) hn]
      exact ⟨d, c, insert_node H _ _, hmono _ _ _ _ (ih _ _ _ ha) (growsTo_trans g12 g2),
        hmono _ _ _ _ (ih _ _ _ hb) g2⟩
    | fn_codom_first dom codom d c tt1 tt2 hn hdf ha hb =>
      have g1 : tt.GrowsTo tt1 := hgrow _ _ _ ha
      have g12 : tt1.GrowsTo tt2 := hgrow _ _ _ hb
      have g2 := growsTo_insert H tt2 (.FnType d c)
      rw [growsTo_node (growsTo_trans g1 (growsTo_trans g12 g2)) hn]
      exact ⟨d, c, insert_node H _ _, hmono _ _ _ _ (ih _ _ _ hb) g2,
        hmono _ _ _ _ (ih _ _ _ ha) (growsTo_trans g12 g2)⟩
    | var_mapped param image hn hm => simp only [hn, hm]
    | var_free param hn hm => simp only [hn, hm]
    | app applied type_args new_args tt1 hn ha =>
      have g1 : tt.GrowsTo tt1 := replaceArgs_grows hgrow type_args tt _ ha
      have g2 := growsTo_insert H tt1 (.TypeApp applied new_args)
      rw [growsTo_node (growsTo_trans g1 g2) hn]
      refine ⟨new_args, insert_node H _ _, ?_⟩
      exact (replaceArgs_forall2 hmono hgrow ih type_args tt _ ha).imp
        (fun a b hab => hmono _ _ a b hab g2)
    | inherited n hn hc =>
      simp only [hn]
      cases n <;> simp_all [TypeNode.inheritsReplace]

theorem replaceArgs_total {rep : TypeTable → Handle → Option (Handle × TypeTable)}
    (tt : TypeTable)
    (hgrow : ∀ tt a r, rep tt a = some r → tt.GrowsTo r.2) :
    ∀ (args : List Handle),
      (∀ a ∈ args, ∀ later, tt.GrowsTo later → ∃ r, rep later a = some r) →
      ∀ later, tt.GrowsTo later → ∃ r, replaceArgs rep later args = some r := by
  intro args
  induction args with
  | nil => intro _ later _; exact ⟨_, rfl⟩
  | cons a rest ih =>
    intro hall later hl
    obtain ⟨⟨a1, tt1⟩, ha⟩ := hall a (List.mem_cons_self _ _) later hl
    have g1 : later.GrowsTo tt1 := hgrow _ _ _ ha
    obtain ⟨⟨rest1, tt2⟩, hb⟩ :=
      ih (fun b hb => hall b (List.mem_cons_of_mem _ hb)) tt1 (growsTo_trans hl g1)
    exact ⟨(a1 :: rest1, tt2), by simp only [replaceArgs, ha, hb]⟩

/-- In a closed table `replace` returns a result on every stored object,
in every later state of the table, once the fuel exceeds the handle. -/
theorem replace_total (H : Fnv) (df : Bool) (map : TypeMap) (tt : TypeTable)
    (hC : tt.Closed) :
    ∀ (fuel : Nat) (h : Nat), h < fuel → h < tt.types_.length →
      ∀ later, tt.GrowsTo later → ∃ r, replace H df map fuel later h = some r := by
  intro fuel
  induction fuel with
  | zero => intro h hf; omega
  | succ fuel ih =>
    intro h hf hlen later hl
    have hgrow := replace_grows H df map fuel
    obtain ⟨n, hn⟩ : ∃ n, tt.node h = some n := by
      simp only [TypeTable.node]
      exact ⟨_, List.getElem?_eq_getElem hlen⟩
    have hch : ∀ c ∈ n.children, ∀ later, tt.GrowsTo later →
        ∃ r, replace H df map fuel later c = some r := by
      intro c hc later hl
      have hlt : c < h := hC h n hn c hc
      exact ih c (Nat.lt_of_lt_of_le hlt (Nat.le_of_lt_succ hf)) (Nat.lt_trans hlt hlen) later hl
    have hnl := growsTo_node hl hn
    cases n with
    | TupleType args =>
      obtain ⟨⟨new_args, tt1⟩, ha⟩ := replaceArgs_total tt hgrow args hch later hl
      exact ⟨_, (replace_succ_iff ..).2 (.tuple args new_args tt1 hnl ha)⟩
    | SizedArrayType elem size =>
      obtain ⟨⟨e, tt1⟩, ha⟩ := hch elem (by simp [TypeNode.children]) later hl
      exact ⟨_, (replace_succ_iff ..).2 (.sized elem size e tt1 hnl ha)⟩
    | UnsizedArrayType elem =>
      obtain ⟨⟨e, tt1⟩, ha⟩ := hch elem (by simp [TypeNode.children]) later hl
      exact ⟨_, (replace_succ_iff ..).2 (.unsized elem e tt1 hnl ha)⟩
    | PtrType pointee =>
      obtain ⟨⟨e, tt1⟩, ha⟩ := hch pointee (by simp [TypeNode.children]) later hl
      exact ⟨_, (replace_succ_iff ..).2 (.ptr pointee e tt1 hnl ha)⟩
    | FnType dom codom =>
      cases hdf : df with
      | true =>
        obtain ⟨⟨d, tt1⟩, ha⟩ := hch dom (by simp [TypeNode.children]) later hl
        have g1 : later.GrowsTo tt1 := by rw [hdf] at hgrow; exact hgrow _ _ _ (hdf ▸ ha)
        obtain ⟨⟨c, tt2⟩, hb⟩ :=
          hch codom (by simp [TypeNode.children]) tt1 (growsTo_trans hl g1)
        rw [← hdf]
        exact ⟨_, (replace_succ_iff ..).2 (.fn_dom_first dom codom d c tt1 tt2 hnl hdf ha hb)⟩
      | false =>
        obtain ⟨⟨c, tt1⟩, ha⟩ := hch codom (by simp [TypeNode.children]) later hl
        have g1 : later.GrowsTo tt1 := by rw [hdf] at hgrow; exact hgrow _ _ _ (hdf ▸ ha)
        obtain ⟨⟨d, tt2⟩, hb⟩ :=
          hch dom (by simp [TypeNode.children]) tt1 (growsTo_trans hl g1)
        rw [← hdf]
        exact ⟨_, (replace_succ_iff ..).2 (.fn_codom_first dom codom d c tt1 tt2 hnl hdf ha hb)⟩
    | TypeApp applied type_args =>
      obtain ⟨⟨new_args, tt1⟩, ha⟩ := replaceArgs_total tt hgrow type_args
        (fun a ha => hch a (by simp [TypeNode.children, ha])) later hl
      exact ⟨_, (replace_succ_iff ..).2 (.app applied type_args new_args tt1 hnl ha)⟩
    | TypeVar param =>
      cases hm : TypeMap.find map h with
      | none => exact ⟨_, (replace_succ_iff ..).2 (.var_free param hnl hm)⟩
      | some image => exact ⟨_, (replace_succ_iff ..).2 (.var_mapped param image hnl hm)⟩
    | PrimType tag => exact ⟨_, (replace_succ_iff ..).2 (.inherited _ hnl rfl)⟩
    | NoRetType => exact ⟨_, (replace_succ_iff ..).2 (.inherited _ hnl rfl)⟩
    | TypeError => exact ⟨_, (replace_succ_iff ..).2 (.inherited _ hnl rfl)⟩
    | ForallType decl => exact ⟨_, (replace_succ_iff ..).2 (.inherited _ hnl rfl)⟩
    | StructType decl => exact ⟨_, (replace_succ_iff ..).2 (.inherited _ hnl rfl)⟩
    | EnumType decl => exact ⟨_, (replace_succ_iff ..).2 (.inherited _ hnl rfl)⟩

theorem find_append (m1 m2 : TypeMap) (k : Handle) :
    TypeMap.find (m1 ++ m2) k =
      match TypeMap.find m1 k with
      | some v => some v
      | none => TypeMap.find m2 k := by
  induction m1 with
  | nil => simp [TypeMap.find]
  | cons kv rest ih =>
    obtain ⟨k1, v1⟩ := kv
    simp only [List.cons_append, TypeMap.find]
    split
    · rfl
    · exact ih

theorem find_emplace (map : TypeMap) (key value k : Handle) :
    TypeMap.find (TypeMap.emplace map key value) k =
      match TypeMap.find map k with
      | some v => some v
      | none => if key = k then some value else none := by
  unfold TypeMap.emplace
  cases hk : TypeMap.find map key with
  | some x =>
    simp only
    cases hk2 : TypeMap.find map k with
    | some y => rfl
    | none =>
      simp only
      have : key ≠ k := by
        intro h; rw [h] at hk; rw [hk] at hk2; cases hk2
      simp [this]
  | none =>
    simp only
    rw [find_append]
    simp [TypeMap.find]

/-- The map filled by the loop sends a variable to what it had before the
loop, and otherwise to the argument of the first parameter it belongs to. -/
theorem bindParams_find :
    ∀ (params : List TypeParam) (args : List Handle) (acc map : TypeMap),
      bindParams params args acc = some map →
      ∀ k, TypeMap.find map k =
        match TypeMap.find acc k with
        | some v => some v
        | none => paramSubst params args k := by
  intro params
  induction params with
  | nil =>
    intro args acc map hb k
    simp only [bindParams, Option.some.injEq] at hb
    rw [← hb]
    cases TypeMap.find acc k <;> simp [paramSubst]
  | cons p ps ih =>
    intro args acc map hb k
    cases args with
    | nil =>
      simp only [bindParams, Option.some.injEq] at hb
      rw [← hb]
      cases TypeMap.find acc k <;> simp [paramSubst]
    | cons a as =>
      simp only [bindParams] at hb
      cases hp : p.type with
      | none => simp [hp] at hb
      | some v =>
        simp only [hp] at hb
        rw [ih as _ map hb k, find_emplace]
        cases TypeMap.find acc k with
        | some x => rfl
        | none =>
          simp only [paramSubst, hp, Option.some.injEq]
          by_cases hv : v = k <;> simp [hv]

theorem bindParams_some :
    ∀ (params : List TypeParam) (args : List Handle) (acc : TypeMap),
      (∀ p ∈ params, p.type ≠ none) → ∃ map, bindParams params args acc = some map := by
  intro params
  induction params with
  | nil => intro args acc _; exact ⟨acc, by simp [bindParams]⟩
  | cons p ps ih =>
    intro args acc hall
    cases args with
    | nil => exact ⟨acc, by simp [bindParams]⟩
    | cons a as =>
      cases hp : p.type with
      | none => exact absurd hp (hall p (List.mem_cons_self _ _))
      | some v =>
        obtain ⟨map, hm⟩ := ih as (TypeMap.emplace acc v a)
          (fun q hq => hall q (List.mem_cons_of_mem _ hq))
        exact ⟨map, by simp only [bindParams, hp, hm]⟩

/-- With pairwise different parameter variables the substitution sends
the variable of the `j`-th parameter to the `j`-th argument. -/
theorem paramSubst_nth :
    ∀ (params : List TypeParam) (args : List Handle),
      (params.map (fun p => p.type)).Nodup →
      ∀ (j : Nat) (p : TypeParam) (v a : Handle), params[j]? = some p → p.type = some v →
        args[j]? = some a → paramSubst params args v = some a := by
  intro params
  induction params with
  | nil => intro args _ j p v a hp; simp at hp
  | cons q qs ih =>
    intro args hnd j p v a hp hv ha
    cases args with
    | nil => simp at ha
    | cons b bs =>
      rw [List.map_cons, List.nodup_cons] at hnd
      cases j with
      | zero =>
        simp only [List.getElem?_cons_zero, Option.some.injEq] at hp ha
        subst hp; subst ha
        simp [paramSubst, hv]
      | succ j =>
        simp only [List.getElem?_cons_succ] at hp ha
        have hne : q.type ≠ some v := by
          intro hq
          apply hnd.1
          rw [hq, ← hv]
          exact List.mem_map.2 ⟨p, List.getElem?_mem hp, rfl⟩
        simp only [paramSubst, hne, ↓reduceIte]
        exact ih bs hnd.2 j p v a hp hv ha

theorem paramSubst_none :
    ∀ (params : List TypeParam) (args : List Handle) (v : Handle),
      (∀ p ∈ params, p.type ≠ some v) → paramSubst params args v = none := by
  intro params
  induction params with
  | nil => intro args v _; cases args <;> rfl
  | cons q qs ih =>
    intro args v hall
    cases args with
    | nil => rfl
    | cons b bs =>
      simp only [paramSubst, hall q (List.mem_cons_self _ _), ↓reduceIte]
      exact ih bs v (fun p hp => hall p (List.mem_cons_of_mem _ hp))

/-- In an interned table, requesting the fields of a stored structural
object returns that object and changes nothing. -/
theorem interned_insert_stored (H : Fnv) {tt : TypeTable} (hI : tt.Interned) {h : Handle}
    {n : TypeNode} (hn : tt.node h = some n) (hs : n.isStructural = true) :
    tt.insert H n = (h, tt) := by
  rw [insert_structural H tt hs]
  have hm : n ∈ tt.types_ := List.getElem?_mem hn
  rw [if_pos hm, hI h n hn hs]

theorem closed_empty : TypeTable.empty.Closed := by
  intro h n hn
  simp [TypeTable.node, TypeTable.empty] at hn

theorem closed_insert (H : Fnv) {tt : TypeTable} (hC : tt.Closed) (t : TypeNode)
    (ht : ∀ c ∈ t.children, c < tt.types_.length) : (tt.insert H t).2.Closed := by
  rcases insert_cases H tt t with ⟨h, _, _⟩ | ⟨h, _⟩
  · rw [h]; exact hC
  · rw [h]
    intro (i : Nat) n hn c hc
    simp only [TypeTable.node] at hn
    by_cases hi : i < tt.types_.length
    · rw [List.getElem?_append_left hi] at hn
      exact hC i n hn c hc
    · rw [List.getElem?_append_right (Nat.le_of_not_lt hi)] at hn
      have hi0 : i - tt.types_.length = 0 := by
        by_contra hne
        have hlen : [t].length ≤ i - tt.types_.length := by
          simp only [List.length_singleton]
          omega
        rw [List.getElem?_eq_none hlen] at hn
        cases hn
      rw [hi0] at hn
      simp only [List.getElem?_cons_zero, Option.some.injEq] at hn
      subst hn
      exact Nat.lt_of_lt_of_le (ht c hc) (Nat.le_of_not_lt hi)

/-- C6, as the code has it: on a stored object of an interned, closed
table, with the images of the map stored, `replace` returns a stored
handle of an interned later state of the table; when the object it names
is of a structural class, requesting that object again returns the same
handle and changes nothing; when it is a type variable, forall, struct
or enum type, the handle is the operand itself or an image of the map. -/
theorem replace_canonical (H : Fnv) (df : Bool) (map : TypeMap) (tt : TypeTable) (t fuel : Nat)
    (hI : tt.Interned) (hC : tt.Closed) (ht : t < tt.types_.length)
    (hmap : ∀ k v, TypeMap.find map k = some v → v < tt.types_.length) (hf : t < fuel) :
    ∃ r, replace H df map fuel tt t = some r ∧ r.2.Interned ∧ tt.GrowsTo r.2 ∧
      ∃ n, r.2.node r.1 = some n ∧
        (n.isStructural = true → r.2.insert H n = (r.1, r.2)) ∧
        (n.isStructural = false → r.1 = t ∨ ∃ k, TypeMap.find map k = some r.1) := by
  obtain ⟨r, hr⟩ := replace_total H df map tt hC fuel t hf ht tt (growsTo_refl tt)
  have hI2 := replace_interned H df map fuel tt t r hr hI
  have hv := replace_valid H df map fuel tt t r hr hmap
  obtain ⟨n, hn⟩ : ∃ n, r.2.node r.1 = some n :=
    ⟨_, List.getElem?_eq_getElem hv⟩
  refine ⟨r, hr, hI2, replace_grows H df map fuel tt t r hr, n, hn,
    fun hs => interned_insert_stored H hI2 hn hs, ?_⟩
  intro hs
  cases fuel with
  | zero => simp [replace] at hr
  | succ fuel =>
    rw [replace_succ_iff] at hr
    cases hr with
    | tuple args new_args tt1 h1 ha =>
      rw [insert_node] at hn; cases hn; cases hs
    | sized elem size e tt1 h1 ha =>
      rw [insert_node] at hn; cases hn; cases hs
    | unsized elem e tt1 h1 ha =>
      rw [insert_node] at hn; cases hn; cases hs
    | ptr pointee p tt1 h1 ha =>
      rw [insert_node] at hn; cases hn; cases hs
    | fn_dom_first dom codom d c tt1 tt2 h1 hdf ha hb =>
      rw [insert_node] at hn; cases hn; cases hs
    | fn_codom_first dom codom d c tt1 tt2 h1 hdf ha hb =>
      rw [insert_node] at hn; cases hn; cases hs
    | var_mapped param image h1 hm => exact Or.inr ⟨t, hm⟩
    | var_free param h1 hm => exact Or.inl rfl
    | app applied type_args new_args tt1 h1 ha =>
      rw [insert_node] at hn; cases hn; cases hs
    | inherited n1 h1 hc => exact Or.inl rfl

theorem replace_canonical_witness :
    ∃ r, replace Fnv.sample true [(0, 1)] 4
        (TypeTable.insertAll Fnv.sample TypeTable.empty
          [.TypeVar 7, .PrimType 1, .FnType 0 0, .TupleType [2, 0, 1]]) 3 = some r ∧
      r.2.Interned ∧
      (TypeTable.insertAll Fnv.sample TypeTable.empty
          [.TypeVar 7, .PrimType 1, .FnType 0 0, .TupleType [2, 0, 1]]).GrowsTo r.2 ∧
      ∃ n, r.2.node r.1 = some n ∧
        (n.isStructural = true → r.2.insert Fnv.sample n = (r.1, r.2)) ∧
        (n.isStructural = false → r.1 = 3 ∨ ∃ k, TypeMap.find [(0, 1)] k = some r.1) :=
  replace_canonical Fnv.sample true [(0, 1)]
    (TypeTable.insertAll Fnv.sample TypeTable.empty
      [.TypeVar 7, .PrimType 1, .FnType 0 0, .TupleType [2, 0, 1]]) 3 4
    (interned_insertAll _ interned_empty _)
    (closed_insert _ (closed_insert _ (closed_insert _ (closed_insert _ closed_empty _
      (by decide)) _ (by decide)) _ (by decide)) _ (by decide))
    (by decide)
    (by
      intro k v hkv
      simp only [TypeMap.find] at hkv
      split at hkv
      · cases hkv; decide
      · cases hkv)
    (by decide)

/-- C6 as stated fails: the type variable created by `type_var` for the
parameter at address 7 is returned unchanged by `replace` under the empty
map, yet requesting the same variable again through the factory yields
another handle. -/
theorem replace_type_var_not_rebuilt :
    ¬ (∀ (r : Handle × TypeTable) (n : TypeNode),
        replace Fnv.sample true [] 1 (TypeTable.empty.type_var Fnv.sample 7).2
          (TypeTable.empty.type_var Fnv.sample 7).1 = some r →
        r.2.node r.1 = some n → (r.2.insert Fnv.sample n).1 = r.1) := by
  intro h
  have := h (0, (TypeTable.empty.type_var Fnv.sample 7).2) (.TypeVar 7) (by decide) (by decide)
  revert this
  decide

/-- The substitution computed from the map that `bindParams` fills. -/
theorem bindParams_find_nil (params : List TypeParam) (args : List Handle) (map : TypeMap)
    (hb : bindParams params args [] = some map) :
    TypeMap.find map = paramSubst params args := by
  funext k
  rw [bindParams_find params args [] map hb k]
  rfl

/-- Instantiating the identity declaration: one parameter with variable
`T`, body `T -> T`. -/
theorem instantiate_identity (H : Fnv) (df : Bool) (tt : TypeTable) (T body : Handle) (p : Nat)
    (decl : FnDecl) (fuel : Nat) (hT : tt.node T = some (.TypeVar p))
    (hbody : tt.node body = some (.FnType T T)) (hdecl : decl.type_params = some [⟨some T⟩])
    (hf : 2 ≤ fuel) (I : Handle) :
    ForallType.instantiate H df fuel tt decl body [I] = some (tt.fn_type H I I) := by
  obtain ⟨f, rfl⟩ : ∃ f, fuel = f + 2 := ⟨fuel - 2, by omega⟩
  have hmap : bindParams [⟨some T⟩] [I] [] = some [(T, I)] := rfl
  have hfind : TypeMap.find [(T, I)] T = some I := by simp [TypeMap.find]
  have hvar : replace H df [(T, I)] (f + 1) tt T = some (I, tt) :=
    (replace_succ_iff ..).2 (.var_mapped p I hT hfind)
  unfold ForallType.instantiate
  simp only [hdecl, List.length_singleton, ne_eq, not_true_eq_false, ↓reduceIte, hmap]
  rw [replace_succ_iff]
  cases hdf : df with
  | true =>
    rw [hdf] at hvar
    exact .fn_dom_first T T I I tt tt hbody rfl hvar hvar
  | false =>
    rw [hdf] at hvar
    exact .fn_codom_first T T I I tt tt hbody rfl hvar hvar

/-- C7: the forall type of the identity declaration, instantiated with
`[I]`, is `fn_type(I, I)`, and with `[B]` it is `fn_type(B, B)`; neither
instantiation changes the body or the variable, and a repeated
instantiation with `[I]` returns the first handle.  In general
`instantiate(args)` is the body with the variable of the `j`-th parameter
replaced by `args[j]`, computed without changing any stored object, and
is the same in every later state of the table. -/
theorem instantiate_spec (H : Fnv) (df : Bool) :
    (∀ (tt : TypeTable) (T body : Handle) (p : Nat) (decl : FnDecl) (fuel : Nat),
      tt.node T = some (.TypeVar p) → tt.node body = some (.FnType T T) →
      decl.type_params = some [⟨some T⟩] → 2 ≤ fuel → ∀ I B : Handle,
        ForallType.instantiate H df fuel tt decl body [I] = some (tt.fn_type H I I) ∧
        ForallType.instantiate H df fuel (tt.fn_type H I I).2 decl body [B]
          = some ((tt.fn_type H I I).2.fn_type H B B) ∧
        ((tt.fn_type H I I).2.fn_type H B B).2.node body = some (.FnType T T) ∧
        ((tt.fn_type H I I).2.fn_type H B B).2.node T = some (.TypeVar p) ∧
        ForallType.instantiate H df fuel ((tt.fn_type H I I).2.fn_type H B B).2 decl body [I]
          = some ((tt.fn_type H I I).1, ((tt.fn_type H I I).2.fn_type H B B).2) ∧
        (I ≠ B → (tt.fn_type H I I).1 ≠ ((tt.fn_type H I I).2.fn_type H B B).1)) ∧
    (∀ (tt : TypeTable) (decl : FnDecl) (params : List TypeParam) (body : Nat)
      (args : List Handle) (fuel : Nat),
      decl.type_params = some params → params.length = args.length →
      (∀ q ∈ params, q.type ≠ none) → (params.map (fun q => q.type)).Nodup →
      tt.Closed → body < tt.types_.length → body < fuel →
      ∃ r, ForallType.instantiate H df fuel tt decl body args = some r ∧
        IsSubst r.2 (paramSubst params args) fuel body r.1 ∧
        (∀ (j : Nat) (q : TypeParam) (v a : Handle), params[j]? = some q → q.type = some v →
          args[j]? = some a → paramSubst params args v = some a) ∧
        (∀ v, (∀ q ∈ params, q.type ≠ some v) → paramSubst params args v = none) ∧
        tt.GrowsTo r.2 ∧
        (∀ later, r.2.GrowsTo later →
          ForallType.instantiate H df fuel later decl body args = some (r.1, later))) := by
  constructor
  · intro tt T body p decl fuel hT hbody hdecl hf I B
    have g1 : tt.GrowsTo (tt.fn_type H I I).2 := growsTo_insert H tt _
    have g2 : (tt.fn_type H I I).2.GrowsTo ((tt.fn_type H I I).2.fn_type H B B).2 :=
      growsTo_insert H _ _
    have g := growsTo_trans g1 g2
    refine ⟨instantiate_identity H df tt T body p decl fuel hT hbody hdecl hf I,
      instantiate_identity H df _ T body p decl fuel (growsTo_node g1 hT) (growsTo_node g1 hbody) hdecl hf B,
      growsTo_node g hbody, growsTo_node g hT, ?_, ?_⟩
    · rw [instantiate_identity H df _ T body p decl fuel (growsTo_node g hT) (growsTo_node g hbody) hdecl hf I]
      exact congrArg some (insert_stable_grows H tt _ (t := .FnType I I) rfl g2)
    · intro hne heq
      have h1 : ((tt.fn_type H I I).2.fn_type H B B).2.node (tt.fn_type H I I).1
          = some (.FnType I I) := growsTo_node g2 (insert_node H tt _)
      have h2 : ((tt.fn_type H I I).2.fn_type H B B).2.node
          ((tt.fn_type H I I).2.fn_type H B B).1 = some (.FnType B B) := insert_node H _ _
      rw [heq, h2] at h1
      simp only [Option.some.injEq, TypeNode.FnType.injEq, and_self] at h1
      exact hne h1.symm
  · intro tt decl params body args fuel hdecl hlen htyped hnd hC hb hf
    obtain ⟨map, hmap⟩ := bindParams_some params args [] htyped
    have hσ := bindParams_find_nil params args map hmap
    have hinst : ∀ T : TypeTable, ForallType.instantiate H df fuel T decl body args
        = replace H df map fuel T body := by
      intro T
      unfold ForallType.instantiate
      simp only [hdecl, hlen, ne_eq, not_true_eq_false, ↓reduceIte, hmap]
    obtain ⟨r, hr⟩ := replace_total H df map tt hC fuel body hf hb tt (growsTo_refl tt)
    refine ⟨r, by rw [hinst, hr], ?_, paramSubst_nth params args hnd,
      paramSubst_none params args, replace_grows H df map fuel tt body r hr, ?_⟩
    · rw [← hσ]
      exact replace_isSubst H df map fuel tt body r hr
    · intro later hl
      rw [hinst]
      exact replace_stable H df map fuel tt body r hr later hl

theorem type_params_grows {ast : Ast} {tt later : TypeTable} (hg : tt.GrowsTo later)
    {applied : Handle} {ps : Option (List TypeParam)}
    (h : UserType.type_params ast tt applied = some ps) :
    UserType.type_params ast later applied = some ps := by
  unfold UserType.type_params at h ⊢
  cases hn : tt.node applied with
  | none => simp [hn] at h
  | some n => rw [growsTo_node hg hn]; rw [hn] at h; exact h

theorem member_type_grows {ast : Ast} {tt later : TypeTable} (hg : tt.GrowsTo later)
    {applied : Handle} {i : Nat} {m : Handle}
    (h : UserType.member_type ast tt applied i = some m) :
    UserType.member_type ast later applied i = some m := by
  unfold UserType.member_type at h ⊢
  cases hn : tt.node applied with
  | none => simp [hn] at h
  | some n => rw [growsTo_node hg hn]; rw [hn] at h; exact h

/-- C8: the member type of a type application is the stored member type
of the applied declaration with the variable of the `j`-th type parameter
replaced by the `j`-th type argument; computing it leaves the stored
member type as it was, and every later access returns the same handle
and changes nothing. -/
theorem member_type_spec (H : Fnv) (df : Bool) (ast : Ast) (tt : TypeTable) (applied : Handle)
    (type_args : List Handle) (i : Nat) (params : List TypeParam) (member fuel : Nat)
    (hparams : UserType.type_params ast tt applied = some (some params))
    (hlen : params.length = type_args.length)
    (htyped : ∀ q ∈ params, q.type ≠ none)
    (hnd : (params.map (fun q => q.type)).Nodup)
    (hmember : UserType.member_type ast tt applied i = some member)
    (hC : tt.Closed) (hm : member < tt.types_.length) (hf : member < fuel) :
    ∃ r, TypeApp.member_type H df fuel ast tt applied type_args i = some r ∧
      IsSubst r.2 (paramSubst params type_args) fuel member r.1 ∧
      (∀ (j : Nat) (q : TypeParam) (v a : Handle), params[j]? = some q → q.type = some v →
        type_args[j]? = some a → paramSubst params type_args v = some a) ∧
      (∀ v, (∀ q ∈ params, q.type ≠ some v) → paramSubst params type_args v = none) ∧
      tt.GrowsTo r.2 ∧
      UserType.member_type ast r.2 applied i = some member ∧
      (∀ later, r.2.GrowsTo later →
        TypeApp.member_type H df fuel ast later applied type_args i = some (r.1, later)) := by
  obtain ⟨map, hmap⟩ := bindParams_some params type_args [] htyped
  have hσ := bindParams_find_nil params type_args map hmap
  have hcall : ∀ T : TypeTable, tt.GrowsTo T →
      TypeApp.member_type H df fuel ast T applied type_args i
        = replace H df map fuel T member := by
    intro T hT
    unfold TypeApp.member_type
    simp only [type_params_grows hT hparams, hlen, ne_eq, not_true_eq_false,
      ↓reduceIte, hmap, member_type_grows hT hmember]
  obtain ⟨r, hr⟩ := replace_total H df map tt hC fuel member hf hm tt (growsTo_refl tt)
  have hg := replace_grows H df map fuel tt member r hr
  refine ⟨r, by rw [hcall tt (growsTo_refl tt), hr], ?_, paramSubst_nth params type_args hnd,
    paramSubst_none params type_args, hg, member_type_grows hg hmember, ?_⟩
  · rw [← hσ]
    exact replace_isSubst H df map fuel tt member r hr
  · intro later hl
    rw [hcall later (growsTo_trans hg hl)]
    exact replace_stable H df map fuel tt member r hr later hl

theorem closed_sampleIdentity : TypeTable.sampleIdentity.Closed :=
  closed_insert _ (closed_insert _ (closed_insert _ (closed_insert _ closed_empty _
    (by decide)) _ (by decide)) _ (by decide)) _ (by decide)

theorem closed_samplePair : TypeTable.samplePair.Closed :=
  closed_insert _ (closed_insert _ (closed_insert _ (closed_insert _ (closed_insert _
    (closed_insert _ closed_empty _ (by decide)) _ (by decide)) _ (by decide)) _ (by decide)) _
    (by decide)) _ (by decide)

theorem instantiate_spec_witness :
    (ForallType.instantiate Fnv.sample true 2 TypeTable.sampleIdentity FnDecl.sampleIdentity 3 [1]
        = some (TypeTable.sampleIdentity.fn_type Fnv.sample 1 1) ∧
      ForallType.instantiate Fnv.sample true 2
        (TypeTable.sampleIdentity.fn_type Fnv.sample 1 1).2 FnDecl.sampleIdentity 3 [2]
        = some ((TypeTable.sampleIdentity.fn_type Fnv.sample 1 1).2.fn_type Fnv.sample 2 2) ∧
      ((TypeTable.sampleIdentity.fn_type Fnv.sample 1 1).2.fn_type Fnv.sample 2 2).2.node 3
        = some (.FnType 0 0) ∧
      ((TypeTable.sampleIdentity.fn_type Fnv.sample 1 1).2.fn_type Fnv.sample 2 2).2.node 0
        = some (.TypeVar 100) ∧
      ForallType.instantiate Fnv.sample true 2
        ((TypeTable.sampleIdentity.fn_type Fnv.sample 1 1).2.fn_type Fnv.sample 2 2).2
        FnDecl.sampleIdentity 3 [1]
        = some ((TypeTable.sampleIdentity.fn_type Fnv.sample 1 1).1,
            ((TypeTable.sampleIdentity.fn_type Fnv.sample 1 1).2.fn_type Fnv.sample 2 2).2) ∧
      ((1 : Handle) ≠ 2 → (TypeTable.sampleIdentity.fn_type Fnv.sample 1 1).1
        ≠ ((TypeTable.sampleIdentity.fn_type Fnv.sample 1 1).2.fn_type Fnv.sample 2 2).1)) ∧
    (TypeTable.sampleIdentity.fn_type Fnv.sample 1 1).1 = 4 ∧
    ((TypeTable.sampleIdentity.fn_type Fnv.sample 1 1).2.fn_type Fnv.sample 2 2).1 = 5 ∧
    ∃ r, ForallType.instantiate Fnv.sample true 4 TypeTable.sampleIdentity
        FnDecl.sampleIdentity 3 [1] = some r ∧
      IsSubst r.2 (paramSubst [⟨some 0⟩] [1]) 4 3 r.1 ∧
      (∀ (j : Nat) (q : TypeParam) (v a : Handle), [(⟨some 0⟩ : TypeParam)][j]? = some q →
        q.type = some v → [(1 : Handle)][j]? = some a →
        paramSubst [⟨some 0⟩] [1] v = some a) ∧
      (∀ v, (∀ q ∈ [(⟨some 0⟩ : TypeParam)], q.type ≠ some v) →
        paramSubst [⟨some 0⟩] [1] v = none) ∧
      TypeTable.sampleIdentity.GrowsTo r.2 ∧
      (∀ later, r.2.GrowsTo later →
        ForallType.instantiate Fnv.sample true 4 later FnDecl.sampleIdentity 3 [1]
          = some (r.1, later)) :=
  ⟨(instantiate_spec Fnv.sample true).1 TypeTable.sampleIdentity 0 3 100 FnDecl.sampleIdentity 2
      (by decide) (by decide) rfl (by decide) 1 2,
    by decide, by decide,
    (instantiate_spec Fnv.sample true).2 TypeTable.sampleIdentity FnDecl.sampleIdentity
      [⟨some 0⟩] 3 [1] 4 rfl rfl (by decide) (by decide) closed_sampleIdentity
      (by decide) (by decide)⟩

theorem member_type_spec_witness :
    TypeApp.member_type Fnv.sample true 3 Ast.samplePair TypeTable.samplePair 3 [4, 5] 1
      = some (6, { TypeTable.samplePair with
          types_ := TypeTable.samplePair.types_ ++ [.TupleType [5, 4]] }) ∧
    ∃ r, TypeApp.member_type Fnv.sample true 3 Ast.samplePair TypeTable.samplePair 3 [4, 5] 1
        = some r ∧
      IsSubst r.2 (paramSubst [⟨some 0⟩, ⟨some 1⟩] [4, 5]) 3 2 r.1 ∧
      (∀ (j : Nat) (q : TypeParam) (v a : Handle),
        [(⟨some 0⟩ : TypeParam), ⟨some 1⟩][j]? = some q → q.type = some v →
        [(4 : Handle), 5][j]? = some a →
        paramSubst [⟨some 0⟩, ⟨some 1⟩] [4, 5] v = some a) ∧
      (∀ v, (∀ q ∈ [(⟨some 0⟩ : TypeParam), ⟨some 1⟩], q.type ≠ some v) →
        paramSubst [⟨some 0⟩, ⟨some 1⟩] [4, 5] v = none) ∧
      TypeTable.samplePair.GrowsTo r.2 ∧
      UserType.member_type Ast.samplePair r.2 3 1 = some 2 ∧
      (∀ later, r.2.GrowsTo later →
        TypeApp.member_type Fnv.sample true 3 Ast.samplePair later 3 [4, 5] 1
          = some (r.1, later)) :=
  ⟨by decide,
    member_type_spec Fnv.sample true Ast.samplePair TypeTable.samplePair 3 [4, 5] 1
      [⟨some 0⟩, ⟨some 1⟩] 2 3 (by decide) rfl (by decide) (by decide) (by decide)
      closed_samplePair (by decide) (by decide)⟩

/-! ## Properties of the walk -/

open TypeChecker

theorem bind_ok_iff {ε α β : Type} (x : Except ε α) (f : α → Except ε β) (b : β) :
    (x >>= f) = .ok b ↔ ∃ a, x = .ok a ∧ f a = .ok b := by
  cases x with
  | error e => simp [bind, Except.bind]
  | ok a => simp [bind, Except.bind]

theorem ok_bind {ε α β : Type} (a : α) (f : α → Except ε β) :
    ((.ok a : Except ε α) >>= f) = f a := rfl

theorem pure_eq_ok {ε α : Type} (a : α) : (pure a : Except ε α) = .ok a := rfl

theorem check_args_respects {T : Type} {R : Walk T → Walk T → Prop} (hR : Respected R)
    {rec : Rec T} (hrec : ∀ v w r, rec v w = .ok r → R w r.2) :
    ∀ (args : List NodeId) (es : List T) (w w1 : Walk T),
      check_args rec args es w = .ok w1 → R w w1 := by
  intro args
  induction args with
  | nil =>
    intro es w w1 h
    simp only [check_args, pure_eq_ok, Except.ok.injEq] at h
    rw [← h]; exact hR.refl w
  | cons a rest ih =>
    intro es w w1 h
    cases es with
    | nil =>
      simp only [check_args, pure_eq_ok, Except.ok.injEq] at h
      rw [← h]; exact hR.refl w
    | cons e es =>
      simp only [check_args] at h
      obtain ⟨⟨t, w2⟩, h1, h⟩ := (bind_ok_iff _ _ _).1 h
      exact hR.trans _ _ _ (hrec _ _ _ h1) (ih es w2 w1 h)

theorem infer_args_respects {T : Type} {R : Walk T → Walk T → Prop} (hR : Respected R)
    {rec : Rec T} (hrec : ∀ v w r, rec v w = .ok r → R w r.2) :
    ∀ (args : List NodeId) (w : Walk T) (r : List T × Walk T),
      infer_args rec args w = .ok r → R w r.2 := by
  intro args
  induction args with
  | nil =>
    intro w r h
    simp only [infer_args, pure_eq_ok, Except.ok.injEq] at h
    rw [← h]; exact hR.refl w
  | cons a rest ih =>
    intro w r h
    simp only [infer_args] at h
    obtain ⟨⟨t, w1⟩, h1, h⟩ := (bind_ok_iff _ _ _).1 h
    obtain ⟨⟨ts, w2⟩, h2, h⟩ := (bind_ok_iff _ _ _).1 h
    simp only [pure_eq_ok, Except.ok.injEq] at h
    rw [← h]
    exact hR.trans _ _ _ (hrec _ _ _ h1) (ih w1 (ts, w2) h2)

theorem check_all_respects {T : Type} {R : Walk T → Walk T → Prop} (hR : Respected R)
    {rec : Rec T} (hrec : ∀ v w r, rec v w = .ok r → R w r.2) (type : T) :
    ∀ (elems : List NodeId) (w w1 : Walk T),
      check_all rec type elems w = .ok w1 → R w w1 := by
  intro elems
  induction elems with
  | nil =>
    intro w w1 h
    simp only [check_all, pure_eq_ok, Except.ok.injEq] at h
    rw [← h]; exact hR.refl w
  | cons a rest ih =>
    intro w w1 h
    simp only [check_all] at h
    obtain ⟨⟨t, w2⟩, h1, h⟩ := (bind_ok_iff _ _ _).1 h
    exact hR.trans _ _ _ (hrec _ _ _ h1) (ih w2 w1 h)

theorem block_loop_respects {T : Type} {R : Walk T → Walk T → Prop} (hR : Respected R)
    (ops : CheckOps T) {rec : Rec T} (hrec : ∀ v w r, rec v w = .ok r → R w r.2)
    (ast : SyntaxTree) (is_no_ret : T → Bool) (back : NodeId) :
    ∀ (stmts : List NodeId) (w : Walk T) (r : Option T × Walk T),
      BlockExpr.loop ops rec ast is_no_ret back stmts w = .ok r → R w r.2 := by
  intro stmts
  induction stmts with
  | nil =>
    intro w r h
    simp only [BlockExpr.loop, pure_eq_ok, Except.ok.injEq] at h
    rw [← h]; exact hR.refl w
  | cons s rest ih =>
    intro w r h
    cases rest with
    | nil =>
      simp only [BlockExpr.loop, pure_eq_ok, Except.ok.injEq] at h
      rw [← h]; exact hR.refl w
    | cons next rest =>
      simp only [BlockExpr.loop] at h
      obtain ⟨⟨t, w1⟩, h1, h⟩ := (bind_ok_iff _ _ _).1 h
      have r1 := hrec _ _ _ h1
      simp only at h
      split at h
      · simp only [pure_eq_ok, Except.ok.injEq] at h
        rw [← h]
        exact hR.trans _ _ _ r1 (hR.checker _ _)
      · exact hR.trans _ _ _ r1 (ih w1 r h)


theorem helper_respects {T : Type} {R : Walk T → Walk T → Prop} (hR : Respected R)
    (w : Walk T) (p : T × TypeChecker T) : R w (w.helper p).2 :=
  hR.checker w p.2

/-- A relation that the helpers and the recursive calls respect is
respected by every `infer` rule. -/
theorem node_infer_respects {T : Type} {R : Walk T → Walk T → Prop} (hR : Respected R)
    (ops : CheckOps T) {rec : Rec T} (hrec : ∀ v w r, rec v w = .ok r → R w r.2)
    (ast : SyntaxTree) (node : AstNode) (w : Walk T) (r : T × Walk T)
    (h : Node.infer ops rec ast node w = .ok r) : R w r.2 := by
  have hpure : ∀ (t : T), (pure (t, w) : Except Failure (T × Walk T)) = .ok r → R w r.2 := by
    intro t ht
    simp only [pure_eq_ok, Except.ok.injEq] at ht
    rw [← ht]; exact hR.refl w
  have hhelp : ∀ (p : T × TypeChecker T) (w0 : Walk T),
      (pure (w0.helper p) : Except Failure (T × Walk T)) = .ok r → R w0 r.2 := by
    intro p w0 ht
    simp only [pure_eq_ok, Except.ok.injEq] at ht
    rw [← ht]; exact helper_respects hR w0 p
  have htuple : ∀ args, infer_tuple ops rec w args = .ok r → R w r.2 := by
    intro args ht
    simp only [infer_tuple] at ht
    obtain ⟨⟨ts, w1⟩, h1, ht⟩ := (bind_ok_iff _ _ _).1 ht
    simp only [pure_eq_ok, Except.ok.injEq] at ht
    rw [← ht]
    exact infer_args_respects hR hrec args w _ h1
  unfold Node.infer at h
  cases hk : node.kind with
  | Other => rw [hk] at h; exact hhelp _ _ h
  | PtrnDecl => rw [hk] at h; exact hhelp _ _ h
  | IdPtrn d => rw [hk] at h; exact hhelp _ _ h
  | Path decl =>
    rw [hk] at h
    simp only [Path.infer] at h
    cases decl with
    | none => exact hpure _ h
    | some d => exact hrec _ _ _ h
  | PrimType tag => rw [hk] at h; exact hpure _ h
  | TupleType args => rw [hk] at h; exact htuple _ h
  | TupleExpr args => rw [hk] at h; exact htuple _ h
  | TuplePtrn args => rw [hk] at h; exact htuple _ h
  | ArrayType elem =>
    rw [hk] at h
    simp only [ArrayType.infer] at h
    obtain ⟨⟨t, w1⟩, h1, h⟩ := (bind_ok_iff _ _ _).1 h
    simp only [pure_eq_ok, Except.ok.injEq] at h
    rw [← h]; exact hrec _ _ (t, w1) h1
  | FnType dom codom =>
    rw [hk] at h
    simp only [FnType.infer] at h
    split at h
    · obtain ⟨⟨a, w1⟩, h1, h⟩ := (bind_ok_iff _ _ _).1 h
      obtain ⟨⟨b, w2⟩, h2, h⟩ := (bind_ok_iff _ _ _).1 h
      simp only [pure_eq_ok, Except.ok.injEq] at h
      rw [← h]; exact hR.trans _ _ _ (hrec _ _ (a, w1) h1) (hrec _ _ (b, w2) h2)
    · obtain ⟨⟨a, w1⟩, h1, h⟩ := (bind_ok_iff _ _ _).1 h
      obtain ⟨⟨b, w2⟩, h2, h⟩ := (bind_ok_iff _ _ _).1 h
      simp only [pure_eq_ok, Except.ok.injEq] at h
      rw [← h]; exact hR.trans _ _ _ (hrec _ _ (a, w1) h1) (hrec _ _ (b, w2) h2)
  | DeclStmt decl => rw [hk] at h; exact hrec _ _ _ h
  | ExprStmt expr => rw [hk] at h; exact hrec _ _ _ h
  | PathExpr path => rw [hk] at h; exact hrec _ _ _ h
  | FnDecl fn => rw [hk] at h; exact hrec _ _ _ h
  | ArrayExpr elems =>
    rw [hk] at h
    simp only [ArrayExpr.infer] at h
    cases elems with
    | nil => exact hhelp _ _ h
    | cons front rest =>
      simp only at h
      obtain ⟨⟨t, w1⟩, h1, h⟩ := (bind_ok_iff _ _ _).1 h
      obtain ⟨w2, h2, h⟩ := (bind_ok_iff _ _ _).1 h
      simp only [pure_eq_ok, Except.ok.injEq] at h
      rw [← h]
      exact hR.trans _ _ _ (hrec _ _ (t, w1) h1) (check_all_respects hR hrec t rest w1 w2 h2)
  | FnExpr param ret_type body =>
    rw [hk] at h
    simp only [FnExpr.infer] at h
    obtain ⟨⟨body_type, w1⟩, h1, h⟩ := (bind_ok_iff _ _ _).1 h
    have r1 : R w w1 := by
      cases ret_type with
      | none =>
        simp only [FnExpr.ret_type_or_null, pure_eq_ok, Except.ok.injEq, Prod.mk.injEq] at h1
        rw [← h1.2]; exact hR.refl w
      | some rt =>
        simp only [FnExpr.ret_type_or_null] at h1
        obtain ⟨⟨t, w0⟩, h0, h1⟩ := (bind_ok_iff _ _ _).1 h1
        simp only [pure_eq_ok, Except.ok.injEq, Prod.mk.injEq] at h1
        rw [← h1.2]; exact hrec _ _ (t, w0) h0
    simp only at h
    split at h
    · obtain ⟨⟨pt, w2⟩, h2, h⟩ := (bind_ok_iff _ _ _).1 h
      obtain ⟨⟨bt, w3⟩, h3, h⟩ := (bind_ok_iff _ _ _).1 h
      simp only [pure_eq_ok, Except.ok.injEq] at h
      rw [← h]
      have r3 : R w2 w3 := by
        simp only [FnExpr.check_or_infer_body] at h3
        split at h3
        · exact hrec _ _ (bt, w3) h3
        · exact hrec _ _ (bt, w3) h3
        · cases h3
      exact hR.trans _ _ _ r1 (hR.trans _ _ _ (hrec _ _ (pt, w2) h2) r3)
    · exact hR.trans _ _ _ r1 (hhelp _ _ h)
  | BlockExpr stmts =>
    rw [hk] at h
    simp only [BlockExpr.infer] at h
    split at h
    · exact hpure _ h
    · obtain ⟨⟨early, w1⟩, h1, h⟩ := (bind_ok_iff _ _ _).1 h
      have r1 := block_loop_respects hR ops hrec ast _ _ stmts w _ h1
      simp only at h
      split at h
      · simp only [pure_eq_ok, Except.ok.injEq] at h
        rw [← h]; exact r1
      · exact hR.trans _ _ _ r1 (hrec _ _ _ h)
  | CallExpr callee arg =>
    rw [hk] at h
    simp only [CallExpr.infer] at h
    obtain ⟨⟨ct, w1⟩, h1, h⟩ := (bind_ok_iff _ _ _).1 h
    have r1 := hrec _ _ _ h1
    simp only at h
    split at h
    · obtain ⟨⟨t, w2⟩, h2, h⟩ := (bind_ok_iff _ _ _).1 h
      simp only [pure_eq_ok, Except.ok.injEq] at h
      rw [← h]; exact hR.trans _ _ _ r1 (hrec _ _ (t, w2) h2)
    · split at h
      · simp only [pure_eq_ok, Except.ok.injEq] at h
        rw [← h]; exact r1
      · split at h
        · simp only [pure_eq_ok, Except.ok.injEq] at h
          rw [← h]; exact hR.trans _ _ _ r1 (hR.checker _ _)
        · simp only [pure_eq_ok, Except.ok.injEq] at h
          rw [← h]; exact r1
  | IfExpr cond if_true if_false =>
    rw [hk] at h
    simp only [IfExpr.infer] at h
    obtain ⟨⟨t, w1⟩, h1, h⟩ := (bind_ok_iff _ _ _).1 h
    have r1 := hrec _ _ _ h1
    simp only at h
    split at h
    · obtain ⟨⟨tt, w2⟩, h2, h⟩ := (bind_ok_iff _ _ _).1 h
      exact hR.trans _ _ _ r1 (hR.trans _ _ _ (hrec _ _ (tt, w2) h2) (hrec _ _ _ h))
    · exact hR.trans _ _ _ r1 (hrec _ _ _ h)
  | WhileExpr cond body =>
    rw [hk] at h
    simp only [WhileExpr.infer] at h
    obtain ⟨⟨t, w1⟩, h1, h⟩ := (bind_ok_iff _ _ _).1 h
    obtain ⟨⟨t2, w2⟩, h2, h⟩ := (bind_ok_iff _ _ _).1 h
    simp only [pure_eq_ok, Except.ok.injEq] at h
    rw [← h]; exact hR.trans _ _ _ (hrec _ _ (t, w1) h1) (hrec _ _ (t2, w2) h2)
  | BreakExpr => rw [hk] at h; exact hpure _ h
  | ContinueExpr => rw [hk] at h; exact hpure _ h
  | ReturnExpr fn =>
    rw [hk] at h
    simp only [ReturnExpr.infer] at h
    split at h
    · exact hpure _ h
    · split at h
      · exact hpure _ h
      · exact hpure _ h
  | LetDecl ptrn init =>
    rw [hk] at h
    simp only [LetDecl.infer] at h
    obtain ⟨⟨t, w1⟩, h1, h⟩ := (bind_ok_iff _ _ _).1 h
    obtain ⟨⟨t2, w2⟩, h2, h⟩ := (bind_ok_iff _ _ _).1 h
    simp only [pure_eq_ok, Except.ok.injEq] at h
    rw [← h]; exact hR.trans _ _ _ (hrec _ _ (t, w1) h1) (hrec _ _ (t2, w2) h2)
  | TypedPtrn ptrn type =>
    rw [hk] at h
    simp only [TypedPtrn.infer] at h
    obtain ⟨⟨t, w1⟩, h1, h⟩ := (bind_ok_iff _ _ _).1 h
    exact hR.trans _ _ _ (hrec _ _ (t, w1) h1) (hrec _ _ _ h)


/-- A relation that the helpers and the recursive calls respect is
respected by every `check` rule. -/
theorem node_check_respects {T : Type} {R : Walk T → Walk T → Prop} (hR : Respected R)
    (ops : CheckOps T) {rec : Rec T} (hrec : ∀ v w r, rec v w = .ok r → R w r.2)
    (ast : SyntaxTree) (id : NodeId) (node : AstNode) (expected : T) (w : Walk T)
    (r : T × Walk T) (h : Node.check ops rec ast id node expected w = .ok r) : R w r.2 := by
  have hhelp : ∀ (p : T × TypeChecker T) (w0 : Walk T),
      (pure (w0.helper p) : Except Failure (T × Walk T)) = .ok r → R w0 r.2 := by
    intro p w0 ht
    simp only [pure_eq_ok, Except.ok.injEq] at ht
    rw [← ht]; exact helper_respects hR w0 p
  have hdefault : Node.check_default ops rec w node.loc id expected = .ok r → R w r.2 := by
    intro hd
    simp only [Node.check_default] at hd
    obtain ⟨⟨t, w1⟩, h1, hd⟩ := (bind_ok_iff _ _ _).1 hd
    exact hR.trans _ _ _ (hrec _ _ (t, w1) h1) (hhelp _ _ hd)
  have htuple : ∀ msg args, check_tuple ops rec w node.loc msg args expected = .ok r →
      R w r.2 := by
    intro msg args ht
    simp only [check_tuple] at ht
    split at ht
    · exact hhelp _ _ ht
    · split at ht
      · simp only [pure_eq_ok, Except.ok.injEq] at ht
        rw [← ht]; exact hR.checker _ _
      · obtain ⟨w1, h1, ht⟩ := (bind_ok_iff _ _ _).1 ht
        simp only [pure_eq_ok, Except.ok.injEq] at ht
        rw [← ht]
        exact check_args_respects hR hrec _ _ w w1 h1
  unfold Node.check at h
  cases hk : node.kind with
  | Other => rw [hk] at h; exact hdefault h
  | Path decl => rw [hk] at h; exact hdefault h
  | PrimType tag => rw [hk] at h; exact hdefault h
  | TupleType args => rw [hk] at h; exact hdefault h
  | ArrayType elem => rw [hk] at h; exact hdefault h
  | FnType dom codom => rw [hk] at h; exact hdefault h
  | PathExpr path => rw [hk] at h; exact hdefault h
  | CallExpr callee arg => rw [hk] at h; exact hdefault h
  | WhileExpr cond body => rw [hk] at h; exact hdefault h
  | BreakExpr => rw [hk] at h; exact hdefault h
  | ContinueExpr => rw [hk] at h; exact hdefault h
  | ReturnExpr fn => rw [hk] at h; exact hdefault h
  | LetDecl ptrn init => rw [hk] at h; exact hdefault h
  | FnDecl fn => rw [hk] at h; exact hdefault h
  | TypedPtrn ptrn type => rw [hk] at h; exact hdefault h
  | DeclStmt decl => rw [hk] at h; exact hrec _ _ _ h
  | ExprStmt expr => rw [hk] at h; exact hrec _ _ _ h
  | IdPtrn decl => rw [hk] at h; exact hrec _ _ _ h
  | PtrnDecl =>
    rw [hk] at h
    simp only [pure_eq_ok, Except.ok.injEq] at h
    rw [← h]; exact hR.refl w
  | TupleExpr args => rw [hk] at h; exact htuple _ _ h
  | TuplePtrn args => rw [hk] at h; exact htuple _ _ h
  | ArrayExpr elems =>
    rw [hk] at h
    simp only [ArrayExpr.check] at h
    split at h
    · exact hhelp _ _ h
    · obtain ⟨w1, h1, h⟩ := (bind_ok_iff _ _ _).1 h
      simp only [pure_eq_ok, Except.ok.injEq] at h
      rw [← h]
      exact check_all_respects hR hrec _ elems w w1 h1
  | FnExpr param ret_type body =>
    rw [hk] at h
    simp only [FnExpr.check] at h
    split at h
    · exact hhelp _ _ h
    · obtain ⟨⟨t, w1⟩, h1, h⟩ := (bind_ok_iff _ _ _).1 h
      simp only at h
      split at h
      · exact hR.trans _ _ _ (hrec _ _ (t, w1) h1) (hrec _ _ _ h)
      · cases h
  | BlockExpr stmts =>
    rw [hk] at h
    simp only [BlockExpr.check] at h
    split at h
    · exact hhelp _ _ h
    · obtain ⟨⟨early, w1⟩, h1, h⟩ := (bind_ok_iff _ _ _).1 h
      have r1 := block_loop_respects hR ops hrec ast _ _ stmts w _ h1
      simp only at h
      split at h
      · simp only [pure_eq_ok, Except.ok.injEq] at h
        rw [← h]; exact r1
      · exact hR.trans _ _ _ r1 (hrec _ _ _ h)
  | IfExpr cond if_true if_false =>
    rw [hk] at h
    simp only [IfExpr.check] at h
    obtain ⟨⟨t, w1⟩, h1, h⟩ := (bind_ok_iff _ _ _).1 h
    obtain ⟨⟨tt, w2⟩, h2, h⟩ := (bind_ok_iff _ _ _).1 h
    have r2 := hR.trans _ _ _ (hrec _ _ (t, w1) h1) (hrec _ _ (tt, w2) h2)
    simp only at h
    split at h
    · exact hR.trans _ _ _ r2 (hrec _ _ _ h)
    · simp only [pure_eq_ok, Except.ok.injEq] at h
      rw [← h]; exact r2

/-- One level of the entry points: what a call that returns has done. -/
theorem visit_succ_ok {T : Type} (ops : CheckOps T) (ast : SyntaxTree) (fuel : Nat)
    (v : Visit T) (w : Walk T) (r : T × Walk T)
    (h : visit ops ast (fuel + 1) v w = .ok r) :
    (∃ id t, v = .infer id ∧ w.type id = some t ∧ r = (t, w)) ∨
    (∃ id node t w1, v = .infer id ∧ ast[id]? = some node ∧ w.type id = none ∧
      Node.infer ops (visit ops ast fuel) ast node w = .ok (t, w1) ∧
      r = (t, w1.annotate id t)) ∨
    (∃ id expected node t w1, v = .check id expected ∧ ast[id]? = some node ∧
      w.type id = none ∧
      Node.check ops (visit ops ast fuel) ast id node expected w = .ok (t, w1) ∧
      r = (t, w1.annotate id t)) := by
  cases v with
  | infer id =>
    simp only [visit] at h
    split at h
    · cases h
    · rename_i node hnode
      split at h
      · rename_i t ht
        simp only [pure_eq_ok, Except.ok.injEq] at h
        exact Or.inl ⟨id, t, rfl, ht, h.symm⟩
      · rename_i ht
        obtain ⟨⟨t, w1⟩, h1, h⟩ := (bind_ok_iff _ _ _).1 h
        simp only [pure_eq_ok, Except.ok.injEq] at h
        exact Or.inr (Or.inl ⟨id, node, t, w1, rfl, hnode, ht, h1, h.symm⟩)
  | check id expected =>
    simp only [visit] at h
    split at h
    · cases h
    · rename_i node hnode
      split at h
      · cases h
      · rename_i ht
        obtain ⟨⟨t, w1⟩, h1, h⟩ := (bind_ok_iff _ _ _).1 h
        simp only [pure_eq_ok, Except.ok.injEq] at h
        exact Or.inr (Or.inr ⟨id, expected, node, t, w1, rfl, hnode, ht, h1, h.symm⟩)

/-- A relation that the helpers respect, and that allows annotating a node
that carried no type before the call, holds between the state before and
the state after every call that returns. -/
theorem visit_respects {T : Type} {R : Walk T → Walk T → Prop} (hR : Respected R)
    (hann : ∀ (w w1 : Walk T) (id : NodeId) (t : T), R w w1 → w.type id = none →
      R w (w1.annotate id t))
    (ops : CheckOps T) (ast : SyntaxTree) :
    ∀ (fuel : Nat) (v : Visit T) (w : Walk T) (r : T × Walk T),
      visit ops ast fuel v w = .ok r → R w r.2 := by
  intro fuel
  induction fuel with
  | zero => intro v w r h; cases h
  | succ fuel ih =>
    intro v w r h
    rcases visit_succ_ok ops ast fuel v w r h with
      ⟨id, t, _, _, hr⟩ | ⟨id, node, t, w1, _, _, hty, hrule, hr⟩ |
      ⟨id, expected, node, t, w1, _, _, hty, hrule, hr⟩
    · rw [hr]; exact hR.refl w
    · rw [hr]
      exact hann w w1 id t (node_infer_respects hR ops ih ast node w _ hrule) hty
    · rw [hr]
      exact hann w w1 id t (node_check_respects hR ops ih ast id node expected w _ hrule) hty

theorem frame_respected {T : Type} : Respected (Walk.Frame (T := T)) where
  refl := fun w => ⟨fun _ _ h => h, [], by simp, by simp⟩
  trans := by
    intro a b c hab hbc
    obtain ⟨f1, l1, e1, n1⟩ := hab
    obtain ⟨f2, l2, e2, n2⟩ := hbc
    refine ⟨fun n s h => f2 n s (f1 n s h), l1 ++ l2, by rw [e2, e1, List.append_assoc], ?_⟩
    intro p hp
    rcases List.mem_append.1 hp with h | h
    · exact n1 p h
    · cases ha : a.type p.1 with
      | none => rfl
      | some s =>
        have := f1 _ _ ha
        rw [n2 p h] at this
        cases this
  checker := fun w c => ⟨fun _ _ h => h, [], by simp, by simp⟩

theorem frame_annotate {T : Type} (w w1 : Walk T) (id : NodeId) (t : T)
    (h : w.Frame w1) (hty : w.type id = none) : w.Frame (w1.annotate id t) := by
  obtain ⟨f, l, e, n⟩ := h
  refine ⟨?_, l ++ [(id, t)], ?_, ?_⟩
  · intro m s hm
    have hne : m ≠ id := by
      intro heq; rw [heq, hty] at hm; cases hm
    simp only [Walk.annotate, hne, ↓reduceIte]
    exact f m s hm
  · simp only [Walk.annotate, e, List.append_assoc]
  · intro p hp
    rcases List.mem_append.1 hp with h | h
    · exact n p h
    · simp only [List.mem_singleton] at h
      rw [h]; exact hty

/-- Every call of `TypeChecker::infer` or `TypeChecker::check` that
returns leaves the annotated nodes as they were. -/
theorem visit_frame {T : Type} (ops : CheckOps T) (ast : SyntaxTree) (fuel : Nat)
    (v : Visit T) (w : Walk T) (r : T × Walk T) (h : visit ops ast fuel v w = .ok r) :
    w.Frame r.2 :=
  visit_respects frame_respected frame_annotate ops ast fuel v w r h

/-- A node whose class has no `check` rule of its own is checked by the
rule of `Node`. -/
theorem node_check_default {T : Type} (ops : CheckOps T) (rec : Rec T) (ast : SyntaxTree)
    (id : NodeId) (node : AstNode) (expected : T) (w : Walk T)
    (hk : node.kind.hasCheck = false) :
    Node.check ops rec ast id node expected w
      = Node.check_default ops rec w node.loc id expected := by
  unfold Node.check
  cases hkind : node.kind <;> simp_all [NodeKind.hasCheck]

theorem check_default_ok {T : Type} (ops : CheckOps T) (rec : Rec T) (loc : Loc)
    (id : NodeId) (expected type : T) (w w1 : Walk T)
    (hi : rec (.infer id) w = .ok (type, w1)) :
    Node.check_default ops rec w loc id expected
      = .ok (w1.helper (expect ops.toTypeOps w1.checker loc type expected)) := by
  rw [Node.check_default, hi]
  rfl

/-- C12: for a node whose class has no `check` rule of its own, `check`
infers the node and reconciles the inferred type with the expected one:
it returns their meet when there is one; otherwise it returns the error
type and reports at most one error, none when the inferred type contains
the error type. -/
theorem check_default_spec {T : Type} (ops : CheckOps T) (rec : Rec T) (ast : SyntaxTree)
    (id : NodeId) (node : AstNode) (expected : T) (w : Walk T)
    (hk : node.kind.hasCheck = false) :
    Node.check ops rec ast id node expected w
      = Node.check_default ops rec w node.loc id expected ∧
    (∀ e, rec (.infer id) w = .error e →
      Node.check ops rec ast id node expected w = .error e) ∧
    (∀ type w1, rec (.infer id) w = .ok (type, w1) →
      Node.check ops rec ast id node expected w
        = .ok (w1.helper (expect ops.toTypeOps w1.checker node.loc type expected)) ∧
      (∀ m, ops.meet type expected = some m →
        Node.check ops rec ast id node expected w = .ok (m, w1)) ∧
      (ops.meet type expected = none → ops.contains type ops.error_type = true →
        Node.check ops rec ast id node expected w = .ok (ops.error_type, w1)) ∧
      (ops.meet type expected = none → ops.contains type ops.error_type = false →
        Node.check ops rec ast id node expected w
          = .ok (ops.error_type, w1.error node.loc (.expected_got_type expected type)))) ∧
    (∀ fuel, ast[id]? = some node → w.type id = none →
      visit ops ast (fuel + 1) (.check id expected) w
        = (Node.check_default ops (visit ops ast fuel) w node.loc id expected >>=
            fun r => pure (r.1, r.2.annotate id r.1))) := by
  have hd : ∀ rec0 : Rec T, Node.check ops rec0 ast id node expected w
      = Node.check_default ops rec0 w node.loc id expected :=
    fun rec0 => node_check_default ops rec0 ast id node expected w hk
  refine ⟨hd rec, ?_, ?_, ?_⟩
  · intro e he
    rw [hd, Node.check_default, he]
    rfl
  · intro type w1 hi
    have hstep : Node.check ops rec ast id node expected w
        = .ok (w1.helper (expect ops.toTypeOps w1.checker node.loc type expected)) := by
      rw [hd, check_default_ok ops rec node.loc id expected type w w1 hi]
    refine ⟨hstep, ?_, ?_, ?_⟩
    · intro m hm
      rw [hstep]
      simp only [expect, hm, Walk.helper]
    · intro hm hc
      rw [hstep]
      simp only [expect, hm, should_emit_error, hc, Walk.helper]
      rfl
    · intro hm hc
      rw [hstep]
      simp only [expect, hm, should_emit_error, hc, Walk.helper]
      rfl
  · intro fuel hnode hty
    simp only [visit, hnode, hty]
    rw [hd]

/-- C13, as the code has it: `TypeChecker::infer` on a node that carries a
type returns it and changes nothing; `TypeChecker::check` on such a node
stops at its assertion; a call of either that returns leaves the type of
every node that carried one when the call began, and writes only to nodes
that carried none; a node whose class has no `check` rule of its own is
annotated twice by `check`, first by `infer` with the inferred type and
then with the type that `expect` returns. -/
theorem annotation_discipline {T : Type} (ops : CheckOps T) (ast : SyntaxTree) (fuel : Nat) :
    (∀ (id : NodeId) (node : AstNode) (t : T) (w : Walk T), ast[id]? = some node →
      w.type id = some t → visit ops ast (fuel + 1) (.infer id) w = .ok (t, w)) ∧
    (∀ (id : NodeId) (node : AstNode) (t e : T) (w : Walk T), ast[id]? = some node →
      w.type id = some t → visit ops ast (fuel + 1) (.check id e) w = .error .assertion) ∧
    (∀ (v : Visit T) (w : Walk T) (r : T × Walk T), visit ops ast fuel v w = .ok r →
      w.Frame r.2) ∧
    (∀ (id : NodeId) (node : AstNode) (e t : T) (w w1 : Walk T), ast[id]? = some node →
      node.kind.hasCheck = false → w.type id = none →
      visit ops ast (fuel + 1) (.infer id) w = .ok (t, w1) →
      ∃ before r, w1.writes = before ++ [(id, t)] ∧
        visit ops ast (fuel + 2) (.check id e) w = .ok r ∧
        r.1 = (expect ops.toTypeOps w1.checker node.loc t e).1 ∧
        r.2.writes = before ++ [(id, t), (id, r.1)] ∧
        r.2.type id = some r.1) := by
  refine ⟨?_, ?_, fun v w r h => visit_frame ops ast fuel v w r h, ?_⟩
  · intro id node t w hnode hty
    simp only [visit, hnode, hty]
    rfl
  · intro id node t e w hnode hty
    simp only [visit, hnode, hty]
    rfl
  · intro id node e t w w1 hnode hk hty hinfer
    have hbefore : ∃ before, w1.writes = before ++ [(id, t)] := by
      rcases visit_succ_ok ops ast fuel _ w _ hinfer with
        ⟨id1, t1, hv, hty1, _⟩ | ⟨id1, node1, t1, w0, hv, _, _, _, hr⟩ |
        ⟨id1, expected, node1, t1, w0, hv, _⟩
      · cases hv; rw [hty] at hty1; cases hty1
      · cases hv
        simp only [Prod.mk.injEq] at hr
        obtain ⟨h1, h2⟩ := hr
        subst h1; subst h2
        exact ⟨w0.writes, rfl⟩
      · cases hv
    obtain ⟨before, hb⟩ := hbefore
    have hcheck : Node.check ops (visit ops ast (fuel + 1)) ast id node e w
        = .ok (w1.helper (expect ops.toTypeOps w1.checker node.loc t e)) := by
      rw [node_check_default ops _ ast id node e w hk,
        check_default_ok ops _ node.loc id e t w w1 hinfer]
    refine ⟨before, ((expect ops.toTypeOps w1.checker node.loc t e).1,
      (w1.helper (expect ops.toTypeOps w1.checker node.loc t e)).2.annotate id
        (expect ops.toTypeOps w1.checker node.loc t e).1), hb, ?_, rfl, ?_, ?_⟩
    · simp only [visit, hnode, hty]
      rw [hcheck]
      rfl
    · simp only [Walk.annotate, Walk.helper, hb, List.append_assoc, List.singleton_append]
    · simp [Walk.annotate]

theorem sampleIf_writes :
    (TypeChecker.run CheckOps.sample SyntaxTree.sampleIf 12 [0] (Walk.start SampleTerm)).map
        (fun r => (r.1, r.2.checker.error_count, r.2.writes))
      = .ok (false, 1, [(5, .prim 1), (4, .prim 1), (3, .prim 1), (2, .prim 1), (8, .prim 1),
          (7, .prim 1), (7, .error), (9, .unit), (6, .unit), (1, .fn (.prim 1) .unit),
          (0, .fn (.prim 1) .unit)]) := by
  decide

/-- C13 as stated fails: in the walk of `fn f(x: i32) { if x { } }` the
condition `x` is annotated with the type `i32` by `infer` and then with
the error type by `check`. -/
theorem annotation_overwritten :
    ¬ (∀ r, TypeChecker.run CheckOps.sample SyntaxTree.sampleIf 12 [0] (Walk.start SampleTerm)
        = .ok r →
      ∀ (n : NodeId) (t1 t2 : SampleTerm), (n, t1) ∈ r.2.writes → (n, t2) ∈ r.2.writes →
        t1 = t2) := by
  intro h
  have hw := sampleIf_writes
  cases hrun : TypeChecker.run CheckOps.sample SyntaxTree.sampleIf 12 [0]
      (Walk.start SampleTerm) with
  | error e => rw [hrun] at hw; cases hw
  | ok r =>
    rw [hrun] at hw
    simp only [Except.map, Except.ok.injEq, Prod.mk.injEq] at hw
    have := h r hrun 7 (.prim 1) .error (by rw [hw.2.2]; decide) (by rw [hw.2.2]; decide)
    cases this

theorem error_bind {ε α β : Type} (e : ε) (f : α → Except ε β) :
    ((.error e : Except ε α) >>= f) = .error e := rfl

/-- C20: `expect` returns the meet of the two types when there is one and
the error type otherwise; `cannot_infer` and `unreachable_code` return the
error type and advance the error counter by one; each of these helpers
returns to the rule that called it, which goes on from there. -/
theorem helpers_return_error {T : Type} (ops : CheckOps T) (w : Walk T) (loc : Loc)
    (msg : String) (type expected : T) (before first last : Loc) :
    (∀ m, ops.meet type expected = some m →
      expect ops.toTypeOps w.checker loc type expected = (m, w.checker) ∧
      expect_with_msg ops.toTypeOps w.checker loc msg type expected = (m, w.checker)) ∧
    (ops.meet type expected = none →
      (expect ops.toTypeOps w.checker loc type expected).1 = ops.error_type ∧
      (expect_with_msg ops.toTypeOps w.checker loc msg type expected).1 = ops.error_type) ∧
    (expect_no_type ops.toTypeOps w.checker loc msg expected).1 = ops.error_type ∧
    (cannot_infer ops.toTypeOps w.checker loc msg).1 = ops.error_type ∧
    (cannot_infer ops.toTypeOps w.checker loc msg).2.error_count = w.checker.error_count + 1 ∧
    (unreachable_code ops.toTypeOps w.checker before first last).1 = ops.error_type ∧
    (unreachable_code ops.toTypeOps w.checker before first last).2.error_count
      = w.checker.error_count + 1 ∧
    Node.infer_default ops w loc
      = .ok (ops.error_type, w.error loc (.cannot_infer "expression")) := by
  refine ⟨?_, ?_, rfl, rfl, rfl, rfl, rfl, rfl⟩
  · intro m hm
    simp [expect, expect_with_msg, hm]
  · intro hm
    constructor
    · simp only [expect, hm]; split <;> rfl
    · simp only [expect_with_msg, hm]; split <;> rfl

theorem helpers_return_error_witness :
    (expect CheckOps.sample.toTypeOps ⟨0, []⟩ ⟨1, 2⟩ (.prim 1) (.prim 0)).1 = .error ∧
    (expect CheckOps.sample.toTypeOps ⟨0, []⟩ ⟨1, 2⟩ (.prim 1) (.prim 0)).2.error_count = 1 ∧
    expect CheckOps.sample.toTypeOps ⟨0, []⟩ ⟨1, 2⟩ (.prim 1) (.prim 1) = (.prim 1, ⟨0, []⟩) ∧
    (cannot_infer CheckOps.sample.toTypeOps ⟨3, []⟩ ⟨1, 2⟩ "function").2.error_count = 3 + 1 ∧
    (unreachable_code CheckOps.sample.toTypeOps ⟨3, []⟩ ⟨1, 2⟩ ⟨3, 4⟩ ⟨5, 6⟩).2.error_count
      = 3 + 1 :=
  ⟨by decide, by decide, by decide,
    (helpers_return_error CheckOps.sample ⟨⟨3, []⟩, fun _ => none, []⟩ ⟨1, 2⟩ "function"
      (.prim 1) (.prim 0) ⟨1, 2⟩ ⟨3, 4⟩ ⟨5, 6⟩).2.2.2.2.1,
    (helpers_return_error CheckOps.sample ⟨⟨3, []⟩, fun _ => none, []⟩ ⟨1, 2⟩ "function"
      (.prim 1) (.prim 0) ⟨1, 2⟩ ⟨3, 4⟩ ⟨5, 6⟩).2.2.2.2.2.2.1⟩


/-- C19: checking `n` components against a tuple type of arity `m`: when
`n` differs from `m`, one arity error is reported, the error type is
returned and no component is checked, whatever the checker would do on
them; when they are equal, the components are checked in order, each
against the expected component at its position, and the expected type is
returned.  Tuple expressions and tuple patterns both go through this. -/
theorem check_tuple_spec {T : Type} (ops : CheckOps T) (rec : Rec T) (ast : SyntaxTree)
    (w : Walk T) (loc : Loc) (msg : String) (args : List NodeId) (expected : T)
    (expected_args : List T) (h : ops.isa_tuple expected = some expected_args) :
    (args.length ≠ expected_args.length →
      check_tuple ops rec w loc msg args expected
        = .ok (ops.error_type,
            w.error loc (.expected_arguments expected_args.length msg args.length))) ∧
    (args.length = expected_args.length →
      (∀ w1, check_args rec args expected_args w = .ok w1 →
        check_tuple ops rec w loc msg args expected = .ok (expected, w1)) ∧
      (∀ e, check_args rec args expected_args w = .error e →
        check_tuple ops rec w loc msg args expected = .error e)) ∧
    (∀ (a : NodeId) (rest : List NodeId) (e : T) (es : List T) (w0 : Walk T),
      check_args rec (a :: rest) (e :: es) w0
        = (rec (.check a e) w0 >>= fun (r : T × Walk T) => check_args rec rest es r.2)) ∧
    (∀ w0 : Walk T, check_args rec [] [] w0 = .ok w0) ∧
    (∀ id : NodeId,
      Node.check ops rec ast id ⟨loc, .TupleExpr args⟩ expected w
        = check_tuple ops rec w loc "tuple expression" args expected ∧
      Node.check ops rec ast id ⟨loc, .TuplePtrn args⟩ expected w
        = check_tuple ops rec w loc "tuple pattern" args expected) := by
  refine ⟨?_, ?_, ?_, ?_, ?_⟩
  · intro hne
    simp only [check_tuple, h, ne_eq, hne, not_false_eq_true, ↓reduceIte]
    rfl
  · intro heq
    constructor
    · intro w1 hw
      simp only [check_tuple, h, ne_eq, heq, not_true_eq_false, ↓reduceIte, hw]
      rfl
    · intro e hw
      simp only [check_tuple, h, ne_eq, heq, not_true_eq_false, ↓reduceIte, hw]
      rfl
  · intro a rest e es w0
    simp only [check_args]
  · intro w0; rfl
  · intro id; exact ⟨rfl, rfl⟩

/-- C16: checking an array literal without elements against an array
type that is the array type of its element sends no diagnostic and
returns that type: the state is unchanged but for the annotation of the
literal. -/
theorem array_check_empty {T : Type} (ops : CheckOps T) (rec : Rec T) (ast : SyntaxTree)
    (w : Walk T) (loc : Loc) (A elem : T) (h1 : ops.isa_array A = some elem)
    (h2 : ops.array_type elem = A) :
    ArrayExpr.check ops rec w loc [] A = .ok (A, w) ∧
    (∀ id : NodeId, Node.check ops rec ast id ⟨loc, .ArrayExpr []⟩ A w = .ok (A, w)) ∧
    (∀ (fuel : Nat) (id : NodeId), ast[id]? = some ⟨loc, .ArrayExpr []⟩ → w.type id = none →
      visit ops ast (fuel + 1) (.check id A) w = .ok (A, w.annotate id A) ∧
      (w.annotate id A).checker = w.checker) := by
  have hrule : ArrayExpr.check ops rec w loc [] A = .ok (A, w) := by
    simp only [ArrayExpr.check, h1, check_all, h2]
    rfl
  refine ⟨hrule, fun id => ?_, ?_⟩
  · simp only [Node.check]
    exact hrule
  · intro fuel id hnode hty
    refine ⟨?_, rfl⟩
    simp only [visit, hnode, hty, Node.check, ArrayExpr.check, h1, check_all, h2]
    rfl

theorem array_check_empty_witness :
    ArrayExpr.check CheckOps.sample (fun _ _ => .error .out_of_fuel) (Walk.start SampleTerm)
        ⟨1, 2⟩ [] (.array (.prim 0))
      = .ok (.array (.prim 0), Walk.start SampleTerm) ∧
    summary (visit CheckOps.sample [⟨⟨1, 2⟩, .ArrayExpr []⟩] 1 (.check 0 (.array (.prim 0)))
        (Walk.start SampleTerm))
      = .ok (.array (.prim 0), 0, [], [(0, .array (.prim 0))]) :=
  ⟨(array_check_empty CheckOps.sample (fun _ _ => .error .out_of_fuel) []
      (Walk.start SampleTerm) ⟨1, 2⟩ (.array (.prim 0)) (.prim 0) rfl rfl).1,
    by decide⟩

/-- C17: inferring an array literal without elements reports one `cannot
infer` error and returns the error type; inferring one with elements
infers the first, checks the others against its type, and returns the
array type of that type, adding no diagnostic of its own to those of
the elements. -/
theorem array_infer_spec {T : Type} (ops : CheckOps T) (rec : Rec T) (ast : SyntaxTree)
    (w : Walk T) (loc : Loc) :
    ArrayExpr.infer ops rec w loc []
      = .ok (ops.error_type, w.error loc (.cannot_infer "array expression")) ∧
    (w.error loc (.cannot_infer "array expression")).checker.error_count
      = w.checker.error_count + 1 ∧
    (w.error loc (.cannot_infer "array expression")).checker.diagnostics
      = w.checker.diagnostics ++ [.error loc (.cannot_infer "array expression")] ∧
    (∀ (front : NodeId) (rest : List NodeId) (t : T) (w1 w2 : Walk T),
      rec (.infer front) w = .ok (t, w1) → check_all rec t rest w1 = .ok w2 →
      ArrayExpr.infer ops rec w loc (front :: rest) = .ok (ops.array_type t, w2)) ∧
    (∀ (front : NodeId) (rest : List NodeId) (r : T × Walk T),
      ArrayExpr.infer ops rec w loc (front :: rest) = .ok r →
      ∃ t w1, rec (.infer front) w = .ok (t, w1) ∧ check_all rec t rest w1 = .ok r.2 ∧
        r.1 = ops.array_type t) ∧
    (∀ elems, Node.infer ops rec ast ⟨loc, .ArrayExpr elems⟩ w
      = ArrayExpr.infer ops rec w loc elems) := by
  refine ⟨rfl, rfl, rfl, ?_, ?_, fun _ => rfl⟩
  · intro front rest t w1 w2 h1 h2
    simp only [ArrayExpr.infer, h1, ok_bind, h2]
    rfl
  · intro front rest r hr
    simp only [ArrayExpr.infer] at hr
    obtain ⟨⟨t, w1⟩, h1, hr⟩ := (bind_ok_iff _ _ _).1 hr
    obtain ⟨w2, h2, hr⟩ := (bind_ok_iff _ _ _).1 hr
    simp only [pure_eq_ok, Except.ok.injEq] at hr
    subst hr
    exact ⟨t, w1, h1, h2, rfl⟩

theorem infer_is_no_ret_eq {T : Type} (ops : CheckOps T) (t : T) :
    BlockExpr.infer_is_no_ret ops t = ops.isa_no_ret t := by
  unfold BlockExpr.infer_is_no_ret
  cases h : ops.isa_no_ret t <;> simp [h]

theorem block_loop_past {T : Type} (ops : CheckOps T) (rec : Rec T) (ast : SyntaxTree)
    (back : NodeId) (s next : NodeId) (rest : List NodeId) :
    ∀ (pre : List NodeId) (w later : Walk T), CheckedPast ops rec pre w later →
      BlockExpr.loop ops rec ast ops.isa_no_ret back (pre ++ s :: next :: rest) w
        = BlockExpr.loop ops rec ast ops.isa_no_ret back (s :: next :: rest) later := by
  intro pre
  induction pre with
  | nil =>
    intro w later h
    simp only [CheckedPast] at h
    rw [h]; rfl
  | cons p pre ih =>
    intro w later h
    obtain ⟨t, w1, h1, h2, h3⟩ := h
    have hshape : ∃ q qs, pre ++ s :: next :: rest = q :: qs := by
      cases pre with
      | nil => exact ⟨s, next :: rest, rfl⟩
      | cons q qs => exact ⟨q, qs ++ s :: next :: rest, rfl⟩
    obtain ⟨q, qs, hq⟩ := hshape
    rw [List.cons_append, hq, BlockExpr.loop, h1, ok_bind]
    simp only [h2, Bool.false_eq_true, ↓reduceIte]
    rw [← hq]
    exact ih w1 later h3

theorem getLast_append_cons (pre : List NodeId) (s next : NodeId) (rest : List NodeId) :
    (pre ++ s :: next :: rest).getLast?
      = some ((next :: rest).getLast (List.cons_ne_nil next rest)) := by
  rw [List.getLast?_append, List.getLast?_cons_cons,
    List.getLast?_eq_getLast (next :: rest) (List.cons_ne_nil next rest)]
  rfl

theorem block_loop_stops {T : Type} (ops : CheckOps T) (rec : Rec T) (ast : SyntaxTree)
    (back : NodeId) (pre : List NodeId) (s next : NodeId) (rest : List NodeId)
    (w w_pre w_s : Walk T) (t : T) (hpre : CheckedPast ops rec pre w w_pre)
    (hs : rec (.check s ops.unit_type) w_pre = .ok (t, w_s))
    (hnr : ops.isa_no_ret t = true) :
    BlockExpr.loop ops rec ast ops.isa_no_ret back (pre ++ s :: next :: rest) w
      = .ok (some ops.error_type,
          (w_s.helper (unreachable_code ops.toTypeOps w_s.checker (ast.loc s) (ast.loc next)
            (ast.loc back))).2) := by
  rw [block_loop_past ops rec ast back s next rest pre w w_pre hpre, BlockExpr.loop, hs, ok_bind]
  simp only [hnr, ↓reduceIte]
  rfl

/-- C14, as the code has it: in a block of at least two statements, when
the statements before `s` are checked against the unit type without one
of them having the no-return type, and the check of the statement `s`,
which is not the last, has the no-return type, `BlockExpr::check` and
`BlockExpr::infer` return the error type and report one `unreachable
code` error, from the start of the statement after `s` to the end of the
last statement, with one note at `s`; the annotations are those left by
the check of `s`, whatever the checker would do on the later statements. -/
theorem block_unreachable {T : Type} (ops : CheckOps T) (rec : Rec T) (ast : SyntaxTree)
    (loc : Loc) (expected : T) (pre : List NodeId) (s next : NodeId) (rest : List NodeId)
    (w w_pre w_s : Walk T) (t : T) (hpre : CheckedPast ops rec pre w w_pre)
    (hs : rec (.check s ops.unit_type) w_pre = .ok (t, w_s))
    (hnr : ops.isa_no_ret t = true) :
    ∃ later : Walk T,
      BlockExpr.check ops rec ast w loc (pre ++ s :: next :: rest) expected
        = .ok (ops.error_type, later) ∧
      BlockExpr.infer ops rec ast w (pre ++ s :: next :: rest) = .ok (ops.error_type, later) ∧
      later.checker.error_count = w_s.checker.error_count + 1 ∧
      later.checker.diagnostics = w_s.checker.diagnostics ++
        [.error ⟨(ast.loc next).first,
            (ast.loc ((next :: rest).getLast (List.cons_ne_nil next rest))).last⟩
          .unreachable_code,
          .note (ast.loc s) .after_this_statement] ∧
      later.type = w_s.type ∧ later.writes = w_s.writes := by
  have hloop := block_loop_stops ops rec ast
    ((next :: rest).getLast (List.cons_ne_nil next rest)) pre s next rest w w_pre w_s t hpre hs hnr
  have hfun : BlockExpr.infer_is_no_ret ops = ops.isa_no_ret :=
    funext (infer_is_no_ret_eq ops)
  refine ⟨(w_s.helper (unreachable_code ops.toTypeOps w_s.checker (ast.loc s) (ast.loc next)
    (ast.loc ((next :: rest).getLast (List.cons_ne_nil next rest))))).2, ?_, ?_, ?_, ?_, rfl, rfl⟩
  · rw [BlockExpr.check, getLast_append_cons]
    simp only [hloop, ok_bind]
    rfl
  · rw [BlockExpr.infer, getLast_append_cons]
    simp only [hfun, hloop, ok_bind]
    rfl
  · rfl
  · simp [Walk.helper, unreachable_code, TypeChecker.error, TypeChecker.note]

theorem block_unreachable_witness :
    ∃ later : Walk SampleTerm,
      BlockExpr.check CheckOps.sample (visit CheckOps.sample SyntaxTree.sampleBreak 5)
          SyntaxTree.sampleBreak (Walk.start SampleTerm) ⟨0, 14⟩ [1, 5] (.prim 1)
        = .ok (.error, later) ∧
      BlockExpr.infer CheckOps.sample (visit CheckOps.sample SyntaxTree.sampleBreak 5)
          SyntaxTree.sampleBreak (Walk.start SampleTerm) [1, 5] = .ok (.error, later) ∧
      later.checker.error_count = 1 ∧
      later.checker.diagnostics
        = [.error ⟨11, 12⟩ .unreachable_code, .note ⟨2, 10⟩ .after_this_statement] ∧
      later.type 5 = none ∧ later.type 6 = none :=
  have h := block_unreachable CheckOps.sample (visit CheckOps.sample SyntaxTree.sampleBreak 5)
    SyntaxTree.sampleBreak ⟨0, 14⟩ (.prim 1) [] 1 5 [] (Walk.start SampleTerm)
    (Walk.start SampleTerm)
    ((((((Walk.start SampleTerm).annotate 3 (.fn .unit .no_ret)).annotate 4 .unit).annotate 2
      .no_ret).annotate 2 .no_ret).annotate 1 .no_ret)
    .no_ret rfl rfl rfl
  h.elim fun later hl =>
    ⟨later, hl.1, hl.2.1, hl.2.2.1, hl.2.2.2.1, by rw [hl.2.2.2.2.1]; rfl,
      by rw [hl.2.2.2.2.1]; rfl⟩

theorem sampleReturn_run :
    (TypeChecker.run CheckOps.sample SyntaxTree.sampleReturn 12 [0] (Walk.start SampleTerm)).map
        (fun r => r.2.checker.diagnostics)
      = .ok [.error ⟨24, 25⟩ (.cannot_infer "expression")] := by
  decide

theorem sampleReturnCall_run :
    (TypeChecker.run CheckOps.sample SyntaxTree.sampleReturnCall 12 [0]
        (Walk.start SampleTerm)).map (fun r => r.2.checker.diagnostics)
      = .ok [.error ⟨26, 27⟩ (.cannot_infer "expression")] := by
  decide

/-- C14 as stated fails on its example: the walk of
`fn f() -> i32 { return; 1 }` checks the block and reports no
`unreachable code` error, and neither does the walk of
`fn f() -> i32 { return(); 1 }`: the only error is about the literal. -/
theorem return_block_not_unreachable :
    ¬ (∀ r, TypeChecker.run CheckOps.sample SyntaxTree.sampleReturn 12 [0]
          (Walk.start SampleTerm) = .ok r →
        ∃ loc, Diagnostic.error loc Message.unreachable_code ∈ r.2.checker.diagnostics) ∧
    ¬ (∀ r, TypeChecker.run CheckOps.sample SyntaxTree.sampleReturnCall 12 [0]
          (Walk.start SampleTerm) = .ok r →
        ∃ loc, Diagnostic.error loc Message.unreachable_code ∈ r.2.checker.diagnostics) := by
  constructor
  · intro h
    have hw := sampleReturn_run
    cases hrun : TypeChecker.run CheckOps.sample SyntaxTree.sampleReturn 12 [0]
        (Walk.start SampleTerm) with
    | error e => rw [hrun] at hw; cases hw
    | ok r =>
      rw [hrun] at hw
      simp only [Except.map, Except.ok.injEq] at hw
      obtain ⟨loc, hmem⟩ := h r hrun
      rw [hw] at hmem
      simp at hmem
  · intro h
    have hw := sampleReturnCall_run
    cases hrun : TypeChecker.run CheckOps.sample SyntaxTree.sampleReturnCall 12 [0]
        (Walk.start SampleTerm) with
    | error e => rw [hrun] at hw; cases hw
    | ok r =>
      rw [hrun] at hw
      simp only [Except.map, Except.ok.injEq] at hw
      obtain ⟨loc, hmem⟩ := h r hrun
      rw [hw] at hmem
      simp at hmem

/-- C11 fails in the code: the rules that go through the overload
`expect(loc, msg, expected)` report an error whenever the expected type is
not of the class they need, the error type included, and `CallExpr::infer`
reports one on every callee type that is neither a function type, an
array type nor the error type itself.  So the walk of `let (a, b) = y;`
with `y` unbound reports an error about the error type, and the walk of
`(y, ())()` one about a tuple type with an error component. -/
theorem error_type_reported :
    (∀ (T : Type) (ops : CheckOps T) (rec : Rec T) (w : Walk T) (loc : Loc) (msg : String)
        (args : List NodeId) (expected : T), ops.isa_tuple expected = none →
      check_tuple ops rec w loc msg args expected
        = .ok (ops.error_type, w.error loc (.expected_got expected msg))) ∧
    (∀ (T : Type) (ops : CheckOps T) (rec : Rec T) (w : Walk T) (loc : Loc)
        (elems : List NodeId) (expected : T), ops.isa_array expected = none →
      ArrayExpr.check ops rec w loc elems expected
        = .ok (ops.error_type, w.error loc (.expected_got expected "array expression"))) ∧
    (∀ (T : Type) (ops : CheckOps T) (rec : Rec T) (w : Walk T) (loc : Loc) (param : NodeId)
        (body : Option NodeId) (expected : T), ops.isa_fn expected = none →
      FnExpr.check ops rec w loc param body expected
        = .ok (ops.error_type, w.error loc (.expected_got expected "anonymous function"))) ∧
    (∀ (T : Type) (ops : CheckOps T) (rec : Rec T) (w w1 : Walk T) (loc : Loc)
        (callee arg : NodeId) (callee_type : T),
      rec (.infer callee) w = .ok (callee_type, w1) → ops.isa_fn callee_type = none →
      ops.isa_array callee_type = none → ops.isa_error callee_type = false →
      CallExpr.infer ops rec w loc callee arg
        = .ok (ops.error_type, w1.error loc (.expected_function_or_array callee_type))) ∧
    CheckOps.sample.contains .error CheckOps.sample.error_type = true ∧
    summary (visit CheckOps.sample SyntaxTree.sampleLet 5 (.infer 0) (Walk.start SampleTerm))
      = .ok (.unit, 1, [.error ⟨4, 10⟩ (.expected_got .error "tuple pattern")],
          [(7, .error), (4, .error), (1, .error), (0, .unit)]) ∧
    CheckOps.sample.contains (.cons .error (.cons .unit .unit)) CheckOps.sample.error_type
      = true ∧
    summary (visit CheckOps.sample SyntaxTree.sampleCall 5 (.infer 0) (Walk.start SampleTerm))
      = .ok (.error, 1,
          [.error ⟨0, 9⟩ (.expected_function_or_array (.cons .error (.cons .unit .unit)))],
          [(3, .error), (2, .error), (4, .unit), (1, .cons .error (.cons .unit .unit)),
            (0, .error)]) := by
  refine ⟨?_, ?_, ?_, ?_, by decide, by decide, by decide, by decide⟩
  · intro T ops rec w loc msg args expected h
    simp only [check_tuple, h]
    rfl
  · intro T ops rec w loc elems expected h
    simp only [ArrayExpr.check, h]
    rfl
  · intro T ops rec w loc param body expected h
    simp only [FnExpr.check, h]
    rfl
  · intro T ops rec w w1 loc callee arg callee_type h1 h2 h3 h4
    simp only [CallExpr.infer, h1, ok_bind, h2, h3, h4]
    rfl

theorem check_default_spec_witness :
    NodeKind.hasCheck (.PathExpr 2) = false ∧
    Node.check CheckOps.sample (visit CheckOps.sample SyntaxTree.samplePairExpr 3)
        SyntaxTree.samplePairExpr 1 ⟨⟨1, 2⟩, .PathExpr 2⟩ (.prim 0) Walk.samplePairExpr
      = Node.check_default CheckOps.sample (visit CheckOps.sample SyntaxTree.samplePairExpr 3)
          Walk.samplePairExpr ⟨1, 2⟩ 1 (.prim 0) ∧
    summary (visit CheckOps.sample SyntaxTree.samplePairExpr 5 (.check 1 (.prim 0))
        Walk.samplePairExpr)
      = .ok (.error, 1, [.error ⟨1, 2⟩ (.expected_got_type (.prim 0) (.prim 1))],
          [(5, .prim 1), (6, .prim 0), (2, .prim 1), (1, .prim 1), (1, .error)]) ∧
    summary (visit CheckOps.sample SyntaxTree.samplePairExpr 5 (.check 1 (.prim 1))
        Walk.samplePairExpr)
      = .ok (.prim 1, 0, [],
          [(5, .prim 1), (6, .prim 0), (2, .prim 1), (1, .prim 1), (1, .prim 1)]) :=
  ⟨rfl,
    (check_default_spec CheckOps.sample (visit CheckOps.sample SyntaxTree.samplePairExpr 3)
      SyntaxTree.samplePairExpr 1 ⟨⟨1, 2⟩, .PathExpr 2⟩ (.prim 0) Walk.samplePairExpr rfl).1,
    by decide, by decide⟩

theorem check_tuple_spec_witness :
    CheckOps.sample.isa_tuple (.cons (.prim 1) .unit) = some [.prim 1] ∧
    check_tuple CheckOps.sample (visit CheckOps.sample SyntaxTree.samplePairExpr 4)
        Walk.samplePairExpr ⟨0, 6⟩ "tuple expression" [1, 3] (.cons (.prim 1) .unit)
      = .ok (.error, Walk.samplePairExpr.error ⟨0, 6⟩
          (.expected_arguments 1 "tuple expression" 2)) ∧
    summary (visit CheckOps.sample SyntaxTree.samplePairExpr 5
        (.check 0 (.cons (.prim 1) (.cons (.prim 0) .unit))) Walk.samplePairExpr)
      = .ok (.cons (.prim 1) (.cons (.prim 0) .unit), 0, [],
          [(5, .prim 1), (6, .prim 0), (2, .prim 1), (1, .prim 1), (1, .prim 1), (4, .prim 0),
            (3, .prim 0), (3, .prim 0), (0, .cons (.prim 1) (.cons (.prim 0) .unit))]) :=
  ⟨rfl,
    (check_tuple_spec CheckOps.sample (visit CheckOps.sample SyntaxTree.samplePairExpr 4)
      SyntaxTree.samplePairExpr Walk.samplePairExpr ⟨0, 6⟩ "tuple expression" [1, 3]
      (.cons (.prim 1) .unit) [.prim 1] rfl).1 (by decide),
    by decide⟩

theorem array_infer_spec_witness :
    ArrayExpr.infer CheckOps.sample (visit CheckOps.sample [⟨⟨1, 3⟩, .ArrayExpr []⟩] 0)
        (Walk.start SampleTerm) ⟨1, 3⟩ []
      = .ok (.error, (Walk.start SampleTerm).error ⟨1, 3⟩ (.cannot_infer "array expression")) ∧
    summary (visit CheckOps.sample [⟨⟨1, 3⟩, .ArrayExpr []⟩] 1 (.infer 0) (Walk.start SampleTerm))
      = .ok (.error, 1, [.error ⟨1, 3⟩ (.cannot_infer "array expression")], [(0, .error)]) ∧
    summary (visit CheckOps.sample
        [⟨⟨0, 4⟩, .ArrayExpr [1, 2]⟩, ⟨⟨1, 2⟩, .PrimType 0⟩, ⟨⟨2, 3⟩, .PrimType 0⟩] 3 (.infer 0)
        (Walk.start SampleTerm))
      = .ok (.array (.prim 0), 0, [],
          [(1, .prim 0), (2, .prim 0), (2, .prim 0), (0, .array (.prim 0))]) :=
  ⟨(array_infer_spec CheckOps.sample (visit CheckOps.sample [⟨⟨1, 3⟩, .ArrayExpr []⟩] 0)
      [⟨⟨1, 3⟩, .ArrayExpr []⟩] (Walk.start SampleTerm) ⟨1, 3⟩).1,
    by decide, by decide⟩

theorem annotation_discipline_witness :
    visit CheckOps.sample SyntaxTree.samplePairExpr 1 (.check 5 (.prim 1)) Walk.samplePairExpr
      = .error .assertion ∧
    visit CheckOps.sample SyntaxTree.samplePairExpr 1 (.infer 5) Walk.samplePairExpr
      = .ok (.prim 1, Walk.samplePairExpr) :=
  ⟨(annotation_discipline CheckOps.sample SyntaxTree.samplePairExpr 0).2.1 5 ⟨⟨0, 0⟩, .PtrnDecl⟩
      (.prim 1) (.prim 1) Walk.samplePairExpr rfl rfl,
    (annotation_discipline CheckOps.sample SyntaxTree.samplePairExpr 0).1 5 ⟨⟨0, 0⟩, .PtrnDecl⟩
      (.prim 1) Walk.samplePairExpr rfl rfl⟩

/-- The walk of `fn f() { 1; f() }` comes back to the declaration of `f`
while it has no type yet, walks the body again and stops at the assertion
of `TypeChecker::check` on the statement `1;`. -/
theorem sampleRecursion_assertion :
    (TypeChecker.run CheckOps.sample SyntaxTree.sampleRecursion 12 [0]
        (Walk.start SampleTerm)).map (fun r => r.1) = .error .assertion := by
  decide

/-! ## Properties of the operators and of the command line -/

section CommandLine

open ProgramOptions

theorem parse_loop_module_name (P : Platform) :
    ∀ (n : Nat) (args : List String) (opts : ProgramOptions) (out : List Output),
      args.length ≤ n → "-o" ∉ args → opts.module_name = "" →
      (parse_loop P args opts out).2.1.module_name = "" := by
  intro n
  induction n with
  | zero =>
    intro args opts out hn _ hm
    cases args with
    | nil => simpa [parse_loop] using hm
    | cons a rest => simp at hn
  | succ n ih =>
    intro args opts out hn ho hm
    cases args with
    | nil => simpa [parse_loop] using hm
    | cons arg rest =>
      have hrest : "-o" ∉ rest := fun h => ho (List.mem_cons_of_mem _ h)
      have harg : arg ≠ "-o" := fun h => ho (h ▸ List.mem_cons_self _ _)
      have hlen : rest.length ≤ n := by simpa using hn
      have hrec : ∀ (o : ProgramOptions) , o.module_name = "" →
          (parse_loop P rest o out).2.1.module_name = "" :=
        fun o h => ih rest o out hlen hrest h
      have hrec1 : ∀ (v : String) (rest1 : List String) (o : ProgramOptions), rest = v :: rest1 →
          o.module_name = "" → (parse_loop P rest1 o out).2.1.module_name = "" := by
        intro v rest1 o hr h
        subst hr
        exact ih rest1 o out (by simp at hlen; omega)
          (fun h1 => hrest (List.mem_cons_of_mem _ h1)) h
      unfold parse_loop
      by_cases h0 : is_option arg = true
      swap
      · rw [if_neg h0]; exact hrec _ hm
      rw [if_pos h0]
      by_cases h1 : arg = "-h" ∨ arg = "--help"
      · rw [if_pos h1]; exact hm
      rw [if_neg h1]
      by_cases h2 : arg = "--version"
      · rw [if_pos h2]; exact hm
      rw [if_neg h2]
      by_cases h3 : arg = "--no-color"
      · rw [if_pos h3]
        by_cases hd : opts.no_color = true
        · rw [if_pos hd]; exact hm
        · rw [if_neg hd]; exact hrec _ hm
      rw [if_neg h3]
      by_cases h4 : arg = "-Wall" ∨ arg = "--enable-all-warnings"
      · rw [if_pos h4]
        by_cases hd : opts.enable_all_warns = true
        · rw [if_pos hd]; exact hm
        · rw [if_neg hd]; exact hrec _ hm
      rw [if_neg h4]
      by_cases h5 : arg = "-Werror" ∨ arg = "--warnings-as-errors"
      · rw [if_pos h5]
        by_cases hd : opts.warns_as_errors = true
        · rw [if_pos hd]; exact hm
        · rw [if_neg hd]; exact hrec _ hm
      rw [if_neg h5]
      by_cases h6 : arg = "--max-errors"
      · rw [if_pos h6]
        by_cases hd : opts.max_errors ≠ 0
        · rw [if_pos hd]; exact hm
        · rw [if_neg hd]
          cases rest with
          | nil => exact hm
          | cons value rest1 =>
            simp only []
            by_cases hz : P.strtoull value = 0
            · rw [if_pos hz]; exact hm
            · rw [if_neg hz]; exact hrec1 _ _ _ rfl hm
      rw [if_neg h6]
      by_cases h7 : arg = "-g" ∨ arg = "--debug"
      · rw [if_pos h7]
        by_cases hd : opts.debug = true
        · rw [if_pos hd]; exact hm
        · rw [if_neg hd]; exact hrec _ hm
      rw [if_neg h7]
      by_cases h8 : arg = "--print-ast"
      · rw [if_pos h8]
        by_cases hd : opts.print_ast = true
        · rw [if_pos hd]; exact hm
        · rw [if_neg hd]; exact hrec _ hm
      rw [if_neg h8]
      by_cases h9 : arg = "--emit-thorin"
      · rw [if_pos h9]
        by_cases hd : opts.emit_thorin = true
        · rw [if_pos hd]; exact hm
        · rw [if_neg hd]; exact hrec _ hm
      rw [if_neg h9]
      by_cases h10 : arg = "--log-level"
      · rw [if_pos h10]
        cases rest with
        | nil => exact hm
        | cons value rest1 =>
          simp only []
          cases log_level_of value with
          | none => exact hm
          | some level => exact hrec1 _ _ _ rfl hm
      rw [if_neg h10]
      by_cases h11 : arg = "--emit-llvm"
      · rw [if_pos h11]
        by_cases hd : opts.emit_llvm = true
        · rw [if_pos hd]; exact hm
        · rw [if_neg hd]
          by_cases hl : P.enable_llvm = true
          · rw [if_pos hl]; exact hrec _ hm
          · rw [if_neg hl]; exact hm
      rw [if_neg h11]
      by_cases h12 : arg = "-O0"
      · rw [if_pos h12]; exact hrec _ hm
      rw [if_neg h12]
      by_cases h13 : arg = "-O1"
      · rw [if_pos h13]; exact hrec _ hm
      rw [if_neg h13]
      by_cases h14 : arg = "-O2"
      · rw [if_pos h14]; exact hrec _ hm
      rw [if_neg h14]
      by_cases h15 : arg = "-O3"
      · rw [if_pos h15]; exact hrec _ hm
      rw [if_neg h15]
      rw [if_neg harg]
      exact hm


theorem parse_loop_files (P : Platform) :
    ∀ (files : List String) (opts : ProgramOptions) (out : List Output),
      (∀ f ∈ files, is_option f = false) →
      parse_loop P files opts out = (true, { opts with files := opts.files ++ files }, out) := by
  intro files
  induction files with
  | nil => intro opts out _; simp [parse_loop]
  | cons f rest ih =>
    intro opts out h
    have hf : ¬ (is_option f = true) := by
      rw [h f (List.mem_cons_self _ _)]; simp
    unfold parse_loop
    rw [if_neg hf, ih _ _ (fun g hg => h g (List.mem_cons_of_mem _ hg))]
    simp

theorem main_start_compiles (P : Platform) (argv : List String) (opts : ProgramOptions)
    (out : List Output) (h : main_start P argv = .compiles opts out) :
    ∃ front rest, (parse P argv).2.1.files = front :: rest ∧
      opts.module_name =
        if (parse P argv).2.1.module_name = "" then file_without_ext front
        else (parse P argv).2.1.module_name := by
  unfold main_start at h
  rcases hp : parse P argv with ⟨b, opts0, out0⟩
  rw [hp] at h
  cases b with
  | false => simp at h
  | true =>
    simp only at h
    by_cases he : opts0.exit = true
    · rw [if_pos he] at h; cases h
    · rw [if_neg he] at h
      cases hf : opts0.files with
      | nil => rw [hf] at h; cases h
      | cons front rest =>
        rw [hf] at h
        simp only at h
        refine ⟨front, rest, rfl, ?_⟩
        by_cases hmod : opts0.module_name = ""
        · rw [if_pos hmod] at h
          rw [if_pos hmod]
          cases h
          rfl
        · rw [if_neg hmod] at h
          rw [if_neg hmod]
          cases h
          rfl

/-- What `main` does when no argument of the command line is `-o`: the
module name is still empty after the options are parsed, and `main`, when
it gets to the compilation, uses the name of the first input file without
its directory and its extension; so it does for every list of input files
none of which starts with a dash. -/
theorem module_name_default (P : Platform) (argv : List String) (h : "-o" ∉ argv.drop 1) :
    (parse P argv).2.1.module_name = "" ∧
    (∀ opts out, main_start P argv = .compiles opts out →
      ∃ front rest, (parse P argv).2.1.files = front :: rest ∧
        opts.module_name = file_without_ext front) ∧
    (∀ name, module_name_used P argv = some name →
      ∃ front rest, (parse P argv).2.1.files = front :: rest ∧
        name = file_without_ext front) ∧
    (∀ (prog file : String) (files : List String), argv = prog :: file :: files →
      (∀ f ∈ file :: files, is_option f = false) →
      module_name_used P argv = some (file_without_ext file)) := by
  have hmod : (parse P argv).2.1.module_name = "" := by
    unfold parse
    by_cases hl : argv.length < 2
    · rw [if_pos hl]
    · rw [if_neg hl]
      exact parse_loop_module_name P _ _ _ _ (Nat.le_refl _) h rfl
  have hcomp : ∀ opts out, main_start P argv = .compiles opts out →
      ∃ front rest, (parse P argv).2.1.files = front :: rest ∧
        opts.module_name = file_without_ext front := by
    intro opts out hc
    obtain ⟨front, rest, hf, hn⟩ := main_start_compiles P argv opts out hc
    rw [if_pos hmod] at hn
    exact ⟨front, rest, hf, hn⟩
  refine ⟨hmod, hcomp, ?_, ?_⟩
  · intro name hname
    unfold module_name_used at hname
    cases hs : main_start P argv with
    | returned status out => rw [hs] at hname; cases hname
    | compiles opts out =>
      rw [hs] at hname
      simp only [Option.some.injEq] at hname
      obtain ⟨front, rest, hf, hn⟩ := hcomp opts out hs
      exact ⟨front, rest, hf, by rw [← hname, hn]⟩
  · intro prog file files hargv hplain
    subst hargv
    have hp : parse P (prog :: file :: files)
        = (true, { files := file :: files }, []) := by
      unfold parse
      rw [if_neg (by simp), List.drop_one, List.tail_cons, parse_loop_files P _ _ _ hplain]
      simp
    simp only [module_name_used, main_start, hp]
    simp

theorem module_name_default_witness :
    module_name_used Platform.sample ["artic", "dir/foo.art", "bar.art"] = some "foo" :=
  (module_name_default Platform.sample ["artic", "dir/foo.art", "bar.art"] (by decide)).2.2.2
    "artic" "dir/foo.art" ["bar.art"] rfl (by decide)

/-- C30 fails in the code: `usage()` prints that the module name
`defaults to 'module'`, but on the command line `artic foo.art`, without
`-o`, `main` names the module `foo`, after the input file, not `module`. -/
theorem module_name_not_module :
    module_name_used Platform.sample ["artic", "foo.art"] = some "foo" ∧
    module_name_used Platform.sample ["artic", "foo.art"] ≠ some "module" := by
  decide

/-- C29 fails in the code: `tag_from_token` returns the tag of `<<=` for
the token `>>=`, so the two tokens have the same tag, no token has the tag
`R_SHFT_EQ`, and the spelling of the tag of `>>=` is `<<=`; on every other
token that it knows the function is injective. -/
theorem tag_from_token_r_shft_eq :
    BinaryExpr.tag_from_token .R_SHFT_EQ = .L_SHFT_EQ ∧
    BinaryExpr.tag_from_token .R_SHFT_EQ = BinaryExpr.tag_from_token .L_SHFT_EQ ∧
    (∀ t, BinaryExpr.tag_from_token t ≠ .R_SHFT_EQ) ∧
    BinaryExpr.tag_to_string (BinaryExpr.tag_from_token .R_SHFT_EQ) = some "<<=" ∧
    BinaryExpr.tag_to_string .R_SHFT_EQ = some ">>=" ∧
    BinaryExpr.has_eq .R_SHFT_EQ = true ∧
    (∀ s t, s ≠ .R_SHFT_EQ → t ≠ .R_SHFT_EQ → BinaryExpr.tag_from_token s ≠ .ERR →
      BinaryExpr.tag_from_token s = BinaryExpr.tag_from_token t → s = t) := by
  refine ⟨rfl, rfl, ?_, by decide, by decide, rfl, ?_⟩
  · intro t; cases t <;> simp [BinaryExpr.tag_from_token]
  · intro s t hs ht he h
    cases s <;> cases t <;> simp_all [BinaryExpr.tag_from_token]

end CommandLine

/-! ## The whole walk, and requests to the table -/

theorem onLoop_start (T : Type) : (Walk.start T).OnLoop :=
  ⟨rfl, rfl, rfl, rfl, rfl, rfl, rfl⟩

theorem onLoop_annotate {T : Type} (w : Walk T) (t : T) (h : w.OnLoop) :
    (w.annotate 2 t).OnLoop := by
  obtain ⟨h0, h1, h3, h4, h5, h6, h7⟩ := h
  refine ⟨?_, ?_, ?_, ?_, ?_, ?_, ?_⟩ <;> simp [Walk.annotate, *]

/-- A visit of the node `id` of `sampleLoop` that carries no type goes on
with the rule of the node and fails when the rule does. -/
theorem visit_rule_error {T : Type} (ops : CheckOps T) (ast : SyntaxTree) (fuel : Nat)
    (id : NodeId) (node : AstNode) (w : Walk T) (e : Failure)
    (hnode : ast[id]? = some node) (hty : w.type id = none)
    (hrule : Node.infer ops (visit ops ast fuel) ast node w = .error e) :
    visit ops ast (fuel + 1) (.infer id) w = .error e := by
  simp only [visit, hnode, hty, hrule]
  rfl

/-- The inference of the declaration of `sampleLoop` runs out of fuel,
whatever the fuel: each of the nodes on the way back to the declaration
is reached without a type and its rule goes on to the next one. -/
theorem sampleLoop_out_of_fuel {T : Type} (ops : CheckOps T) :
    ∀ (fuel : Nat) (w : Walk T), w.OnLoop →
      visit ops SyntaxTree.sampleLoop fuel (.infer 0) w = .error .out_of_fuel ∧
      visit ops SyntaxTree.sampleLoop fuel (.infer 7) w = .error .out_of_fuel ∧
      visit ops SyntaxTree.sampleLoop fuel (.infer 6) w = .error .out_of_fuel ∧
      visit ops SyntaxTree.sampleLoop fuel (.infer 5) w = .error .out_of_fuel ∧
      visit ops SyntaxTree.sampleLoop fuel (.infer 4) w = .error .out_of_fuel ∧
      visit ops SyntaxTree.sampleLoop fuel (.infer 3) w = .error .out_of_fuel ∧
      visit ops SyntaxTree.sampleLoop fuel (.infer 1) w = .error .out_of_fuel := by
  intro fuel
  induction fuel with
  | zero => intro w _; exact ⟨rfl, rfl, rfl, rfl, rfl, rfl, rfl⟩
  | succ fuel ih =>
    intro w hw
    obtain ⟨i0, i7, i6, i5, i4, i3, i1⟩ := ih w hw
    obtain ⟨h0, h1, h3, h4, h5, h6, h7⟩ := hw
    refine ⟨?_, ?_, ?_, ?_, ?_, ?_, ?_⟩
    · exact visit_rule_error ops _ fuel 0 ⟨⟨0, 15⟩, .FnDecl 1⟩ w _ rfl h0 i1
    · exact visit_rule_error ops _ fuel 7 ⟨⟨9, 10⟩, .Path (some 0)⟩ w _ rfl h7 i0
    · exact visit_rule_error ops _ fuel 6 ⟨⟨9, 10⟩, .PathExpr 7⟩ w _ rfl h6 i7
    · refine visit_rule_error ops _ fuel 5 ⟨⟨9, 12⟩, .CallExpr 6 8⟩ w _ rfl h5 ?_
      simp only [Node.infer, CallExpr.infer, i6]
      rfl
    · exact visit_rule_error ops _ fuel 4 ⟨⟨9, 12⟩, .ExprStmt 5⟩ w _ rfl h4 i5
    · refine visit_rule_error ops _ fuel 3 ⟨⟨7, 15⟩, .BlockExpr [4]⟩ w _ rfl h3 ?_
      simp only [Node.infer, BlockExpr.infer, List.getLast?_singleton, BlockExpr.loop,
        pure_eq_ok, ok_bind, i4]
    · refine visit_rule_error ops _ fuel 1 ⟨⟨0, 15⟩, .FnExpr 2 none (some 3)⟩ w _ rfl h1 ?_
      simp only [Node.infer, FnExpr.infer, FnExpr.ret_type_or_null, pure_eq_ok, ok_bind,
        Option.isSome_some, Bool.true_or, ↓reduceIte]
      cases hp : visit ops SyntaxTree.sampleLoop fuel (.infer 2) w with
      | error e =>
        cases fuel with
        | zero => cases hp; rfl
        | succ k =>
          exfalso
          simp only [visit] at hp
          have hn : SyntaxTree.sampleLoop[2]? = some ⟨⟨4, 6⟩, .TuplePtrn []⟩ := rfl
          rw [hn] at hp
          simp only [Node.infer, infer_tuple, infer_args, pure_eq_ok, ok_bind] at hp
          cases hty : w.type 2 with
          | none => rw [hty] at hp; cases hp
          | some t => rw [hty] at hp; cases hp
      | ok r =>
        obtain ⟨t, w1⟩ := r
        have hw1 : w1.OnLoop := by
          cases fuel with
          | zero => cases hp
          | succ k =>
            simp only [visit] at hp
            have hn : SyntaxTree.sampleLoop[2]? = some ⟨⟨4, 6⟩, .TuplePtrn []⟩ := rfl
            rw [hn] at hp
            simp only [Node.infer, infer_tuple, infer_args, pure_eq_ok, ok_bind] at hp
            cases hty : w.type 2 with
            | none =>
              rw [hty] at hp
              simp only [Except.ok.injEq, Prod.mk.injEq] at hp
              rw [← hp.2]
              exact onLoop_annotate w _ ⟨h0, h1, h3, h4, h5, h6, h7⟩
            | some s =>
              rw [hty] at hp
              simp only [Except.ok.injEq, Prod.mk.injEq] at hp
              rw [← hp.2]
              exact ⟨h0, h1, h3, h4, h5, h6, h7⟩
        have hbody := (ih w1 hw1).2.2.2.2.2.1
        simp only [ok_bind, FnExpr.check_or_infer_body, hbody]
        rfl

/-- C22 fails in the code: the inference of `fn f() { f() }` comes back
to the declaration of `f` before it has a type and starts over, so that no
amount of fuel brings the walk to its end; with one more statement before
the call, in `fn f() { 1; f() }`, the second walk of the body stops at the
assertion of `TypeChecker::check`. -/
theorem recursive_walk_diverges :
    (∀ (T : Type) (ops : CheckOps T) (fuel : Nat),
      visit ops SyntaxTree.sampleLoop fuel (.infer 0) (Walk.start T) = .error .out_of_fuel) ∧
    (∀ (T : Type) (ops : CheckOps T) (fuel : Nat),
      run ops SyntaxTree.sampleLoop fuel [0] (Walk.start T) = .error .out_of_fuel) ∧
    (run CheckOps.sample SyntaxTree.sampleRecursion 12 [0] (Walk.start SampleTerm)).map
        (fun r => r.1) = .error .assertion := by
  refine ⟨?_, ?_, sampleRecursion_assertion⟩
  · intro T ops fuel
    exact (sampleLoop_out_of_fuel ops fuel (Walk.start T) (onLoop_start T)).1
  · intro T ops fuel
    simp only [run, Program.infer, infer_args,
      (sampleLoop_out_of_fuel ops fuel (Walk.start T) (onLoop_start T)).1]
    rfl

theorem identity_insert_later (H : Fnv) (tt later : TypeTable) (t1 t2 : TypeNode)
    (h1 : t1.isStructural = false) (h2 : t2.isStructural = false)
    (hg : (tt.insert H t1).2.GrowsTo later) :
    (tt.insert H t1).1 = tt.types_.length ∧
    (later.insert H t2).1 = later.types_.length ∧
    (tt.insert H t1).1 < (later.insert H t2).1 ∧
    (later.insert H t2).2.node (tt.insert H t1).1 = some t1 ∧
    (later.insert H t2).2.node (later.insert H t2).1 = some t2 := by
  have e1 := insert_identity H tt h1
  have e2 := insert_identity H later h2
  have hn1 : (tt.insert H t1).2.node (tt.insert H t1).1 = some t1 := insert_node H tt t1
  have hlater : later.node (tt.insert H t1).1 = some t1 := growsTo_node hg hn1
  have hlt : (tt.insert H t1).1 < later.types_.length := node_lt hlater
  refine ⟨by rw [e1], by rw [e2], ?_, ?_, insert_node H later t2⟩
  · rw [e2]; exact hlt
  · exact growsTo_node (growsTo_insert H later t2) hlater

/-- C23, as the code has it: a request for a struct, enum or forall type
always creates an object, at the next handle of the table, whether or not
the declaration has been requested before: a second request, for the same
declaration or another, in any later state of the table, returns a handle
above the first, and both handles keep naming the type of their
declaration. -/
theorem identity_types_fresh (H : Fnv) (tt : TypeTable) (d1 d2 : Nat) :
    (∀ later, (tt.struct_type H d1).2.GrowsTo later →
      (tt.struct_type H d1).1 = tt.types_.length ∧
      (later.struct_type H d2).1 = later.types_.length ∧
      (tt.struct_type H d1).1 < (later.struct_type H d2).1 ∧
      (later.struct_type H d2).2.node (tt.struct_type H d1).1 = some (.StructType d1) ∧
      (later.struct_type H d2).2.node (later.struct_type H d2).1 = some (.StructType d2)) ∧
    (∀ later, (tt.enum_type H d1).2.GrowsTo later →
      (tt.enum_type H d1).1 = tt.types_.length ∧
      (later.enum_type H d2).1 = later.types_.length ∧
      (tt.enum_type H d1).1 < (later.enum_type H d2).1 ∧
      (later.enum_type H d2).2.node (tt.enum_type H d1).1 = some (.EnumType d1) ∧
      (later.enum_type H d2).2.node (later.enum_type H d2).1 = some (.EnumType d2)) ∧
    (∀ later, (tt.forall_type H d1).2.GrowsTo later →
      (tt.forall_type H d1).1 = tt.types_.length ∧
      (later.forall_type H d2).1 = later.types_.length ∧
      (tt.forall_type H d1).1 < (later.forall_type H d2).1 ∧
      (later.forall_type H d2).2.node (tt.forall_type H d1).1 = some (.ForallType d1) ∧
      (later.forall_type H d2).2.node (later.forall_type H d2).1 = some (.ForallType d2)) ∧
    ((tt.struct_type H d1).2.struct_type H d2).1 ≠ (tt.struct_type H d1).1 ∧
    ((tt.enum_type H d1).2.enum_type H d2).1 ≠ (tt.enum_type H d1).1 ∧
    ((tt.forall_type H d1).2.forall_type H d2).1 ≠ (tt.forall_type H d1).1 := by
  refine ⟨fun later hg => identity_insert_later H tt later _ _ rfl rfl hg,
    fun later hg => identity_insert_later H tt later _ _ rfl rfl hg,
    fun later hg => identity_insert_later H tt later _ _ rfl rfl hg, ?_, ?_, ?_⟩
  · exact Nat.ne_of_gt (identity_insert_later H tt _ (.StructType d1) (.StructType d2) rfl rfl
      (growsTo_refl _)).2.2.1
  · exact Nat.ne_of_gt (identity_insert_later H tt _ (.EnumType d1) (.EnumType d2) rfl rfl
      (growsTo_refl _)).2.2.1
  · exact Nat.ne_of_gt (identity_insert_later H tt _ (.ForallType d1) (.ForallType d2) rfl rfl
      (growsTo_refl _)).2.2.1

theorem identity_types_fresh_witness :
    ((TypeTable.empty.struct_type Fnv.sample 200).2.struct_type Fnv.sample 201).1
      ≠ (TypeTable.empty.struct_type Fnv.sample 200).1 :=
  (identity_types_fresh Fnv.sample TypeTable.empty 200 201).2.2.2.1

/-- C23 as stated fails: two requests for the struct type of the
declaration at address 200 return the handles 0 and 1. -/
theorem struct_type_twice :
    (TypeTable.empty.struct_type Fnv.sample 200).1 = 0 ∧
    ((TypeTable.empty.struct_type Fnv.sample 200).2.struct_type Fnv.sample 200).1 = 1 ∧
    ((TypeTable.empty.struct_type Fnv.sample 200).2.struct_type Fnv.sample 200).1
      ≠ (TypeTable.empty.struct_type Fnv.sample 200).1 := by
  decide

theorem replaceArgs_length {rep : TypeTable → Handle → Option (Handle × TypeTable)} :
    ∀ (args : List Handle) (tt : TypeTable) (r : List Handle × TypeTable),
      replaceArgs rep tt args = some r → r.1.length = args.length := by
  intro args
  induction args with
  | nil =>
    intro tt r hr
    simp only [replaceArgs, Option.some.injEq] at hr
    rw [← hr]
  | cons a rest ih =>
    intro tt r hr
    simp only [replaceArgs] at hr
    cases ha : rep tt a with
    | none => simp [ha] at hr
    | some p =>
      obtain ⟨a1, tt1⟩ := p
      simp only [ha] at hr
      cases hb : replaceArgs rep tt1 rest with
      | none => simp [hb] at hr
      | some q =>
        obtain ⟨rest1, tt2⟩ := q
        simp only [hb, Option.some.injEq] at hr
        rw [← hr]
        simp [ih tt1 _ hb]

/-- C24, as the code has it: `type_app` stores the arguments it is given,
however many they are; `TypeApp::replace` returns an application of the
same applied type with as many arguments as before, so it keeps the arity
invariant of an application that has it; and the assertion of
`TypeApp::member_type` fails on an application that does not have it. -/
theorem type_app_arity (H : Fnv) (df : Bool) (ast : Ast) (tt : TypeTable) :
    (∀ (applied : Handle) (type_args : List Handle),
      (tt.type_app H applied type_args).2.node (tt.type_app H applied type_args).1
        = some (.TypeApp applied type_args)) ∧
    (∀ (map : TypeMap) (fuel : Nat) (h applied : Handle) (type_args : List Handle)
        (r : Handle × TypeTable),
      tt.node h = some (.TypeApp applied type_args) → replace H df map fuel tt h = some r →
      ∃ new_type_args, r.2.node r.1 = some (.TypeApp applied new_type_args) ∧
        new_type_args.length = type_args.length) ∧
    (∀ (map : TypeMap) (fuel : Nat) (h applied : Handle) (type_args : List Handle)
        (r : Handle × TypeTable),
      tt.node h = some (.TypeApp applied type_args) → replace H df map fuel tt h = some r →
      tt.ArityOk ast h → r.2.ArityOk ast r.1) ∧
    (∀ (fuel : Nat) (applied : Handle) (type_args : List Handle) (i : Nat)
        (params : List TypeParam),
      UserType.type_params ast tt applied = some (some params) →
      params.length ≠ type_args.length →
      TypeApp.member_type H df fuel ast tt applied type_args i = none) := by
  have hrep : ∀ (map : TypeMap) (fuel : Nat) (h applied : Handle) (type_args : List Handle)
      (r : Handle × TypeTable),
      tt.node h = some (.TypeApp applied type_args) → replace H df map fuel tt h = some r →
      ∃ new_type_args, r.2.node r.1 = some (.TypeApp applied new_type_args) ∧
        new_type_args.length = type_args.length := by
    intro map fuel h applied type_args r hn hr
    cases fuel with
    | zero => simp [replace] at hr
    | succ fuel =>
      rw [replace, hn] at hr
      simp only at hr
      cases ha : replaceArgs (replace H df map fuel) tt type_args with
      | none => simp [ha] at hr
      | some p =>
        obtain ⟨new_args, tt1⟩ := p
        simp only [ha, Option.some.injEq] at hr
        rw [← hr]
        exact ⟨new_args, insert_node H tt1 _, replaceArgs_length type_args tt _ ha⟩
  refine ⟨fun applied type_args => insert_node H tt _, hrep, ?_, ?_⟩
  · intro map fuel h applied type_args r hn hr hok
    obtain ⟨new_args, hnode, hlen⟩ := hrep map fuel h applied type_args r hn hr
    obtain ⟨params, hp, hpl⟩ := hok applied type_args hn
    intro applied1 args1 hn1
    rw [hnode] at hn1
    simp only [Option.some.injEq, TypeNode.TypeApp.injEq] at hn1
    obtain ⟨ha, hb⟩ := hn1
    subst ha; subst hb
    exact ⟨params, type_params_grows (replace_grows H df map fuel tt h r hr) hp,
      by rw [hpl, hlen]⟩
  · intro fuel applied type_args i params hp hne
    simp only [TypeApp.member_type, hp, hne, ↓reduceIte, ne_eq, not_false_eq_true]

/-- C24 as stated fails: `type_app` on the struct type of
`struct Pair<A, B>` with no type argument returns an application without
arguments of a type with two parameters, on which the assertion of
`member_type` fails. -/
theorem type_app_wrong_arity :
    (TypeTable.samplePair.type_app Fnv.sample 3 []).2.node
        (TypeTable.samplePair.type_app Fnv.sample 3 []).1 = some (.TypeApp 3 []) ∧
    UserType.type_params Ast.samplePair (TypeTable.samplePair.type_app Fnv.sample 3 []).2 3
      = some (some [⟨some 0⟩, ⟨some 1⟩]) ∧
    TypeApp.member_type Fnv.sample true 10 Ast.samplePair
      (TypeTable.samplePair.type_app Fnv.sample 3 []).2 3 [] 0 = none := by
  decide

theorem type_app_arity_witness :
    (TypeTable.samplePair.type_app Fnv.sample 3 [4, 5]).2.node
        (TypeTable.samplePair.type_app Fnv.sample 3 [4, 5]).1 = some (.TypeApp 3 [4, 5]) :=
  (type_app_arity Fnv.sample true Ast.samplePair TypeTable.samplePair).1 3 [4, 5]

/-- C25, as the code has it: a request for a type of a structural class
(primitive, tuple, array, pointer, function, no-return, type error, type
application) that is stored returns its handle and leaves the table as it
is; one that is not stored adds exactly one object; and a second request
for the no-return type or the error type returns the first handle without
changing the table. -/
theorem structural_request_once (H : Fnv) (tt : TypeTable) :
    (∀ t : TypeNode, t.isStructural = true → t ∈ tt.types_ →
      tt.insert H t = (tt.types_.indexOf t, tt)) ∧
    (∀ t : TypeNode, t.isStructural = true → t ∉ tt.types_ →
      tt.insert H t = (tt.types_.length, { tt with types_ := tt.types_ ++ [t] })) ∧
    (∀ t : TypeNode, t.isStructural = true →
      (tt.insert H t).2.insert H t = ((tt.insert H t).1, (tt.insert H t).2)) ∧
    (∀ later (t : TypeNode), t.isStructural = true → (tt.insert H t).2.GrowsTo later →
      later.insert H t = ((tt.insert H t).1, later)) ∧
    (tt.no_ret_type H).2.no_ret_type H = ((tt.no_ret_type H).1, (tt.no_ret_type H).2) ∧
    (tt.type_error H).2.type_error H = ((tt.type_error H).1, (tt.type_error H).2) := by
  refine ⟨?_, ?_, ?_, ?_, ?_, ?_⟩
  · intro t ht hm
    rw [insert_structural H tt ht, if_pos hm]
  · intro t ht hm
    rw [insert_structural H tt ht, if_neg hm]
  · intro t ht
    exact insert_stable H tt _ ht (l := []) (by simp)
  · intro later t ht hg
    obtain ⟨l, hl⟩ := hg
    exact insert_stable H tt later ht hl
  · unfold TypeTable.no_ret_type
    cases h : tt.no_ret_type_ with
    | none => simp
    | some v => simp [h]
  · unfold TypeTable.type_error
    cases h : tt.type_error_ with
    | none => simp
    | some v => simp [h]

theorem structural_request_once_witness :
    (TypeTable.empty.insert Fnv.sample (.PrimType 6)).2.insert Fnv.sample (.PrimType 6)
      = ((TypeTable.empty.insert Fnv.sample (.PrimType 6)).1,
          (TypeTable.empty.insert Fnv.sample (.PrimType 6)).2) :=
  (structural_request_once Fnv.sample TypeTable.empty).2.2.1 (.PrimType 6) rfl

/-- C25 as stated fails: the second request for the struct type of the
declaration at address 200 adds a second object to the table. -/
theorem struct_type_stored_twice :
    ((TypeTable.empty.struct_type Fnv.sample 200).2.struct_type Fnv.sample 200).2.types_
      = [.StructType 200, .StructType 200] ∧
    ((TypeTable.empty.struct_type Fnv.sample 200).2.struct_type Fnv.sample 200).2
      ≠ (TypeTable.empty.struct_type Fnv.sample 200).2 := by
  decide

/-! ## Properties of the unifier and the generalizer -/

theorem contains_self (tt : TypeTable) (fuel : Nat) (h : Handle) (n : TypeNode)
    (hn : tt.node h = some n) : contains tt (fuel + 1) h h = some true := by
  rw [contains, hn]
  cases n <;> simp

theorem containsAny_total (con : Handle → Option Bool) :
    ∀ args : List Handle, (∀ a ∈ args, ∃ b, con a = some b) →
      ∃ b, containsAny con args = some b := by
  intro args
  induction args with
  | nil => intro _; exact ⟨false, rfl⟩
  | cons a rest ih =>
    intro h
    obtain ⟨b, hb⟩ := h a (List.mem_cons_self _ _)
    cases b with
    | true => exact ⟨true, by simp [containsAny, hb]⟩
    | false =>
      obtain ⟨c, hc⟩ := ih (fun x hx => h x (List.mem_cons_of_mem _ hx))
      exact ⟨c, by simp [containsAny, hb, hc]⟩

theorem containsAny_mem (con : Handle → Option Bool) :
    ∀ args : List Handle, (∀ a ∈ args, ∃ b, con a = some b) →
      ∀ v ∈ args, con v = some true → containsAny con args = some true := by
  intro args
  induction args with
  | nil => intro _ v hv; simp at hv
  | cons a rest ih =>
    intro h v hv hc
    obtain ⟨b, hb⟩ := h a (List.mem_cons_self _ _)
    cases b with
    | true => simp [containsAny, hb]
    | false =>
      have hva : v ≠ a := by
        intro heq
        rw [heq, hb] at hc
        cases hc
      have hvr : v ∈ rest := by
        rcases List.mem_cons.1 hv with h1 | h1
        · exact absurd h1 hva
        · exact h1
      simp only [containsAny, hb]
      exact ih (fun x hx => h x (List.mem_cons_of_mem _ hx)) v hvr hc

/-- In a closed table `contains` returns a result on every stored object
once the fuel exceeds the handle. -/
theorem contains_total (tt : TypeTable) (hC : tt.Closed) (type : Handle) :
    ∀ (fuel : Nat) (h : Nat), h < fuel → h < tt.types_.length →
      ∃ b, contains tt fuel h type = some b := by
  intro fuel
  induction fuel with
  | zero => intro h hf _; omega
  | succ fuel ih =>
    intro h hf hl
    have hsome : ∃ n, tt.node h = some n := by
      simp only [TypeTable.node]
      exact ⟨tt.types_[h], List.getElem?_eq_getElem hl⟩
    obtain ⟨n, hn⟩ := hsome
    have hchild : ∀ c ∈ n.children, ∃ b, contains tt fuel c type = some b := by
      intro c hc
      have hlt : c < h := hC h n hn c hc
      exact ih c (Nat.lt_of_lt_of_le hlt (Nat.lt_succ_iff.1 hf)) (Nat.lt_trans hlt hl)
    rw [contains, hn]
    cases n with
    | TupleType args =>
      simp only
      by_cases ht : type = h
      · exact ⟨true, by rw [if_pos ht]⟩
      · rw [if_neg ht]
        exact containsAny_total _ args (fun a ha => hchild a ha)
    | SizedArrayType elem size =>
      simp only
      by_cases ht : type = h
      · exact ⟨true, by rw [if_pos ht]⟩
      · rw [if_neg ht]
        exact hchild elem (by simp [TypeNode.children])
    | UnsizedArrayType elem =>
      simp only
      by_cases ht : type = h
      · exact ⟨true, by rw [if_pos ht]⟩
      · rw [if_neg ht]
        exact hchild elem (by simp [TypeNode.children])
    | PtrType pointee =>
      simp only
      by_cases ht : type = h
      · exact ⟨true, by rw [if_pos ht]⟩
      · rw [if_neg ht]
        exact hchild pointee (by simp [TypeNode.children])
    | FnType dom codom =>
      simp only
      by_cases ht : type = h
      · exact ⟨true, by rw [if_pos ht]⟩
      · rw [if_neg ht]
        obtain ⟨b, hb⟩ := hchild dom (by simp [TypeNode.children])
        obtain ⟨c, hc⟩ := hchild codom (by simp [TypeNode.children])
        rw [hb]
        cases b with
        | true => exact ⟨true, rfl⟩
        | false => exact ⟨c, hc⟩
    | TypeApp applied type_args =>
      simp only
      by_cases ht : type = h
      · exact ⟨true, by rw [if_pos ht]⟩
      · rw [if_neg ht]
        obtain ⟨b, hb⟩ := hchild applied (by simp [TypeNode.children])
        rw [hb]
        cases b with
        | true => exact ⟨true, rfl⟩
        | false =>
          exact containsAny_total _ type_args
            (fun a ha => hchild a (by simp [TypeNode.children, ha]))
    | PrimType tag => exact ⟨_, rfl⟩
    | NoRetType => exact ⟨_, rfl⟩
    | TypeError => exact ⟨_, rfl⟩
    | TypeVar param => exact ⟨_, rfl⟩
    | ForallType decl => exact ⟨_, rfl⟩
    | StructType decl => exact ⟨_, rfl⟩
    | EnumType decl => exact ⟨_, rfl⟩

theorem type_error_grows (H : Fnv) (tt : TypeTable) : tt.GrowsTo (tt.type_error H).2 := by
  unfold TypeTable.type_error
  cases h : tt.type_error_ with
  | none =>
    obtain ⟨l, hl⟩ := growsTo_insert H tt .TypeError
    exact ⟨l, by simpa using hl⟩
  | some v => exact growsTo_refl tt

namespace Engine

theorem find_unbound (fuel : Nat) (e : Engine) (v : Handle) (hv : e.isUnbound v = true) :
    find (fuel + 1) e v = some (v, e) := by
  simp only [isUnbound, isVar, Bool.and_eq_true, Option.isNone_iff_eq_none] at hv
  obtain ⟨h1, h2⟩ := hv
  rw [find]
  cases hn : e.table.node v with
  | none => simp [hn] at h1
  | some n =>
    cases n <;> simp_all

theorem find_other (fuel : Nat) (e : Engine) (t : Handle) (n : TypeNode)
    (hn : e.table.node t = some n) (hv : e.isVar t = false) :
    find (fuel + 1) e t = some (t, e) := by
  rw [find, hn]
  cases n <;> simp_all [isVar]

end Engine


theorem type_error_node (H : Fnv) (tt : TypeTable)
    (hE : ∀ h, tt.type_error_ = some h → tt.node h = some .TypeError) :
    (tt.type_error H).2.node (tt.type_error H).1 = some .TypeError := by
  unfold TypeTable.type_error
  cases h : tt.type_error_ with
  | none =>
    have := insert_node H tt .TypeError
    simpa [TypeTable.node] using this
  | some v => exact hE v h

/-- C26: unifying an unbound variable `v` with a tuple type that contains
it returns a result: the occurs check has an answer, which is yes when
`v` is a component of the tuple, and then `unify`, in either order of its
arguments, reports one infinite type, binds `v` to the error type and
returns the error type, to which `find` resolves `v` from then on. -/
theorem unify_occurs_check (H : Fnv) (loc : Loc) (e : Engine) (v t : Handle)
    (args : List Handle) (fuel : Nat) (hC : e.table.Closed)
    (hE : ∀ h, e.table.type_error_ = some h → e.table.node h = some .TypeError)
    (hv : e.isUnbound v = true) (hn : e.table.node t = some (.TupleType args))
    (hf : t < fuel) :
    (∃ b, contains e.table fuel t v = some b) ∧
    (v ∈ args → contains e.table fuel t v = some true) ∧
    (contains e.table fuel t v = some true →
      ∃ r, Engine.unify H loc (fuel + 1) e v t = some r ∧
        Engine.unify H loc (fuel + 1) e t v = some r ∧
        r.2.table.node r.1 = some .TypeError ∧
        r.2.errors = e.errors ++ [(loc, .infinite_type v t)] ∧
        r.2.binding v = some r.1 ∧
        ∀ k, ∃ e1, Engine.find (k + 2) r.2 v = some (r.1, e1) ∧ e1.table = r.2.table ∧
          e1.errors = r.2.errors ∧ e1.binding v = some r.1) := by
  have htl : t < e.table.types_.length := node_lt hn
  obtain ⟨k, rfl⟩ : ∃ k, fuel = k + 1 :=
    Nat.exists_eq_succ_of_ne_zero (fun h0 => Nat.not_lt_zero t (h0 ▸ hf))
  have hvar : e.isVar v = true := by
    simp only [Engine.isUnbound, Bool.and_eq_true] at hv
    exact hv.1
  obtain ⟨p, hp⟩ : ∃ p, e.table.node v = some (.TypeVar p) := by
    simp only [Engine.isVar] at hvar
    cases hnv : e.table.node v with
    | none => simp [hnv] at hvar
    | some n => cases n <;> simp_all
  refine ⟨contains_total e.table hC v (k + 1) t hf htl, ?_, ?_⟩
  · intro hmem
    have hchild : ∀ (c : Nat), c ∈ args → c < t := fun c hc => hC t _ hn c hc
    rw [contains, hn]
    simp only
    by_cases hvt : v = t
    · rw [if_pos hvt]
    · rw [if_neg hvt]
      have hvk : v < k := Nat.lt_of_lt_of_le (hchild v hmem) (Nat.lt_succ_iff.1 hf)
      obtain ⟨j, rfl⟩ : ∃ j, k = j + 1 :=
        Nat.exists_eq_succ_of_ne_zero (fun h0 => Nat.not_lt_zero v (h0 ▸ hvk))
      refine containsAny_mem _ args ?_ v hmem (contains_self e.table j v _ hp)
      intro a ha
      exact contains_total e.table hC v (j + 1) a
        (Nat.lt_of_lt_of_le (hchild a ha) (Nat.lt_succ_iff.1 hf))
        (Nat.lt_trans (hchild a ha) htl)
  · intro hc
    have htv : e.isVar t = false := by simp [Engine.isVar, hn]
    have hfv : Engine.find (k + 1) e v = some (v, e) := Engine.find_unbound k e v hv
    have hft : Engine.find (k + 1) e t = some (t, e) := Engine.find_other k e t _ hn htv
    have hev : e.isError v = false := by simp [Engine.isError, hp]
    have het : e.isError t = false := by simp [Engine.isError, hn]
    have hut : e.isUnbound t = false := by simp [Engine.isUnbound, htv]
    have hg := type_error_grows H e.table
    refine ⟨((e.type_error H).1,
      { (e.type_error H).2.bind v (e.type_error H).1 with
        errors := (e.type_error H).2.errors ++ [(loc, .infinite_type v t)] }), ?_, ?_,
      type_error_node H e.table hE, rfl, ?_, ?_⟩
    · rw [Engine.unify]
      simp only [hfv, hft, hev, het, hv, Bool.or_self, Bool.false_eq_true, ↓reduceIte,
        Engine.bind_var, hc]
    · rw [Engine.unify]
      simp only [hfv, hft, hev, het, hv, hut, Bool.or_self, Bool.false_eq_true, ↓reduceIte,
        Engine.bind_var, hc]
    · simp [Engine.bind]
    · intro j
      have hnv : (e.table.type_error H).2.node v = some (.TypeVar p) := growsTo_node hg hp
      refine ⟨({ (e.type_error H).2.bind v (e.type_error H).1 with
        errors := (e.type_error H).2.errors ++ [(loc, .infinite_type v t)] } : Engine).bind v
          (e.type_error H).1, ?_, rfl, rfl, ?_⟩
      · rw [Engine.find]
        simp only [Engine.type_error, Engine.bind, hnv, ↓reduceIte]
        rw [Engine.find]
        simp only [type_error_node H e.table hE]
      · simp [Engine.bind]

theorem closed_sampleOccurs : TypeTable.sampleOccurs.Closed :=
  closed_insert _ (closed_insert _ (closed_insert _ (closed_insert _ closed_empty _
    (by decide)) _ (by decide)) _ (by decide)) _ (by decide)

theorem unify_occurs_check_witness :
    (Engine.unify Fnv.sample ⟨1, 2⟩ 4 Engine.sampleOccurs 0 2).map
        (fun r => (r.1, r.2.table.node r.1, r.2.errors, r.2.binding 0))
      = some (4, some .TypeError, [(⟨1, 2⟩, .infinite_type 0 2)], some 4) ∧
    contains TypeTable.sampleOccurs 3 2 0 = some true :=
  ⟨by decide,
    (unify_occurs_check Fnv.sample ⟨1, 2⟩ Engine.sampleOccurs 0 2 [0, 1] 3 closed_sampleOccurs
      (by decide) (by decide) (by decide) (by decide)).2.1 (by decide)⟩

namespace Engine

theorem isUnbound_node (e : Engine) (v : Handle) (hv : e.isUnbound v = true) :
    (∃ p, e.table.node v = some (.TypeVar p)) ∧ e.binding v = none := by
  simp only [isUnbound, isVar, Bool.and_eq_true, Option.isNone_iff_eq_none] at hv
  obtain ⟨h1, h2⟩ := hv
  refine ⟨?_, h2⟩
  cases hn : e.table.node v with
  | none => simp [hn] at h1
  | some n => cases n <;> simp_all

/-- Unifying two different unbound variables binds the first to the
second, which takes the lower of the two ranks. -/
theorem unify_vars (H : Fnv) (loc : Loc) (k : Nat) (e : Engine) (x y : Handle)
    (hx : e.isUnbound x = true) (hy : e.isUnbound y = true) (hxy : x ≠ y) :
    unify H loc (k + 2) e x y
      = some (y, { e.bind x y with
          rank := fun h => if h = y then min (e.rank x) (e.rank y) else e.rank h }) := by
  obtain ⟨⟨p, hp⟩, _⟩ := isUnbound_node e x hx
  obtain ⟨⟨q, hq⟩, _⟩ := isUnbound_node e y hy
  have hex : e.isError x = false := by simp [isError, hp]
  have hey : e.isError y = false := by simp [isError, hq]
  have hc : contains e.table (k + 1) y x = some false := by
    rw [contains, hq]
    simp [hxy]
  rw [unify]
  simp only [find_unbound k e x hx, find_unbound k e y hy, hex, hey, hx, hy, Bool.or_self,
    Bool.false_eq_true, ↓reduceIte, bind_var, hc]

theorem collected_refl (e : Engine) (acc : List Handle) : Collected e acc acc :=
  ⟨fun _ hv => Or.inl hv, fun h => h⟩

theorem collected_trans (e : Engine) {a b c : List Handle} (h1 : Collected e a b)
    (h2 : Collected e b c) : Collected e a c := by
  refine ⟨fun v hv => ?_, fun h => h2.2 (h1.2 h)⟩
  rcases h2.1 v hv with hb | hp
  · exact h1.1 v hb
  · exact Or.inr hp

theorem collectArgs_collected (e : Engine)
    {col : List Handle → Handle → Option (List Handle)}
    (hcol : ∀ acc a r, col acc a = some r → Collected e acc r) :
    ∀ (args acc : List Handle) (r : List Handle),
      collectArgs col acc args = some r → Collected e acc r := by
  intro args
  induction args with
  | nil =>
    intro acc r hr
    simp only [collectArgs, Option.some.injEq] at hr
    rw [← hr]
    exact collected_refl e acc
  | cons a rest ih =>
    intro acc r hr
    simp only [collectArgs] at hr
    cases ha : col acc a with
    | none => simp [ha] at hr
    | some acc1 =>
      simp only [ha] at hr
      exact collected_trans e (hcol acc a acc1 ha) (ih acc1 r hr)

theorem collect_collected (e : Engine) :
    ∀ (fuel : Nat) (acc : List Handle) (t : Handle) (r : List Handle),
      collect e fuel acc t = some r → Collected e acc r := by
  intro fuel
  induction fuel with
  | zero => intro acc t r hr; simp [collect] at hr
  | succ fuel ih =>
    intro acc t r hr
    rw [collect] at hr
    cases hn : e.table.node t with
    | none => simp [hn] at hr
    | some n =>
      have hargs : ∀ n1 : TypeNode, collectArgs (collect e fuel) acc n1.children = some r →
          Collected e acc r :=
        fun n1 h => collectArgs_collected e (fun a b c h1 => ih a b c h1) _ acc r h
      cases n with
      | TypeVar p =>
        simp only [hn] at hr
        cases hb : e.binding t with
        | some b =>
          simp only [hb] at hr
          exact ih acc b r hr
        | none =>
          simp only [hb] at hr
          by_cases hc : e.rank_ < e.rank t ∧ t ∉ acc
          · rw [if_pos hc, Option.some.injEq] at hr
            rw [← hr]
            have hu : e.isUnbound t = true := by simp [isUnbound, isVar, hn, hb]
            refine ⟨fun v hv => ?_, fun hnd => ?_⟩
            · rcases List.mem_append.1 hv with h1 | h1
              · exact Or.inl h1
              · simp only [List.mem_singleton] at h1
                rw [h1]
                exact Or.inr ⟨hu, hc.1⟩
            · rw [List.nodup_append]
              refine ⟨hnd, List.nodup_singleton t, ?_⟩
              intro a ha hb1
              simp only [List.mem_singleton] at hb1
              exact hc.2 (hb1 ▸ ha)
          · rw [if_neg hc, Option.some.injEq] at hr
            rw [← hr]
            exact collected_refl e acc
      | PrimType tag => simp only [hn] at hr; exact hargs _ hr
      | TupleType args => simp only [hn] at hr; exact hargs _ hr
      | SizedArrayType elem size => simp only [hn] at hr; exact hargs _ hr
      | UnsizedArrayType elem => simp only [hn] at hr; exact hargs _ hr
      | PtrType pointee => simp only [hn] at hr; exact hargs _ hr
      | FnType dom codom => simp only [hn] at hr; exact hargs _ hr
      | NoRetType => simp only [hn] at hr; exact hargs _ hr
      | TypeError => simp only [hn] at hr; exact hargs _ hr
      | ForallType decl => simp only [hn] at hr; exact hargs _ hr
      | StructType decl => simp only [hn] at hr; exact hargs _ hr
      | EnumType decl => simp only [hn] at hr; exact hargs _ hr
      | TypeApp applied type_args => simp only [hn] at hr; exact hargs _ hr

/-- What `generalize` quantifies over: unbound variables whose rank is
above the current rank, each of them once. -/
theorem generalize_vars (e : Engine) (fuel : Nat) (t : Handle) (poly : PolyType)
    (h : generalize e fuel t = some poly) :
    poly.body = t ∧ poly.vars.Nodup ∧
    ∀ v ∈ poly.vars, e.isUnbound v = true ∧ e.rank_ < e.rank v := by
  unfold generalize at h
  cases hc : collect e fuel [] t with
  | none => simp [hc] at h
  | some vars =>
    simp only [hc, Option.some.injEq] at h
    rw [← h]
    have hcol := collect_collected e fuel [] t vars hc
    refine ⟨rfl, hcol.2 List.nodup_nil, fun v hv => ?_⟩
    rcases hcol.1 v hv with h1 | h1
    · simp at h1
    · exact h1

end Engine

/-- C27: unifying an unbound variable of rank `r + 1` with a different
unbound variable of rank `r`, in either order, leaves one of the two
unbound, with rank `r`, and binds the other to it, so that `find`
resolves both to a variable of rank `r`; `generalize` at rank `r + 1`
then quantifies over neither. -/
theorem unify_rank (H : Fnv) (loc : Loc) (e : Engine) (a b : Handle) (r k : Nat)
    (ha : e.isUnbound a = true) (hb : e.isUnbound b = true) (hab : a ≠ b)
    (hra : e.rank a = r + 1) (hrb : e.rank b = r) :
    (∃ e1, Engine.unify H loc (k + 2) e a b = some (b, e1) ∧
      e1.isUnbound b = true ∧ e1.rank b = r ∧ e1.binding a = some b ∧
      Engine.find (k + 1) e1 b = some (b, e1) ∧
      (∃ e2, Engine.find (k + 2) e1 a = some (b, e2) ∧ e2.rank b = r) ∧
      ∀ fuel t poly, Engine.generalize { e1 with rank_ := r + 1 } fuel t = some poly →
        a ∉ poly.vars ∧ b ∉ poly.vars) ∧
    (∃ e1, Engine.unify H loc (k + 2) e b a = some (a, e1) ∧
      e1.isUnbound a = true ∧ e1.rank a = r ∧ e1.binding b = some a ∧
      Engine.find (k + 1) e1 a = some (a, e1) ∧
      (∃ e2, Engine.find (k + 2) e1 b = some (a, e2) ∧ e2.rank a = r) ∧
      ∀ fuel t poly, Engine.generalize { e1 with rank_ := r + 1 } fuel t = some poly →
        a ∉ poly.vars ∧ b ∉ poly.vars) := by
  have key : ∀ (x y : Handle), e.isUnbound x = true → e.isUnbound y = true → x ≠ y →
      min (e.rank x) (e.rank y) = r →
      ∃ e1, Engine.unify H loc (k + 2) e x y = some (y, e1) ∧
        e1.isUnbound y = true ∧ e1.rank y = r ∧ e1.binding x = some y ∧
        Engine.find (k + 1) e1 y = some (y, e1) ∧
        (∃ e2, Engine.find (k + 2) e1 x = some (y, e2) ∧ e2.rank y = r) ∧
        ∀ fuel t poly, Engine.generalize { e1 with rank_ := r + 1 } fuel t = some poly →
          x ∉ poly.vars ∧ y ∉ poly.vars := by
    intro x y hx hy hxy hmin
    obtain ⟨⟨p, hp⟩, hbx⟩ := Engine.isUnbound_node e x hx
    obtain ⟨⟨q, hq⟩, hby⟩ := Engine.isUnbound_node e y hy
    have hyx : y ≠ x := fun h => hxy h.symm
    refine ⟨_, Engine.unify_vars H loc k e x y hx hy hxy, ?_, ?_, ?_, ?_, ?_, ?_⟩
    · simp [Engine.isUnbound, Engine.isVar, Engine.bind, hq, hyx, hby]
    · simp [hmin]
    · simp [Engine.bind]
    · apply Engine.find_unbound
      simp [Engine.isUnbound, Engine.isVar, Engine.bind, hq, hyx, hby]
    · refine ⟨({ e.bind x y with
        rank := fun h => if h = y then min (e.rank x) (e.rank y) else e.rank h } : Engine).bind
          x y, ?_, ?_⟩
      · rw [Engine.find]
        simp only [Engine.bind, hp, ↓reduceIte]
        rw [Engine.find]
        simp only [hq, hyx, ↓reduceIte, hby]
      · simp [Engine.bind, hmin]
    · intro fuel t poly hg
      obtain ⟨_, _, hvars⟩ := Engine.generalize_vars _ fuel t poly hg
      constructor
      · intro hmem
        have := (hvars x hmem).1
        simp [Engine.isUnbound, Engine.bind] at this
      · intro hmem
        have := (hvars y hmem).2
        simp [hmin] at this
  exact ⟨key a b ha hb hab (by rw [hra, hrb]; simp),
    (key b a hb ha (fun h => hab h.symm) (by rw [hra, hrb]; simp)).imp
      (fun e1 h => ⟨h.1, h.2.1, h.2.2.1, h.2.2.2.1, h.2.2.2.2.1, h.2.2.2.2.2.1,
        fun fuel t poly hg => (h.2.2.2.2.2.2 fuel t poly hg).symm⟩)⟩

theorem unify_rank_witness :
    (Engine.unify Fnv.sample ⟨1, 2⟩ 2 Engine.sampleOccurs 0 3).map
        (fun r => (r.1, r.2.rank 3, r.2.binding 0, r.2.binding 3))
      = some (3, 1, some 3, none) ∧
    ∃ e1, Engine.unify Fnv.sample ⟨1, 2⟩ 2 Engine.sampleOccurs 0 3 = some (3, e1) ∧
      e1.rank 3 = 1 :=
  ⟨by decide,
    (unify_rank Fnv.sample ⟨1, 2⟩ Engine.sampleOccurs 0 3 1 0 (by decide) (by decide)
      (by decide) (by decide) (by decide)).1.imp (fun e1 h => ⟨h.1, h.2.2.1⟩)⟩

namespace Engine

end Engine

namespace Engine

end Engine

/-- An engine that starts on a closed table has acyclic bindings. -/
theorem acyclic_start (tt : TypeTable) (hC : tt.Closed) :
    (Engine.start tt).Acyclic (fun h => h) :=
  ⟨hC, fun _ _ _ hb => by simp [Engine.start] at hb⟩

/-- C31, as the code has it: two sized arrays of one element and of
different sizes have no join, in either order; `join_types` only returns
one of its operands, and the unsized array is returned only when it is
one of them. -/
theorem join_types_sized_sized (tt : TypeTable) (a b e n m : Nat)
    (ha : tt.node a = some (.SizedArrayType e n)) (hb : tt.node b = some (.SizedArrayType e m))
    (hnm : n ≠ m) :
    join_types tt a b = none ∧ join_types tt b a = none ∧
    (∀ (c d r : Handle), join_types tt c d = some r → r = c ∨ r = d) := by
  have hne : a ≠ b := by
    intro h
    rw [h, hb] at ha
    simp only [Option.some.injEq, TypeNode.SizedArrayType.injEq] at ha
    exact hnm ha.2.symm
  have hne2 : b ≠ a := fun h => hne h.symm
  refine ⟨?_, ?_, ?_⟩
  · simp [join_types, hne, isNoRet, isaSizedArray, isaUnsizedArray, sameElem, ha, hb]
  · simp [join_types, hne2, isNoRet, isaSizedArray, isaUnsizedArray, sameElem, ha, hb]
  · intro c d r hr
    unfold join_types at hr
    split_ifs at hr <;> simp_all

theorem join_types_sized_sized_witness :
    join_types (TypeTable.insertAll Fnv.sample TypeTable.empty
      [.PrimType 0, .SizedArrayType 0 2, .SizedArrayType 0 3, .UnsizedArrayType 0]) 1 2 = none :=
  (join_types_sized_sized _ 1 2 0 2 3 (by decide) (by decide) (by decide)).1

/-- C31 as stated fails: in the table of `bool`, `[bool * 2]`,
`[bool * 3]` and `[bool]` the join of the two sized arrays is not the
unsized array, which is stored at handle 3: there is none. -/
theorem join_types_sized_not_erased :
    (TypeTable.insertAll Fnv.sample TypeTable.empty
      [.PrimType 0, .SizedArrayType 0 2, .SizedArrayType 0 3, .UnsizedArrayType 0]).node 3
      = some (.UnsizedArrayType 0) ∧
    join_types (TypeTable.insertAll Fnv.sample TypeTable.empty
      [.PrimType 0, .SizedArrayType 0 2, .SizedArrayType 0 3, .UnsizedArrayType 0]) 1 2
      ≠ some 3 := by
  decide

theorem sameElem_symm (x y : Option Handle) : sameElem x y = sameElem y x := by
  cases x <;> cases y <;> simp [sameElem]
  exact eq_comm

theorem isNoRet_unique (tt : TypeTable) (hI : tt.Interned) (a b : Handle)
    (ha : isNoRet tt a = true) (hb : isNoRet tt b = true) : a = b := by
  have h1 : tt.node a = some .NoRetType := by
    unfold isNoRet at ha
    cases hn : tt.node a with
    | none => simp [hn] at ha
    | some n => cases n <;> simp_all
  have h2 : tt.node b = some .NoRetType := by
    unfold isNoRet at hb
    cases hn : tt.node b with
    | none => simp [hn] at hb
    | some n => cases n <;> simp_all
  rw [← hI a _ h1 rfl, ← hI b _ h2 rfl]

theorem sized_not_unsized (tt : TypeTable) (a : Handle) :
    (isaSizedArray tt a).isSome = true → isaUnsizedArray tt a = none := by
  unfold isaSizedArray isaUnsizedArray
  cases tt.node a with
  | none => simp
  | some n => cases n <;> simp

theorem sameElem_some (x y : Option Handle) (h : sameElem x y = true) :
    x.isSome = true ∧ y.isSome = true := by
  cases x <;> cases y <;> simp_all [sameElem]

theorem sameElem_none_left (y : Option Handle) : sameElem none y = false := by
  cases y <;> rfl

/-- C33: in an interned table `join_types` gives the same answer for the
two orders of its operands: no join for both, or the same handle. -/
theorem join_types_comm (tt : TypeTable) (hI : tt.Interned) (a b : Handle) :
    join_types tt a b = join_types tt b a := by
  by_cases hab : a = b
  · rw [hab]
  have hba : ¬ b = a := fun h => hab h.symm
  unfold join_types
  rw [if_neg hab, if_neg hba]
  by_cases h1 : isNoRet tt a = true
  · have h2 : ¬ isNoRet tt b = true := fun h => hab (isNoRet_unique tt hI a b h1 h)
    rw [if_pos h1, if_neg h2, if_pos h1]
  rw [if_neg h1]
  by_cases h2 : isNoRet tt b = true
  · rw [if_pos h2, if_pos h2]
  rw [if_neg h2, if_neg h2, if_neg h1]
  by_cases h3 : sameElem (isaSizedArray tt a) (isaUnsizedArray tt b) = true
  · have h4 : ¬ sameElem (isaSizedArray tt b) (isaUnsizedArray tt a) = true := by
      intro h
      have := sized_not_unsized tt a (sameElem_some _ _ h3).1
      rw [this] at h
      cases hx : isaSizedArray tt b <;> simp [hx, sameElem] at h
    have h5 : sameElem (isaUnsizedArray tt b) (isaSizedArray tt a) = true := by
      rw [sameElem_symm]; exact h3
    rw [if_pos h3, if_neg h4, if_pos h5]
  rw [if_neg h3]
  by_cases h4 : sameElem (isaUnsizedArray tt a) (isaSizedArray tt b) = true
  · have h5 : sameElem (isaSizedArray tt b) (isaUnsizedArray tt a) = true := by
      rw [sameElem_symm]; exact h4
    rw [if_pos h4, if_pos h5]
  · have h5 : ¬ sameElem (isaSizedArray tt b) (isaUnsizedArray tt a) = true := by
      rw [sameElem_symm]; exact h4
    have h6 : ¬ sameElem (isaUnsizedArray tt b) (isaSizedArray tt a) = true := by
      rw [sameElem_symm]; exact h3
    rw [if_neg h4, if_neg h5, if_neg h6]

theorem join_types_comm_witness :
    join_types (TypeTable.insertAll Fnv.sample TypeTable.empty
        [.PrimType 0, .SizedArrayType 0 2, .UnsizedArrayType 0, .NoRetType]) 1 2
      = join_types (TypeTable.insertAll Fnv.sample TypeTable.empty
        [.PrimType 0, .SizedArrayType 0 2, .UnsizedArrayType 0, .NoRetType]) 2 1 ∧
    join_types (TypeTable.insertAll Fnv.sample TypeTable.empty
        [.PrimType 0, .SizedArrayType 0 2, .UnsizedArrayType 0, .NoRetType]) 1 2 = some 2 :=
  ⟨join_types_comm _ (interned_insertAll _ interned_empty _) 1 2, by decide⟩

/-- C34: a join of `a` and `b` is one of the two, and joining it with
either of them gives it again; every type is its own join with itself. -/
theorem join_types_upper_bound (tt : TypeTable) (a b c : Handle)
    (h : join_types tt a b = some c) :
    (c = a ∨ c = b) ∧ join_types tt a c = some c ∧ join_types tt b c = some c ∧
    (∀ x, join_types tt x x = some x) := by
  have hself : ∀ x, join_types tt x x = some x := fun x => by simp [join_types]
  have h0 := h
  unfold join_types at h
  by_cases hab : a = b
  · rw [if_pos hab, Option.some.injEq] at h
    subst h
    subst hab
    exact ⟨Or.inl rfl, hself _, hself _, hself⟩
  have hba : ¬ b = a := fun e => hab e.symm
  rw [if_neg hab] at h
  by_cases h1 : isNoRet tt a = true
  · rw [if_pos h1, Option.some.injEq] at h
    subst h
    exact ⟨Or.inr rfl, h0, hself _, hself⟩
  rw [if_neg h1] at h
  by_cases h2 : isNoRet tt b = true
  · rw [if_pos h2, Option.some.injEq] at h
    subst h
    refine ⟨Or.inl rfl, hself _, ?_, hself⟩
    unfold join_types
    rw [if_neg hba, if_pos h2]
  rw [if_neg h2] at h
  by_cases h3 : sameElem (isaSizedArray tt a) (isaUnsizedArray tt b) = true
  · rw [if_pos h3, Option.some.injEq] at h
    subst h
    exact ⟨Or.inr rfl, h0, hself _, hself⟩
  rw [if_neg h3] at h
  by_cases h4 : sameElem (isaUnsizedArray tt a) (isaSizedArray tt b) = true
  · rw [if_pos h4, Option.some.injEq] at h
    subst h
    refine ⟨Or.inl rfl, hself _, ?_, hself⟩
    have h5 : sameElem (isaSizedArray tt b) (isaUnsizedArray tt a) = true := by
      rw [sameElem_symm]; exact h4
    unfold join_types
    rw [if_neg hba, if_neg h2, if_neg h1, if_pos h5]
  · rw [if_neg h4] at h
    cases h

theorem join_types_upper_bound_witness :
    join_types (TypeTable.insertAll Fnv.sample TypeTable.empty
        [.PrimType 0, .SizedArrayType 0 2, .UnsizedArrayType 0, .NoRetType]) 1 2 = some 2 ∧
    join_types (TypeTable.insertAll Fnv.sample TypeTable.empty
        [.PrimType 0, .SizedArrayType 0 2, .UnsizedArrayType 0, .NoRetType]) 2 2 = some 2 :=
  ⟨(join_types_upper_bound _ 1 2 2 (by decide)).2.1,
    (join_types_upper_bound _ 1 2 2 (by decide)).2.2.1⟩

/-- C35: for two objects, of which those at one address are one object,
`equals` implies equal hashes; `equals` is reflexive, symmetric and
transitive; and on a type application `equals` and `hash` read the
applied type and the type arguments only. -/
theorem equals_hash_consistent (H : Fnv) :
    (∀ (a : Handle) (na : TypeNode) (b : Handle) (nb : TypeNode), (a = b → na = nb) →
      na.equals a b nb = true → na.hash H = nb.hash H) ∧
    (∀ (a : Handle) (na : TypeNode), na.equals a a na = true) ∧
    (∀ (a : Handle) (na : TypeNode) (b : Handle) (nb : TypeNode), (a = b → na = nb) →
      na.equals a b nb = true → nb.equals b a na = true) ∧
    (∀ (a : Handle) (na : TypeNode) (b : Handle) (nb : TypeNode) (c : Handle) (nc : TypeNode),
      (a = b → na = nb) → (b = c → nb = nc) →
      na.equals a b nb = true → nb.equals b c nc = true → na.equals a c nc = true) ∧
    (∀ (applied : Handle) (type_args : List Handle) (self other : Handle) (o : TypeNode),
      ((TypeNode.TypeApp applied type_args).equals self other o = true
        ↔ o = .TypeApp applied type_args)) ∧
    (∀ (applied : Handle) (type_args : List Handle),
      (TypeNode.TypeApp applied type_args).hash H
        = type_args.foldl H.combine
            (H.combine (H.combine H.offset (H.hash_code .TypeApp)) applied)) := by
  have hobj : ∀ (a : Handle) (na : TypeNode) (b : Handle) (nb : TypeNode), (a = b → na = nb) →
      na.equals a b nb = true → nb = na := by
    intro a na b nb hsame he
    cases hs : na.isStructural with
    | true => exact (equals_structural hs a b nb).1 he
    | false =>
      rw [equals_identity hs] at he
      have hba : b = a := by simpa using he
      exact (hsame hba.symm).symm
  have hrefl : ∀ (a : Handle) (na : TypeNode), na.equals a a na = true := by
    intro a na
    cases hs : na.isStructural with
    | true => exact (equals_structural hs a a na).2 rfl
    | false => rw [equals_identity hs]; simp
  have hsymm : ∀ (a : Handle) (na : TypeNode) (b : Handle) (nb : TypeNode), (a = b → na = nb) →
      na.equals a b nb = true → nb.equals b a na = true := by
    intro a na b nb hsame he
    have hn := hobj a na b nb hsame he
    subst hn
    cases hs : nb.isStructural with
    | true => exact (equals_structural hs b a nb).2 rfl
    | false =>
      rw [equals_identity hs] at he ⊢
      have hba : b = a := by simpa using he
      rw [hba]
      simp
  refine ⟨?_, hrefl, hsymm, ?_, ?_, fun _ _ => rfl⟩
  · intro a na b nb hsame he
    rw [hobj a na b nb hsame he]
  · intro a na b nb c nc hab hbc h1 h2
    have e1 := hobj a na b nb hab h1
    have e2 := hobj b nb c nc hbc h2
    subst e1; subst e2
    cases hs : nc.isStructural with
    | true => exact (equals_structural hs a c nc).2 rfl
    | false =>
      rw [equals_identity hs] at h1 h2 ⊢
      simp only [beq_iff_eq] at h1 h2 ⊢
      rw [h2, h1]
  · intro applied type_args self other o
    exact equals_structural (t := .TypeApp applied type_args) rfl self other o

theorem equals_hash_consistent_witness :
    (TypeNode.TupleType [0, 1]).hash Fnv.sample = (TypeNode.TupleType [0, 1]).hash Fnv.sample ∧
    (TypeNode.TypeVar 100).equals 3 3 (.TypeVar 100) = true ∧
    (TypeNode.TypeVar 100).equals 3 4 (.TypeVar 100) = false :=
  ⟨(equals_hash_consistent Fnv.sample).1 2 (.TupleType [0, 1]) 5 (.TupleType [0, 1])
      (fun _ => rfl) (by decide),
    (equals_hash_consistent Fnv.sample).2.1 3 (.TypeVar 100), by decide⟩

/-! ## Properties of the predicate contains and substitutions without effect -/

theorem closed_sampleNested : TypeTable.sampleNested.Closed :=
  closed_insert _ (closed_insert _ (closed_insert _ (closed_insert _ (closed_insert _
    closed_empty _ (by decide)) _ (by decide)) _ (by decide)) _ (by decide)) _ (by decide)

theorem containsAny_true (con : Handle → Option Bool) :
    ∀ args : List Handle, containsAny con args = some true → ∃ a ∈ args, con a = some true := by
  intro args
  induction args with
  | nil => intro h; simp [containsAny] at h
  | cons a rest ih =>
    intro h
    cases hb : con a with
    | none => simp [containsAny, hb] at h
    | some b =>
      cases b with
      | true => exact ⟨a, List.mem_cons_self _ _, hb⟩
      | false =>
        simp only [containsAny, hb] at h
        obtain ⟨x, hx, hc⟩ := ih h
        exact ⟨x, List.mem_cons_of_mem _ hx, hc⟩

theorem containsAny_false (con : Handle → Option Bool) :
    ∀ args : List Handle, containsAny con args = some false → ∀ a ∈ args, con a = some false := by
  intro args
  induction args with
  | nil => intro _ a ha; simp at ha
  | cons a rest ih =>
    intro h x hx
    cases hb : con a with
    | none => simp [containsAny, hb] at h
    | some b =>
      cases b with
      | true => simp [containsAny, hb] at h
      | false =>
        simp only [containsAny, hb] at h
        rcases List.mem_cons.1 hx with rfl | hx
        · exact hb
        · exact ih h x hx

/-- One level of `contains`, over the children of the object. -/
theorem contains_succ (tt : TypeTable) (fuel : Nat) (h : Handle) (n : TypeNode) (x : Handle)
    (hn : tt.node h = some n) :
    contains tt (fuel + 1) h x
      = if x = h then some true else containsAny (fun c => contains tt fuel c x) n.children := by
  rw [contains, hn]
  cases n with
  | TupleType args => rfl
  | SizedArrayType elem size =>
    simp only [TypeNode.children, containsAny]
    by_cases hx : x = h
    · simp [hx]
    · simp only [hx, ↓reduceIte]
      cases contains tt fuel elem x with
      | none => rfl
      | some b => cases b <;> rfl
  | UnsizedArrayType elem =>
    simp only [TypeNode.children, containsAny]
    by_cases hx : x = h
    · simp [hx]
    · simp only [hx, ↓reduceIte]
      cases contains tt fuel elem x with
      | none => rfl
      | some b => cases b <;> rfl
  | PtrType pointee =>
    simp only [TypeNode.children, containsAny]
    by_cases hx : x = h
    · simp [hx]
    · simp only [hx, ↓reduceIte]
      cases contains tt fuel pointee x with
      | none => rfl
      | some b => cases b <;> rfl
  | FnType dom codom =>
    simp only [TypeNode.children, containsAny]
    by_cases hx : x = h
    · simp [hx]
    · simp only [hx, ↓reduceIte]
      cases contains tt fuel dom x with
      | none => rfl
      | some b =>
        cases b with
        | true => rfl
        | false =>
          simp only
          cases contains tt fuel codom x with
          | none => rfl
          | some b => cases b <;> rfl
  | TypeApp applied type_args =>
    simp only [TypeNode.children, containsAny]
  | PrimType tag => by_cases hx : x = h <;> simp [TypeNode.children, containsAny, hx]
  | NoRetType => by_cases hx : x = h <;> simp [TypeNode.children, containsAny, hx]
  | TypeError => by_cases hx : x = h <;> simp [TypeNode.children, containsAny, hx]
  | TypeVar p => by_cases hx : x = h <;> simp [TypeNode.children, containsAny, hx]
  | ForallType d => by_cases hx : x = h <;> simp [TypeNode.children, containsAny, hx]
  | StructType d => by_cases hx : x = h <;> simp [TypeNode.children, containsAny, hx]
  | EnumType d => by_cases hx : x = h <;> simp [TypeNode.children, containsAny, hx]

/-- In a closed table, an object contains `x` exactly when `x` is the
object or one of its children contains `x`. -/
theorem contains_succ_iff (tt : TypeTable) (hC : tt.Closed) (fuel : Nat) (h : Nat)
    (n : TypeNode) (x : Handle) (hn : tt.node h = some n) (hf : h ≤ fuel) :
    contains tt (fuel + 1) h x = some true ↔
      x = h ∨ ∃ c ∈ n.children, contains tt fuel c x = some true := by
  have hl : h < tt.types_.length := by
    simp only [TypeTable.node] at hn
    exact (List.getElem?_eq_some_iff.1 hn).1
  have htot : ∀ c ∈ n.children, ∃ b, contains tt fuel c x = some b := fun c hc =>
    contains_total tt hC x fuel c (Nat.lt_of_lt_of_le (hC h n hn c hc) hf)
      (Nat.lt_trans (hC h n hn c hc) hl)
  rw [contains_succ tt fuel h n x hn]
  constructor
  · intro hc
    by_cases hx : x = h
    · exact Or.inl hx
    · rw [if_neg hx] at hc
      exact Or.inr (containsAny_true _ _ hc)
  · intro hc
    by_cases hx : x = h
    · rw [if_pos hx]
    · rw [if_neg hx]
      rcases hc with hc | ⟨c, hc, ht⟩
      · exact absurd hc hx
      · exact containsAny_mem _ _ htot c hc ht

/-- In a closed table the answer `true` does not depend on the fuel, once
the fuel exceeds the handle. -/
theorem contains_true_fuel (tt : TypeTable) (hC : tt.Closed) (x : Handle) :
    ∀ (f1 : Nat) (a : Nat) (f2 : Nat), contains tt f1 a x = some true → a < f2 →
      contains tt f2 a x = some true := by
  intro f1
  induction f1 with
  | zero => intro a f2 h _; simp [contains] at h
  | succ f1 ih =>
    intro a f2 h hf
    obtain ⟨g, rfl⟩ := Nat.exists_eq_succ_of_ne_zero (Nat.not_eq_zero_of_lt hf)
    cases hn : tt.node a with
    | none => simp [contains, hn] at h
    | some n =>
      rw [Nat.succ_eq_add_one, contains_succ_iff tt hC g a n x hn (Nat.lt_succ_iff.1 hf)]
      rw [contains_succ tt f1 a n x hn] at h
      by_cases hx : x = a
      · exact Or.inl hx
      · rw [if_neg hx] at h
        obtain ⟨c, hc, ht⟩ := containsAny_true _ _ h
        exact Or.inr ⟨c, hc, ih c g ht
          (Nat.lt_of_lt_of_le (hC a n hn c hc) (Nat.lt_succ_iff.1 hf))⟩

/-- Transitivity of `contains` in a closed table. -/
theorem contains_trans_aux (tt : TypeTable) (hC : tt.Closed) (b c : Nat) (fb : Nat)
    (hbc : contains tt fb b c = some true) :
    ∀ (fa : Nat) (a : Nat) (f : Nat), contains tt fa a b = some true → a < f →
      contains tt f a c = some true := by
  intro fa
  induction fa with
  | zero => intro a f h _; simp [contains] at h
  | succ fa ih =>
    intro a f h hf
    cases hn : tt.node a with
    | none => simp [contains, hn] at h
    | some n =>
      rw [contains_succ tt fa a n b hn] at h
      by_cases hx : b = a
      · rw [← hx]
        exact contains_true_fuel tt hC c fb b f hbc (hx ▸ hf)
      · rw [if_neg hx] at h
        obtain ⟨ch, hch, ht⟩ := containsAny_true _ _ h
        obtain ⟨g, rfl⟩ := Nat.exists_eq_succ_of_ne_zero (Nat.not_eq_zero_of_lt hf)
        rw [Nat.succ_eq_add_one, contains_succ_iff tt hC g a n c hn (Nat.lt_succ_iff.1 hf)]
        exact Or.inr ⟨ch, hch, ih ch g ht
          (Nat.lt_of_lt_of_le (hC a n hn ch hch) (Nat.lt_succ_iff.1 hf))⟩

/-- C36: in a table whose objects point only to objects created before
them, and with fuel above the handle, `contains` is reflexive and
transitive, and an object contains `x` exactly when `x` is the object
itself or is contained in one of its direct children; for a tuple, an
array, a pointer and a function the children are the arguments, the
element, the pointee, and the domain and the codomain. -/
theorem contains_spec (tt : TypeTable) (hC : tt.Closed) :
    (∀ (fuel : Nat) (h : Handle) (n : TypeNode), tt.node h = some n →
      contains tt (fuel + 1) h h = some true) ∧
    (∀ (fa fb f : Nat) (a b c : Nat), contains tt fa a b = some true →
      contains tt fb b c = some true → a < f → contains tt f a c = some true) ∧
    (∀ (fuel : Nat) (h : Nat) (n : TypeNode) (x : Handle), tt.node h = some n → h ≤ fuel →
      (contains tt (fuel + 1) h x = some true ↔
        x = h ∨ ∃ c ∈ n.children, contains tt fuel c x = some true)) ∧
    (∀ args, TypeNode.children (.TupleType args) = args) ∧
    (∀ elem size, TypeNode.children (.SizedArrayType elem size) = [elem]) ∧
    (∀ elem, TypeNode.children (.UnsizedArrayType elem) = [elem]) ∧
    (∀ pointee, TypeNode.children (.PtrType pointee) = [pointee]) ∧
    (∀ dom codom, TypeNode.children (.FnType dom codom) = [dom, codom]) :=
  ⟨fun fuel h n hn => contains_self tt fuel h n hn,
    fun fa fb f a b c hab hbc hf => contains_trans_aux tt hC b c fb hbc fa a f hab hf,
    fun fuel h n x hn hf => contains_succ_iff tt hC fuel h n x hn hf,
    fun _ => rfl, fun _ _ => rfl, fun _ => rfl, fun _ => rfl, fun _ _ => rfl⟩

theorem contains_spec_witness :
    TypeTable.sampleNested.Closed ∧
    contains TypeTable.sampleNested 5 4 4 = some true ∧
    contains TypeTable.sampleNested 5 4 2 = some true ∧
    contains TypeTable.sampleNested 3 2 0 = some true ∧
    contains TypeTable.sampleNested 5 4 0 = some true ∧
    contains TypeTable.sampleNested 5 4 3 = some false :=
  ⟨closed_sampleNested,
    (contains_spec TypeTable.sampleNested closed_sampleNested).1 4 4 (.FnType 2 1) rfl,
    by decide, by decide,
    (contains_spec TypeTable.sampleNested closed_sampleNested).2.1 5 3 5 4 2 0
      (by decide) (by decide) (by decide),
    by decide⟩

theorem replaceArgs_id (rep : TypeTable → Handle → Option (Handle × TypeTable))
    (tt : TypeTable) :
    ∀ args : List Handle, (∀ a ∈ args, rep tt a = some (a, tt)) →
      replaceArgs rep tt args = some (args, tt) := by
  intro args
  induction args with
  | nil => intro _; rfl
  | cons a rest ih =>
    intro h
    simp only [replaceArgs, h a (List.mem_cons_self _ _),
      ih (fun x hx => h x (List.mem_cons_of_mem _ hx))]

theorem find_none_of_keys (map : TypeMap) (h : Handle)
    (hk : ∀ k v, (k, v) ∈ map → k ≠ h) : TypeMap.find map h = none := by
  induction map with
  | nil => rfl
  | cons p rest ih =>
    obtain ⟨k, v⟩ := p
    simp only [TypeMap.find]
    rw [if_neg (hk k v (List.mem_cons_self _ _))]
    exact ih (fun k v hm => hk k v (List.mem_cons_of_mem _ hm))

/-- In an interned and closed table, `replace` returns the object it is
called on, and the table as it was, when the object contains no key of
the map. -/
theorem replace_fixed (H : Fnv) (df : Bool) (map : TypeMap) (tt : TypeTable)
    (hI : tt.Interned) (hC : tt.Closed) :
    ∀ (fuel : Nat) (t : Nat), t < tt.types_.length → t < fuel →
      (∀ k v, (k, v) ∈ map → contains tt fuel t k = some false) →
      replace H df map fuel tt t = some (t, tt) := by
  intro fuel
  induction fuel with
  | zero => intro t _ hf; omega
  | succ fuel ih =>
    intro t hl hf hk
    obtain ⟨n, hn⟩ : ∃ n, tt.node t = some n :=
      ⟨tt.types_[t], by simp only [TypeTable.node]; exact List.getElem?_eq_getElem hl⟩
    have hne : ∀ k v, (k, v) ∈ map → k ≠ t := by
      intro k v hm hkt
      have h1 := hk k v hm
      rw [contains_succ tt fuel t n k hn, if_pos hkt] at h1
      cases h1
    have hchild : ∀ c ∈ n.children, replace H df map fuel tt c = some (c, tt) := by
      intro c hc
      have hlt : c < t := hC t n hn c hc
      apply ih c (Nat.lt_trans hlt hl) (Nat.lt_of_lt_of_le hlt (Nat.lt_succ_iff.1 hf))
      intro k v hm
      have h1 := hk k v hm
      rw [contains_succ tt fuel t n k hn, if_neg (hne k v hm)] at h1
      exact containsAny_false _ _ h1 c hc
    rw [replace, hn]
    cases n with
    | TupleType args =>
      simp only
      rw [replaceArgs_id _ tt args (fun a ha => hchild a ha)]
      simp only [TypeTable.tuple_type]
      rw [interned_insert_stored H hI hn rfl]
    | SizedArrayType elem size =>
      simp only
      rw [hchild elem (by simp [TypeNode.children])]
      simp only [TypeTable.sized_array_type]
      rw [interned_insert_stored H hI hn rfl]
    | UnsizedArrayType elem =>
      simp only
      rw [hchild elem (by simp [TypeNode.children])]
      simp only [TypeTable.unsized_array_type]
      rw [interned_insert_stored H hI hn rfl]
    | PtrType pointee =>
      simp only
      rw [hchild pointee (by simp [TypeNode.children])]
      simp only [TypeTable.ptr_type]
      rw [interned_insert_stored H hI hn rfl]
    | FnType dom codom =>
      simp only
      have hd := hchild dom (by simp [TypeNode.children])
      have hc := hchild codom (by simp [TypeNode.children])
      cases df with
      | true =>
        simp only [↓reduceIte, hd, hc, TypeTable.fn_type]
        rw [interned_insert_stored H hI hn rfl]
      | false =>
        simp only [Bool.false_eq_true, ↓reduceIte, hd, hc, TypeTable.fn_type]
        rw [interned_insert_stored H hI hn rfl]
    | TypeVar p =>
      simp only
      rw [find_none_of_keys map t hne]
    | TypeApp applied type_args =>
      simp only
      rw [replaceArgs_id _ tt type_args
        (fun a ha => hchild a (by simp [TypeNode.children, ha]))]
      simp only [TypeTable.type_app]
      rw [interned_insert_stored H hI hn rfl]
    | PrimType tag => rfl
    | NoRetType => rfl
    | TypeError => rfl
    | ForallType d => rfl
    | StructType d => rfl
    | EnumType d => rfl

/-- C32: in a table that interns its structural objects and whose objects
point only to objects created before them, `replace` called on a stored
type `t`, with fuel above its handle and a map none of whose keys is
contained in `t`, returns the handle `t` and the table unchanged; so it
does with the empty map. -/
theorem replace_without_keys (H : Fnv) (df : Bool) (tt : TypeTable) (hI : tt.Interned)
    (hC : tt.Closed) (fuel : Nat) (t : Nat) (ht : t < tt.types_.length) (hf : t < fuel) :
    (∀ map : TypeMap, (∀ k v, (k, v) ∈ map → contains tt fuel t k = some false) →
      replace H df map fuel tt t = some (t, tt)) ∧
    replace H df [] fuel tt t = some (t, tt) :=
  ⟨fun map hk => replace_fixed H df map tt hI hC fuel t ht hf hk,
    replace_fixed H df [] tt hI hC fuel t ht hf (fun _ _ hm => absurd hm (List.not_mem_nil _))⟩

theorem replace_without_keys_witness :
    TypeTable.sampleNested.Interned ∧ TypeTable.sampleNested.Closed ∧
    contains TypeTable.sampleNested 5 4 3 = some false ∧
    replace Fnv.sample true [(3, 1)] 5 TypeTable.sampleNested 4
      = some (4, TypeTable.sampleNested) ∧
    replace Fnv.sample true [] 5 TypeTable.sampleNested 4 = some (4, TypeTable.sampleNested) ∧
    (replace Fnv.sample true [(0, 1)] 5 TypeTable.sampleNested 4).map Prod.fst = some 6 :=
  ⟨interned_insertAll Fnv.sample interned_empty _, closed_sampleNested, by decide,
    (replace_without_keys Fnv.sample true TypeTable.sampleNested
      (interned_insertAll Fnv.sample interned_empty _) closed_sampleNested 5 4
      (by decide) (by decide)).1 [(3, 1)]
      (fun k v hm => by
        simp only [List.mem_singleton, Prod.mk.injEq] at hm
        rw [hm.1]
        decide),
    (replace_without_keys Fnv.sample true TypeTable.sampleNested
      (interned_insertAll Fnv.sample interned_empty _) closed_sampleNested 5 4
      (by decide) (by decide)).2,
    by decide⟩

/-! ## Properties of the conditional and of the module name -/

/-- Without an else branch, `IfExpr::infer` is `IfExpr::check` at the unit
type, and `IfExpr::check` returns what the check of the then-branch
against the expected type returns. -/
theorem if_without_else {T : Type} (ops : CheckOps T) (rec : Rec T) (w : Walk T)
    (cond if_true : NodeId) (expected : T) :
    IfExpr.infer ops rec w cond if_true none
      = IfExpr.check ops rec w cond if_true none ops.unit_type ∧
    (∀ (t : T) (w1 : Walk T), rec (.check cond (ops.prim_type ops.tag_bool)) w = .ok (t, w1) →
      IfExpr.infer ops rec w cond if_true none = rec (.check if_true ops.unit_type) w1 ∧
      IfExpr.check ops rec w cond if_true none expected = rec (.check if_true expected) w1) := by
  refine ⟨?_, ?_⟩
  · simp only [IfExpr.infer, IfExpr.check]
    cases h : rec (.check cond (ops.prim_type ops.tag_bool)) w with
    | error e => rfl
    | ok p =>
      obtain ⟨t, w1⟩ := p
      simp only [ok_bind]
      cases h2 : rec (.check if_true ops.unit_type) w1 with
      | error e => rfl
      | ok q => rfl
  · intro t w1 h
    simp only [IfExpr.infer, IfExpr.check, h, ok_bind]
    refine ⟨trivial, ?_⟩
    cases h2 : rec (.check if_true expected) w1 with
    | error e => rfl
    | ok q => rfl

/-- C37, where the code departs from it: on `if b { x }` with `x` of the
type with tag 1, `IfExpr::check` against that type returns it and reports
nothing, while `IfExpr::infer` checks the block against the unit type,
reports `expected type unit, got ...` and returns the error type. -/
theorem if_check_without_else :
    summary (visit CheckOps.sample SyntaxTree.sampleIfValue 8 (.check 0 (.prim 1))
        Walk.sampleIfValue)
      = .ok (.prim 1, 0, [],
          [(7, .prim 1), (8, .prim 0), (2, .prim 0), (1, .prim 0), (1, .prim 0), (6, .prim 1),
            (5, .prim 1), (5, .prim 1), (4, .prim 1), (3, .prim 1), (0, .prim 1)]) ∧
    summary (visit CheckOps.sample SyntaxTree.sampleIfValue 8 (.infer 0) Walk.sampleIfValue)
      = .ok (.error, 1, [.error ⟨7, 8⟩ (.expected_got_type .unit (.prim 1))],
          [(7, .prim 1), (8, .prim 0), (2, .prim 0), (1, .prim 0), (1, .prim 0), (6, .prim 1),
            (5, .prim 1), (5, .error), (4, .error), (3, .error), (0, .error)]) ∧
    CheckOps.sample.unit_type = .unit ∧ CheckOps.sample.error_type = .error :=
  ⟨by decide, by decide, rfl, rfl⟩

/-- No position is found in a path without a character of `chars`. -/
theorem find_last_of_none_of (chars : List Char) (l : List Char)
    (h : ∀ x ∈ l, x ∉ chars) : find_last_of l chars = none := by
  induction l with
  | nil => rfl
  | cons a l ih =>
    have h1 := ih (fun x hx => h x (List.mem_cons_of_mem _ hx))
    have h2 := h a (List.mem_cons_self _ _)
    simp [find_last_of, h1, h2]

/-- The position found is that of the last character of `chars`. -/
theorem find_last_of_eval (chars : List Char) (pre : List Char) (c : Char) (post : List Char)
    (hc : c ∈ chars) (hp : ∀ x ∈ post, x ∉ chars) :
    find_last_of (pre ++ c :: post) chars = some pre.length := by
  induction pre with
  | nil => simp [find_last_of, find_last_of_none_of chars post hp, hc]
  | cons a pre ih => simp [find_last_of, ih]

/-- A path has no character of `chars`, or a last one. -/
theorem split_last (chars : List Char) (l : List Char) :
    (∀ x ∈ l, x ∉ chars) ∨
    ∃ pre c post, l = pre ++ c :: post ∧ c ∈ chars ∧ ∀ x ∈ post, x ∉ chars := by
  induction l with
  | nil => exact Or.inl (fun x hx => absurd hx (List.not_mem_nil x))
  | cons a l ih =>
    rcases ih with h | ⟨pre, c, post, rfl, hc, hp⟩
    · by_cases ha : a ∈ chars
      · exact Or.inr ⟨[], a, l, rfl, ha, h⟩
      · refine Or.inl (fun x hx => ?_)
        rcases List.mem_cons.1 hx with rfl | hx
        · exact ha
        · exact h x hx
    · exact Or.inr ⟨a :: pre, c, post, rfl, hc, hp⟩

/-- What `file_without_ext` returns of a name without a separator. -/
theorem strip_ext (name : List Char) :
    ('.' ∉ name ∧
        (match rfind name '.' with
          | some ext => if ext ≠ 0 then name.take ext else name
          | none => name) = name) ∨
    ∃ stem ext, name = stem ++ '.' :: ext ∧ '.' ∉ ext ∧
      ((stem ≠ [] ∧
          (match rfind name '.' with
            | some ext => if ext ≠ 0 then name.take ext else name
            | none => name) = stem) ∨
        (stem = [] ∧
          (match rfind name '.' with
            | some ext => if ext ≠ 0 then name.take ext else name
            | none => name) = name)) := by
  rcases split_last ['.'] name with h | ⟨stem, c, ext, rfl, hc, hp⟩
  · left
    have hn : '.' ∉ name := fun hm => h '.' hm (List.mem_singleton_self _)
    refine ⟨hn, ?_⟩
    rw [rfind, find_last_of_none_of _ _ h]
  · right
    have hc2 : c = '.' := List.mem_singleton.1 hc
    subst hc2
    have hn : '.' ∉ ext := fun hm => hp '.' hm (List.mem_singleton_self _)
    refine ⟨stem, ext, rfl, hn, ?_⟩
    rw [rfind, find_last_of_eval _ _ _ _ hc hp]
    by_cases hs : stem = []
    · right
      subst hs
      exact ⟨rfl, rfl⟩
    · left
      refine ⟨hs, ?_⟩
      have hl : stem.length ≠ 0 := fun h0 => hs (List.length_eq_zero.1 h0)
      simp only [hl, ne_eq, not_false_eq_true, ↓reduceIte]
      exact List.take_left' rfl

/-- C38: for every path, `file_without_ext` works on the name that follows
the last slash or backslash of the path (the whole path when it has
none): it returns the name when the name has no dot or its last dot is
its first character, and otherwise the part of the name before its last
dot; the result has no slash and no backslash and is a contiguous part of
the path. -/
theorem file_without_ext_spec (path : String) :
    (∃ dir name, path.data = dir ++ name ∧
      (dir = [] ∨ ∃ d s, dir = d ++ [s] ∧ (s = '/' ∨ s = Char.ofNat 92)) ∧
      (∀ c ∈ name, c ≠ '/' ∧ c ≠ Char.ofNat 92) ∧
      (('.' ∉ name ∧ (file_without_ext path).data = name) ∨
        ∃ stem ext, name = stem ++ '.' :: ext ∧ '.' ∉ ext ∧
          ((stem ≠ [] ∧ (file_without_ext path).data = stem) ∨
            (stem = [] ∧ (file_without_ext path).data = name)))) ∧
    (∀ c ∈ (file_without_ext path).data, c ≠ '/' ∧ c ≠ Char.ofNat 92) ∧
    (file_without_ext path).data <:+: path.data := by
  have key : ∃ dir name, path.data = dir ++ name ∧
      (dir = [] ∨ ∃ d s, dir = d ++ [s] ∧ (s = '/' ∨ s = Char.ofNat 92)) ∧
      (∀ c ∈ name, c ≠ '/' ∧ c ≠ Char.ofNat 92) ∧
      (('.' ∉ name ∧ (file_without_ext path).data = name) ∨
        ∃ stem ext, name = stem ++ '.' :: ext ∧ '.' ∉ ext ∧
          ((stem ≠ [] ∧ (file_without_ext path).data = stem) ∨
            (stem = [] ∧ (file_without_ext path).data = name))) := by
    have hsep : ∀ (l : List Char), (∀ x ∈ l, x ∉ ['/', Char.ofNat 92]) →
        ∀ c ∈ l, c ≠ '/' ∧ c ≠ Char.ofNat 92 := by
      intro l h c hc
      have := h c hc
      simp only [List.mem_cons, List.mem_singleton, List.not_mem_nil, or_false, not_or] at this
      exact this
    rcases split_last ['/', Char.ofNat 92] path.data with h | ⟨pre, c, post, hpath, hc, hp⟩
    · refine ⟨[], path.data, rfl, Or.inl rfl, hsep _ h, ?_⟩
      have hr : (file_without_ext path).data
          = (match rfind path.data '.' with
            | some ext => if ext ≠ 0 then path.data.take ext else path.data
            | none => path.data) := by
        show file_without_ext_chars path.data = _
        simp only [file_without_ext_chars, find_last_of_none_of _ _ h]
      rw [hr]
      exact strip_ext path.data
    · refine ⟨pre ++ [c], post, by rw [hpath]; simp, Or.inr ⟨pre, c, rfl, ?_⟩, hsep _ hp, ?_⟩
      · simpa using hc
      · have hd : (pre ++ c :: post).drop (pre.length + 1) = post := by
          have : pre ++ c :: post = (pre ++ [c]) ++ post := by simp
          rw [this]
          exact List.drop_left' (by simp)
        have hr : (file_without_ext path).data
            = (match rfind post '.' with
              | some ext => if ext ≠ 0 then post.take ext else post
              | none => post) := by
          show file_without_ext_chars path.data = _
          simp only [file_without_ext_chars, hpath, find_last_of_eval _ _ _ _ hc hp, hd]
        rw [hr]
        exact strip_ext post
  refine ⟨key, ?_, ?_⟩
  · obtain ⟨dir, name, _, _, hname, hres⟩ := key
    intro c hc
    rcases hres with ⟨_, he⟩ | ⟨stem, ext, hn, _, ⟨_, he⟩ | ⟨_, he⟩⟩
    · exact hname c (he ▸ hc)
    · rw [he] at hc
      exact hname c (hn ▸ List.mem_append_left _ hc)
    · exact hname c (he ▸ hc)
  · obtain ⟨dir, name, hpath, _, _, hres⟩ := key
    rcases hres with ⟨_, he⟩ | ⟨stem, ext, hn, _, ⟨_, he⟩ | ⟨_, he⟩⟩
    · rw [he, hpath]
      exact (List.suffix_append dir name).isInfix
    · rw [he, hpath, hn]
      exact ⟨dir, '.' :: ext, by simp⟩
    · rw [he, hpath]
      exact (List.suffix_append dir name).isInfix

theorem file_without_ext_spec_witness :
    file_without_ext "src/main.v2.art" = "main.v2" ∧
    file_without_ext "dir.d/.profile" = ".profile" ∧
    (∀ c ∈ (file_without_ext "src/main.v2.art").data, c ≠ '/' ∧ c ≠ Char.ofNat 92) ∧
    (file_without_ext "src/main.v2.art").data <:+: "src/main.v2.art".data :=
  ⟨by decide, by decide, (file_without_ext_spec "src/main.v2.art").2.1,
    (file_without_ext_spec "src/main.v2.art").2.2⟩

end Artic
